import Mathlib

/-!
The util3d text typesetter: UTF-8 decoder, atlas sizing and the sort cache

A shallow embedding of `src/type.c`, with the matrix functions of `src/math3d.c`
and the simplex noise of `src/noise.c`.

* C `int` values are modelled by unbounded integers (`Int`), and values that the
  code keeps non-negative by masking by naturals (`Nat`); signed overflow is
  undefined in C, so every statement is about runs that stay inside the `int`
  range.
* A C string is a list of bytes. A cursor (`const char *`) is an index into the
  list; the terminating NUL and everything after it read as `0`.
* The array `F->sorts` together with its length `F->n` is one list.
* The FreeType face is a function from the character code to the glyph slot
  that `FT_Load_Glyph` leaves behind (26.6 fixed point values).
* `realloc` is an oracle: it is asked for a number of sorts and answers whether
  the allocation succeeds.
* Loops and the recursion of `font_sort_search` take a fuel argument; running
  out of fuel is the outcome `none`.
* `float` and `double` values are exact rationals; the conversion `(int)` is
  truncation toward zero.
* The loops `for (p = str; (c = utf8(&p));)` run over the list `utf8_codes str`
  of the codes that the successive calls of `utf8` return before the first 0.
* `calloc` and `realloc` of the typesetter are oracles gathered in `allocator`.
* The calls of `font_create` to the glyph provider are given by their outcomes
  (`FT_Library`); the messages passed to `warn` are collected in a list.
* The type `real` of `math3d.c` is an ordered field with exact arithmetic; an
  array of 4 or 16 entries is a function on the indices.
* The division of `layout` by the number of spaces is total in `layout_step`;
  `layout_step_checked` makes a division by zero the outcome `none`.
* In `noise.c` the arrays of three entries are lists, an index outside them is
  the outcome `none`, and the four calls of `K` in the sum that `noise_sample`
  returns are made from left to right.
-/

namespace Util3d

/-! ## Definitions -/

/-- A NUL-terminated C string, given by its bytes before the terminator. -/
abbrev CString := List (Fin 256)

/-- The byte stored at cursor `p`, as the non-negative value of its eight bits.
Positions past the end of the list hold the terminator. -/
def peek (str : CString) (p : Nat) : Nat := (str.getD p 0).val

/-- The function `utf8` of `type.c`: decode the character at cursor `p`.
Returns the decoded value and the advanced cursor. -/
def utf8 (str : CString) (p : Nat) : Nat × Nat :=
  if peek str p &&& 0x80 = 0x00 then
    let a := peek str p
    (a, p + 1)
  else if peek str p &&& 0xE0 = 0xC0 then
    let a := peek str p &&& 0x1F
    let b := peek str (p + 1) &&& 0x3F
    ((a <<< 6) ||| b, p + 2)
  else if peek str p &&& 0xF0 = 0xE0 then
    let a := peek str p &&& 0x0F
    let b := peek str (p + 1) &&& 0x3F
    let c := peek str (p + 2) &&& 0x3F
    ((a <<< 12) ||| (b <<< 6) ||| c, p + 3)
  else if peek str p &&& 0xF8 = 0xF0 then
    let a := peek str p &&& 0x07
    let b := peek str (p + 1) &&& 0x3F
    let c := peek str (p + 2) &&& 0x3F
    let d := peek str (p + 3) &&& 0x3F
    ((a <<< 18) ||| (b <<< 12) ||| (c <<< 8) ||| d, p + 4)
  else
    (0, p)

/-- The standard UTF-8 encoding of a scalar value, following the table of the
specification (section 4.1): one byte `0xxxxxxx` with 7 payload bits, two bytes
`110xxxxx 10xxxxxx` with 5 + 6 bits, three bytes `1110xxxx 10xxxxxx 10xxxxxx`
with 4 + 6 + 6 bits, four bytes `11110xxx` and three continuation bytes with
3 + 6 + 6 + 6 bits. This is the reference the decoder is compared with; the
source has no encoder. -/
def utf8_encode (c : Nat) : CString :=
  if c < 0x80 then
    [Fin.ofNat c]
  else if c < 0x800 then
    [Fin.ofNat (0xC0 + c / 0x40), Fin.ofNat (0x80 + c % 0x40)]
  else if c < 0x10000 then
    [Fin.ofNat (0xE0 + c / 0x1000), Fin.ofNat (0x80 + c / 0x40 % 0x40),
     Fin.ofNat (0x80 + c % 0x40)]
  else
    [Fin.ofNat (0xF0 + c / 0x40000), Fin.ofNat (0x80 + c / 0x1000 % 0x40),
     Fin.ofNat (0x80 + c / 0x40 % 0x40), Fin.ofNat (0x80 + c % 0x40)]

/-- The loop of `atlas_size`: `while (s < h * 4) s *= 2;`. Each evaluation of the
loop condition costs one unit of fuel. -/
def atlas_size_loop (h : Int) : Nat → Int → Option Int
  | 0, _ => none
  | fuel + 1, s => if s < h * 4 then atlas_size_loop h fuel (s * 2) else some s

/-- The function `atlas_size` of `type.c`. -/
def atlas_size (fuel : Nat) (h : Int) : Option Int :=
  atlas_size_loop h fuel 1

/-- The record `struct sort`: character code, glyph metrics, atlas placement. -/
structure sort where
  c : Int
  x : Int
  y : Int
  a : Int
  X : Int
  Y : Int
  W : Int
  H : Int
deriving DecidableEq, Repr

/-- The record `struct font`, without the handles of FreeType and OpenGL.
The list `sorts` stands for the array `sorts` and its length `n`. -/
structure font where
  h : Int
  a : Int
  k : ℚ
  sorts : List sort
  s : Int
  x : Int
  y : Int
  m : Int
deriving DecidableEq

/-- The field `n` of `struct font`. -/
def font.n (F : font) : Nat := F.sorts.length

/-- The comparison `sortcmp1`: a key against a sort. -/
def sortcmp1 (p : Int) (S : sort) : Int :=
  if p < S.c then -1
  else if p > S.c then 1
  else 0

/-- The comparison `sortcmp2`: two sorts. -/
def sortcmp2 (S T : sort) : Int :=
  if S.c < T.c then -1
  else if S.c > T.c then 1
  else 0

/-- The loop of the C library's `bsearch` with comparison `sortcmp1`, over the
half-open index range `[l, u)`. Returns the index of the match. -/
def bsearch_loop (key : Int) (base : List sort) : Nat → Nat → Nat → Option Nat
  | 0, _, _ => none
  | fuel + 1, l, u =>
    if l < u then
      let idx := (l + u) / 2
      match base[idx]? with
      | none => none
      | some S =>
        if sortcmp1 key S < 0 then bsearch_loop key base fuel l idx
        else if sortcmp1 key S > 0 then bsearch_loop key base fuel (idx + 1) u
        else some idx
    else none

/-- The C library's `bsearch(&c, base, nmemb, sizeof (sort), sortcmp1)`: binary
search among the first `nmemb` sorts. The range halves at every step, so
`nmemb` units of fuel never run out. -/
def bsearch (key : Int) (base : List sort) (nmemb : Nat) : Option Nat :=
  bsearch_loop key base nmemb 0 nmemb

/-- The order that `sortcmp2` gives to `qsort`. -/
def sort_le (S T : sort) : Prop := sortcmp2 S T ≤ 0

instance sort_le_decidable : DecidableRel sort_le :=
  fun S T => inferInstanceAs (Decidable (sortcmp2 S T ≤ 0))

instance sort_le_total : IsTotal sort sort_le :=
  ⟨fun S T => by
    unfold sort_le sortcmp2
    split_ifs <;> omega⟩

instance sort_le_trans : IsTrans sort sort_le :=
  ⟨fun S T U => by
    unfold sort_le sortcmp2
    intro h1 h2
    split_ifs at h1 h2 ⊢ <;> omega⟩

/-- The C library's `qsort(base, n, sizeof (sort), sortcmp2)`: the array
rearranged into the order of the comparison. The order among sorts that
compare equal is not fixed by the C standard; here it is that of an insertion
sort. -/
def qsort (base : List sort) : List sort :=
  base.insertionSort sort_le

/-- Write through a pointer into the sort array: `f` applied to the sort at
index `i`. -/
def poke : List sort → Nat → (sort → sort) → List sort
  | [], _, _ => []
  | S :: rest, 0, f => f S :: rest
  | S :: rest, i + 1, f => S :: poke rest i f

/-- What `FT_Load_Glyph` leaves in `face->glyph`, in 26.6 fixed point. -/
structure FT_GlyphSlot where
  horiBearingX : Int
  horiBearingY : Int
  width : Int
  height : Int
  advance_x : Int
deriving DecidableEq

/-- The glyph provider: the glyph slot after loading character code `c`. -/
abbrev FT_Face := Int → FT_GlyphSlot

/-- The cursor step of `font_sort_create`: start a new shelf when the glyph of
width `W` does not fit the current one. -/
def shelf (F : font) (W : Int) : font :=
  if F.x + W ≥ F.s then { F with y := F.y + F.m + 1, x := 0, m := 0 } else F

/-- The function `font_sort_create` of `type.c`; `i` is the index of the sort
`S` in the table of `F`. The uploads to the texture are not modelled. -/
def font_sort_create (face : FT_Face) (F : font) (i : Nat) (c : Int) : font :=
  let g := face c
  let W := g.width >>> (6 : Nat)
  let H := g.height >>> (6 : Nat)
  let F1 := shelf F W
  { F1 with
    sorts := poke F1.sorts i (fun S =>
      { S with x := g.horiBearingX >>> (6 : Nat), y := g.horiBearingY >>> (6 : Nat), W := W, H := H,
               a := g.advance_x >>> (6 : Nat), X := F1.x, Y := F1.y })
    x := F1.x + W + 1
    m := if H > F1.m then H else F1.m }

/-- The sort at `T + F->n` after `S->c = c`: fresh memory of which only the
character code is set; `font_sort_create` writes every other field. -/
def sort_blank (c : Int) : sort :=
  { c := c, x := 0, y := 0, a := 0, X := 0, Y := 0, W := 0, H := 0 }

/-- The miss branch of `font_sort_search` after a successful `realloc`, up to
the recursive call: append the sort, create it, sort the table. -/
def font_sort_insert (face : FT_Face) (F : font) (c : Int) : font :=
  let F1 := { F with sorts := F.sorts ++ [sort_blank c] }
  let F2 := font_sort_create face F1 F.n c
  { F2 with sorts := qsort F2.sorts }

/-- The function `font_sort_search` of `type.c`. The oracle `realloc` tells
whether growing the table to the given number of sorts succeeds. The result is
the font afterwards and the sort found (`none` for the null pointer); the outer
`none` means that the recursion ran out of fuel. -/
def font_sort_search (face : FT_Face) (realloc : Nat → Bool) :
    Nat → font → Int → Option (font × Option sort)
  | 0, _, _ => none
  | fuel + 1, F, c =>
    match bsearch c F.sorts F.n with
    | some idx => some (F, F.sorts[idx]?)
    | none =>
      if realloc (F.n + 1) then
        font_sort_search face realloc fuel (font_sort_insert face F c) c
      else
        some (F, none)

/-- The sort that `font_sort_create` completes for the character code `c` when
the font is in state `F`. -/
def sort_placed (face : FT_Face) (F : font) (c : Int) : sort :=
  { c := c
    x := (face c).horiBearingX >>> (6 : Nat)
    y := (face c).horiBearingY >>> (6 : Nat)
    a := (face c).advance_x >>> (6 : Nat)
    X := (shelf F ((face c).width >>> (6 : Nat))).x
    Y := (shelf F ((face c).width >>> (6 : Nat))).y
    W := (face c).width >>> (6 : Nat)
    H := (face c).height >>> (6 : Nat) }

/-- The table is in ascending order of the character code, equal codes
allowed: the order that `bsearch` requires. -/
def ascending_table (l : List sort) : Prop :=
  l.Pairwise (fun S T => S.c ≤ T.c)

/-- The table is strictly increasing in the character code. -/
def sorted_table (l : List sort) : Prop :=
  l.Pairwise (fun S T => S.c < T.c)

/-- A font as `font_create` leaves it: zeroed by `calloc`, then `k`, `a`, `h`
and the atlas size `s` filled in. -/
def font_fresh (h a : Int) (k : ℚ) (s : Int) : font :=
  { h := h, a := a, k := k, sorts := [], s := s, x := 0, y := 0, m := 0 }

/-- A sequence of calls of `font_sort_search`, each with its character code and
its own allocation oracle. -/
def sort_lookups (face : FT_Face) (fuel : Nat) : font → List (Int × (Nat → Bool)) → Option font
  | F, [] => some F
  | F, (c, realloc) :: rest =>
    match font_sort_search face realloc fuel F c with
    | none => none
    | some (F1, _) => sort_lookups face fuel F1 rest

/-- The point `(px, py)` lies in the atlas rectangle
`[X, X + W) x [Y, Y + H)` of the sort. -/
def sort.covers (S : sort) (px py : Int) : Prop :=
  S.X ≤ px ∧ px < S.X + S.W ∧ S.Y ≤ py ∧ py < S.Y + S.H

/-- The face returns non-negative widths and heights. -/
def face_nonneg (face : FT_Face) : Prop :=
  ∀ c, 0 ≤ (face c).width ∧ 0 ≤ (face c).height

/-- Two sorts are kept apart by the gutter: on one shelf they are at least one
pixel apart horizontally, on different shelves at least one pixel apart
vertically. -/
def sort.apart (S T : sort) : Prop :=
  (S.Y = T.Y ∧ (S.X + S.W + 1 ≤ T.X ∨ T.X + T.W + 1 ≤ S.X)) ∨
    S.Y + S.H + 1 ≤ T.Y ∨ T.Y + T.H + 1 ≤ S.Y

/-- The place of a sort relative to the packing cursor of the font: it has a
non-negative size and position, it ends before the right edge of the atlas when
its width allows, and it lies either on the current shelf, left of the cursor
and not taller than `m`, or on an earlier shelf above the current one. -/
def sort.shelved (F : font) (S : sort) : Prop :=
  0 ≤ S.W ∧ 0 ≤ S.H ∧ 0 ≤ S.X ∧ 0 ≤ S.Y ∧
    (S.W < F.s → S.X + S.W < F.s) ∧ (S.W ≤ F.s → S.X + S.W ≤ F.s) ∧
    ((S.Y = F.y ∧ S.X + S.W + 1 ≤ F.x ∧ S.H ≤ F.m) ∨ S.Y + S.H + 1 ≤ F.y)

/-- The packing invariant of a font. -/
structure pack_inv (F : font) : Prop where
  x_nonneg : 0 ≤ F.x
  y_nonneg : 0 ≤ F.y
  m_nonneg : 0 ≤ F.m
  shelved : ∀ S ∈ F.sorts, sort.shelved F S
  apart : F.sorts.Pairwise sort.apart

/-- A face for the examples: every glyph is 10 by 10 pixels, with bearings
(1, 9) and advance 11. -/
def face_square : FT_Face :=
  fun _ => { horiBearingX := 64, horiBearingY := 576, width := 640, height := 640,
             advance_x := 704 }

/-- The allocation oracle that always succeeds. -/
def realloc_ok : Nat → Bool := fun _ => true

/-- The allocation oracle that always fails. -/
def realloc_fail : Nat → Bool := fun _ => false

/-! ## Definitions: the typesetter -/

/-- The character codes that the loop header `for (p = str; (c = utf8(&p));)`
hands to its body, in order: the results of the successive calls of `utf8`
from cursor `p` up to the first result 0. Each call costs one unit of fuel. -/
def utf8_codes_from (str : CString) : Nat → Nat → List Nat
  | 0, _ => []
  | fuel + 1, p =>
    if (utf8 str p).1 = 0 then []
    else (utf8 str p).1 :: utf8_codes_from str fuel (utf8 str p).2

/-- The codes of a whole string. A call that does not return 0 advances the
cursor, and a cursor at or past the terminator returns 0, so `length + 1`
calls are enough. -/
def utf8_codes (str : CString) : List Nat :=
  utf8_codes_from str (str.length + 1) 0

/-- The kerning side of the glyph provider: `FT_Get_Char_Index` and the `x`
component, in 26.6 fixed point, that `FT_Get_Kerning` stores for a pair of
glyph indices. -/
structure FT_Kerning where
  char_index : Int → Nat
  kerning_x : Nat → Nat → Int

/-- The record `struct vert`, in exact arithmetic. -/
structure vert where
  v0 : ℚ
  v1 : ℚ
  v2 : ℚ
  t0 : ℚ
  t1 : ℚ
deriving DecidableEq

/-- The conversion `(int)` of a floating value: truncation toward zero. -/
def to_int (q : ℚ) : Int :=
  if 0 ≤ q then ⌊q⌋ else ⌈q⌉

/-- The function `line_set` of `type.c` in exact arithmetic. The four
vertices are written at `v[off] .. v[off + 3]`; the result is the vertex array
and the returned pen. -/
def line_set (v : List vert) (off : Nat) (S : sort) (s : Int) (x : Int) (k : ℚ)
    (M : Nat → ℚ) : List vert × Int :=
  let tl : ℚ := (S.X : ℚ) / (s : ℚ)
  let tr : ℚ := ((S.X + S.W : Int) : ℚ) / (s : ℚ)
  let tt : ℚ := (S.Y : ℚ) / (s : ℚ)
  let tb : ℚ := ((S.Y + S.H : Int) : ℚ) / (s : ℚ)
  let vl : ℚ := (S.x : ℚ) + (x : ℚ)
  let vr : ℚ := (S.x : ℚ) + (S.W : ℚ) + (x : ℚ)
  let vt : ℚ := (S.y : ℚ)
  let vb : ℚ := (S.y : ℚ) - (S.H : ℚ)
  let q0 : vert :=
    { v0 := M 0 * vl + M 4 * vb + M 12, v1 := M 1 * vl + M 5 * vb + M 13,
      v2 := M 2 * vl + M 6 * vb + M 14, t0 := tl, t1 := tb }
  let q1 : vert :=
    { v0 := M 0 * vr + M 4 * vb + M 12, v1 := M 1 * vr + M 5 * vb + M 13,
      v2 := M 2 * vr + M 6 * vb + M 14, t0 := tr, t1 := tb }
  let q2 : vert :=
    { v0 := M 0 * vr + M 4 * vt + M 12, v1 := M 1 * vr + M 5 * vt + M 13,
      v2 := M 2 * vr + M 6 * vt + M 14, t0 := tr, t1 := tt }
  let q3 : vert :=
    { v0 := M 0 * vl + M 4 * vt + M 12, v1 := M 1 * vl + M 5 * vt + M 13,
      v2 := M 2 * vl + M 6 * vt + M 14, t0 := tl, t1 := tt }
  ((((v.set off q0).set (off + 1) q1).set (off + 2) q2).set (off + 3) q3,
    to_int ((x : ℚ) + (S.a : ℚ) * k))

/-- A call `font_sort_search(F, c)` as the typesetter makes it: two levels of
recursion are always enough (theorem `font_sort_search_fuel`), so the result is
that of `font_sort_search` with fuel 2. -/
def font_sort_lookup (face : FT_Face) (realloc : Nat → Bool) (F : font) (c : Int) :
    font × Option sort :=
  (font_sort_search face realloc 2 F c).getD (F, none)

/-- The font, the vertex array and the locals `x`, `e`, `i`, `l` of `layout`
during its second loop. -/
structure layout_state where
  F : font
  v : List vert
  x : Int
  e : Int
  i : Nat
  l : Nat

/-- The first loop of `layout`: the pair `(s, n)` of the numbers of spaces and
of other characters. -/
def layout_count (codes : List Nat) : Int × Int :=
  codes.foldl (fun sn c => if c = 32 then (sn.1 + 1, sn.2) else (sn.1, sn.2 + 1)) (0, 0)

/-- The body of the second loop of `layout` for the character `c`. The vertex
array `v` of the C function starts at index `off` of the array of the state;
`s` is the number of spaces, `realloc` the allocator met by this iteration. -/
def layout_step (face : FT_Face) (kern : FT_Kerning) (realloc : Nat → Bool) (off : Nat)
    (s exp : Int) (mat : Nat → ℚ) (st : layout_state) (c : Nat) : layout_state :=
  if c = 32 then
    { st with
      x := st.x + to_int ((st.F.a : ℚ) * st.F.k + ((Int.tdiv (exp * (st.e + 1)) s : Int) : ℚ)
              - ((Int.tdiv (exp * st.e) s : Int) : ℚ))
      e := st.e + 1 }
  else
    match font_sort_lookup face realloc st.F (c : Int) with
    | (F1, some S) =>
      let r := kern.char_index (c : Int)
      let kx := kern.kerning_x st.l r
      let res := line_set st.v (off + 4 * st.i) S F1.s (st.x + kx >>> (6 : Nat)) F1.k mat
      { F := F1, v := res.1, x := res.2, e := st.e, i := st.i + 1, l := r }
    | (F1, none) => { st with F := F1 }

/-- The second loop of `layout` over the codes of the string; `t` numbers the
iterations, and iteration `t` meets the allocator `realloc t`. -/
def layout_loop (face : FT_Face) (kern : FT_Kerning) (realloc : Nat → Nat → Bool) (off : Nat)
    (s exp : Int) (mat : Nat → ℚ) : List Nat → Nat → layout_state → layout_state
  | [], _, st => st
  | c :: cs, t, st =>
    layout_loop face kern realloc off s exp mat cs (t + 1)
      (layout_step face kern (realloc t) off s exp mat st c)

/-- The function `layout` of `type.c`, up to the exit of its second loop: the
state with the final pen `x` and the number `i` of glyphs set. -/
def layout_run (face : FT_Face) (kern : FT_Kerning) (realloc : Nat → Nat → Bool)
    (v : List vert) (off : Nat) (str : CString) (exp : Int) (mat : Nat → ℚ) (F : font) :
    layout_state :=
  layout_loop face kern realloc off (layout_count (utf8_codes str)).1 exp mat (utf8_codes str) 0
    { F := F, v := v, x := 0, e := 0, i := 0, l := 0 }

/-- The function `layout` of `type.c`: the font and the vertex array
afterwards, and the returned number of glyphs. -/
def layout (face : FT_Face) (kern : FT_Kerning) (realloc : Nat → Nat → Bool)
    (v : List vert) (off : Nat) (str : CString) (exp : Int) (mat : Nat → ℚ) (F : font) :
    font × List vert × Nat :=
  let st := layout_run face kern realloc v off str exp mat F
  (st.F, st.v, st.i)

/-- The record `struct line` without the buffer object and the font
reference: the vertex array (`none` for the null pointer) and the count. -/
structure line where
  v : Option (List vert)
  n : Int
deriving DecidableEq

/-- The allocations of the typesetter: `calloc` of the line, `calloc` of the
vertex array (asked for a number of vertices), and `realloc` of the sort table
in iteration `t` of the loop over string `i` (asked for a number of sorts). -/
structure allocator where
  calloc_line : Bool
  calloc_vert : Int → Bool
  realloc : Nat → Nat → Nat → Bool

/-- The initial value of the local matrix `I` of `line_layout`. -/
def mat_identity : Nat → ℚ :=
  fun t => [1, 0, 0, 0, 0, 1, 0, 0, 0, 0, 1, 0, 0, 0, 0, 1].getD t 0

/-- A vertex of the zeroed memory that `calloc` returns. -/
def vert_zero : vert := { v0 := 0, v1 := 0, v2 := 0, t0 := 0, t1 := 0 }

/-- The counting loops of `line_layout`: the number of characters other than
the space in all strings. -/
def line_count (strv : List CString) : Int :=
  strv.foldl (fun n str => (utf8_codes str).foldl (fun n c => if c ≠ 32 then n + 1 else n) n) 0

/-- The typesetting loop of `line_layout` from string number `i` on. The state
is the font, the vertex array, the glyph count `j` and the local matrix `I`. -/
def line_layout_loop (face : FT_Face) (kern : FT_Kerning) (realloc : Nat → Nat → Nat → Bool)
    (expv : Option (List Int)) (matv : Option (Nat → ℚ)) :
    List CString → Nat → font × List vert × Nat × (Nat → ℚ) → font × List vert × Nat × (Nat → ℚ)
  | [], _, st => st
  | str :: rest, i, (F, v, j, I) =>
    let I1 := Function.update I 13 ((-(i : Int) * F.h : Int) : ℚ)
    let exp := match expv with
      | some e => e.getD i 0
      | none => 0
    let mat := match matv with
      | some m => fun t => m (i * 16 + t)
      | none => I1
    let r := layout face kern (realloc i) v (4 * j) str exp mat F
    line_layout_loop face kern realloc expv matv rest (i + 1) (r.1, r.2.1, j + r.2.2, I1)

/-- The function `line_layout` of `type.c`: the font afterwards and the line
returned (`none` for the null pointer). The buffer object is not modelled. -/
def line_layout (face : FT_Face) (kern : FT_Kerning) (heap : allocator)
    (strv : List CString) (expv : Option (List Int)) (matv : Option (Nat → ℚ)) (F : font) :
    font × Option line :=
  let n := line_count strv
  if heap.calloc_line then
    if heap.calloc_vert (n * 4) then
      let r := line_layout_loop face kern heap.realloc expv matv strv 0
        (F, List.replicate (n * 4).toNat vert_zero, 0, mat_identity)
      (r.1, some { v := some r.2.1, n := n })
    else
      (F, some { v := none, n := n })
  else
    (F, none)

/-- The function `line_create` of `type.c`. -/
def line_create (face : FT_Face) (kern : FT_Kerning) (heap : allocator) (str : CString)
    (F : font) : font × Option line :=
  line_layout face kern heap [str] none none F

/-- The body of the loop of `line_length`; the state is the font, the pen `x`
and the glyph index `l`. The kerning is fetched and not used. -/
def line_length_step (face : FT_Face) (kern : FT_Kerning) (realloc : Nat → Bool)
    (st : font × Int × Nat) (c : Nat) : font × Int × Nat :=
  if c = 32 then
    (st.1, st.2.1 + to_int ((st.1.a : ℚ) * st.1.k), st.2.2)
  else
    match font_sort_lookup face realloc st.1 (c : Int) with
    | (F1, some S) => (F1, st.2.1 + to_int ((S.a : ℚ) * F1.k), kern.char_index (c : Int))
    | (F1, none) => (F1, st.2.1, st.2.2)

/-- The loop of `line_length`. -/
def line_length_loop (face : FT_Face) (kern : FT_Kerning) (realloc : Nat → Nat → Bool) :
    List Nat → Nat → font × Int × Nat → font × Int × Nat
  | [], _, st => st
  | c :: cs, t, st =>
    line_length_loop face kern realloc cs (t + 1) (line_length_step face kern (realloc t) st c)

/-- The function `line_length` of `type.c`: the font afterwards and the
returned length. -/
def line_length (face : FT_Face) (kern : FT_Kerning) (realloc : Nat → Nat → Bool)
    (str : CString) (F : font) : font × Int :=
  let st := line_length_loop face kern realloc (utf8_codes str) 0 (F, 0, 0)
  (st.1, st.2.1)

/-- A call of `line_set` made by `layout`: the pen `x + (k.x >> 6)` passed, the
value of the space counter `e` at the call, and the sort set. -/
structure glyph_event where
  pen : Int
  e : Int
  S : sort
deriving DecidableEq

/-- The call of `line_set` that the body of the second loop of `layout` makes
for the character `c`, if it makes one. -/
def layout_event (face : FT_Face) (kern : FT_Kerning) (realloc : Nat → Bool)
    (st : layout_state) (c : Nat) : Option glyph_event :=
  if c = 32 then none
  else
    match (font_sort_lookup face realloc st.F (c : Int)).2 with
    | some S =>
      some { pen := st.x + kern.kerning_x st.l (kern.char_index (c : Int)) >>> (6 : Nat),
             e := st.e, S := S }
    | none => none

/-- The calls of `line_set` made by the second loop of `layout`, in order. -/
def layout_trace (face : FT_Face) (kern : FT_Kerning) (realloc : Nat → Nat → Bool) (off : Nat)
    (s exp : Int) (mat : Nat → ℚ) : List Nat → Nat → layout_state → List glyph_event
  | [], _, _ => []
  | c :: cs, t, st =>
    (layout_event face kern (realloc t) st c).toList ++
      layout_trace face kern realloc off s exp mat cs (t + 1)
        (layout_step face kern (realloc t) off s exp mat st c)

/-- The calls of `line_set` made by `layout`, in order. -/
def layout_events (face : FT_Face) (kern : FT_Kerning) (realloc : Nat → Nat → Bool)
    (v : List vert) (off : Nat) (str : CString) (exp : Int) (mat : Nat → ℚ) (F : font) :
    List glyph_event :=
  layout_trace face kern realloc off (layout_count (utf8_codes str)).1 exp mat (utf8_codes str) 0
    { F := F, v := v, x := 0, e := 0, i := 0, l := 0 }

/-- The matrices that stack the strings downward: matrix number `i` is the
identity translated by `(0, -i * h, 0)`, stored column-major from index
`16 * i` on. -/
def stack_matrices (h : Int) : Nat → ℚ :=
  fun t => if t % 16 = 13 then ((-((t / 16 : Nat) : Int) * h : Int) : ℚ) else mat_identity (t % 16)

/-- A vertex moved down by `d`. -/
def vert.lower (d : ℚ) (q : vert) : vert :=
  { q with v1 := q.v1 - d }

/-- The glyph provider with the error codes of its calls: the glyph slot that
`FT_Load_Glyph` leaves for a character code, and the values that
`FT_Load_Glyph` and `FT_Render_Glyph` return for it (0 for success). The
typesetter drops the returned values, so its functions take the slots only. -/
structure glyph_provider where
  face : FT_Face
  load_error : Int → Int
  render_error : Int → Int

/-- The affine image of the point `(px, py, 0)` under the column-major 4 by 4
matrix `M`, as the claims on `line_set` word it. -/
def mat_apply (M : Nat → ℚ) (px py : ℚ) : ℚ × ℚ × ℚ :=
  (M 0 * px + M 4 * py + M 12, M 1 * px + M 5 * py + M 13, M 2 * px + M 6 * py + M 14)

/-- The relation between the run with expansion `E` and the run without: the
same font and counters, and the pen ahead by the share `E * e / s` of the
spaces passed. -/
structure pen_shift (E s : Int) (stE st0 : layout_state) : Prop where
  font_eq : stE.F = st0.F
  e_eq : stE.e = st0.e
  i_eq : stE.i = st0.i
  l_eq : stE.l = st0.l
  x_eq : stE.x = st0.x + Int.tdiv (E * st0.e) s

/-- A face for the examples: every glyph is 2 by 7 pixels with advance 3. -/
def face_small : FT_Face :=
  fun _ => { horiBearingX := 0, horiBearingY := 448, width := 128, height := 448,
             advance_x := 192 }

/-- A provider without kerning; the glyph index of a character is its code. -/
def kern_none : FT_Kerning :=
  { char_index := fun c => c.toNat, kerning_x := fun _ _ => 0 }

/-- A provider that kerns the pair `a`, `b` by 4 pixels to the left and
1 pixel to the left when `b` comes first. -/
def kern_tight : FT_Kerning :=
  { char_index := fun c => c.toNat
    kerning_x := fun l r => if l = 97 ∧ r = 98 then -256 else if l = 0 ∧ r = 98 then -64 else 0 }

/-- The sort table can always grow. -/
def realloc_always : Nat → Nat → Bool := fun _ _ => true

/-- The sort table can never grow. -/
def realloc_never : Nat → Nat → Bool := fun _ _ => false

/-- The vertex number `n` (0 to 3) of the quad that `line_set` writes. -/
def line_quad (S : sort) (s x : Int) (M : Nat → ℚ) (n : Nat) : vert :=
  (line_set (List.replicate 4 vert_zero) 0 S s x 0 M).1.getD n vert_zero

/-- A provider for the examples whose `FT_Load_Glyph` fails for every character
code with the error 6 and leaves a slot of 10 by 10 pixels behind. -/
def provider_failing : glyph_provider :=
  { face := face_square, load_error := fun _ => 6, render_error := fun _ => 0 }

/-- An allocator for the examples: the line is allocated, the vertex array is
not. -/
def heap_no_vertices : allocator :=
  { calloc_line := true, calloc_vert := fun _ => false, realloc := fun _ _ _ => true }

/-- An allocator for the examples: the line and the vertex array are
allocated, the sort table never grows. -/
def heap_no_sorts : allocator :=
  { calloc_line := true, calloc_vert := fun _ => true, realloc := fun _ _ _ => false }

/-- An allocator for the examples: every allocation succeeds. -/
def heap_ok : allocator :=
  { calloc_line := true, calloc_vert := fun _ => true, realloc := fun _ _ _ => true }

/-- The sort of the examples for the character `a`: a glyph of 10 by 10 pixels
at the origin of the atlas, bearings `(1, 9)`, advance 11. -/
def sort_a : sort :=
  { c := 97, x := 1, y := 9, a := 11, X := 0, Y := 0, W := 10, H := 10 }

/-- The sort of the examples for the character `b`, next to `sort_a`. -/
def sort_b : sort :=
  { c := 98, x := 1, y := 9, a := 11, X := 11, Y := 0, W := 10, H := 10 }

/-- The state of `layout` at its start on an array of four zeroed vertices. -/
def layout_start : layout_state :=
  { F := font_fresh 8 6 1 32, v := List.replicate 4 vert_zero, x := 0, e := 0, i := 0, l := 0 }

/-! ## Definitions: sequences of calls of the typesetter -/

/-- A face for the examples: every glyph has width 0 and height 7. -/
def face_thin : FT_Face :=
  fun _ => { horiBearingX := 0, horiBearingY := 448, width := 0, height := 448,
             advance_x := 0 }

/-- A call of the public interface of the typesetter, with the allocations it
meets. -/
inductive typeset_call where
  | layout (heap : allocator) (strv : List CString) (expv : Option (List Int))
      (matv : Option (Nat → ℚ))
  | create (heap : allocator) (str : CString)
  | length (realloc : Nat → Nat → Bool) (str : CString)

/-- The font after a sequence of calls of `line_layout`, `line_create` and
`line_length`. -/
def typeset_calls (face : FT_Face) (kern : FT_Kerning) : font → List typeset_call → font
  | F, [] => F
  | F, typeset_call.layout heap strv expv matv :: rest =>
    typeset_calls face kern (line_layout face kern heap strv expv matv F).1 rest
  | F, typeset_call.create heap str :: rest =>
    typeset_calls face kern (line_create face kern heap str F).1 rest
  | F, typeset_call.length realloc str :: rest =>
    typeset_calls face kern (line_length face kern realloc str F).1 rest

/-! ## Definitions: the construction of a font -/

/-- The outcomes of the calls that `font_create` and `font_load` make to the
glyph provider: the values returned by `FT_Init_FreeType`,
`FT_New_Memory_Face`, `FT_New_Face` and `FT_Set_Pixel_Sizes` (0 for success),
and, in 26.6 fixed point, the advance of the glyph of the space and the height
of the size metrics once the face is loaded and sized. -/
structure FT_Library where
  init_freetype : Int
  new_memory_face : Int
  new_face : Int
  set_pixel_sizes : Int → Int
  space_advance_x : Int
  metrics_height : Int

/-- The function `font_load` of `type.c`: 0 when the input can be used neither
as a font resource in memory nor as the name of a font file, 1 otherwise. -/
def font_load (ft : FT_Library) : Int :=
  if ft.new_memory_face ≠ 0 then
    if ft.new_face ≠ 0 then 0
    else 1
  else 1

/-- The font that `calloc` returns: every field is 0 and the table is empty. -/
def font_zero : font :=
  { h := 0, a := 0, k := 0, sorts := [], s := 0, x := 0, y := 0, m := 0 }

/-- The function `font_create` of `type.c` for a non-null `ptr`: the returned
pointer (`none` for the null pointer) and the messages passed to `warn`, in
order. The argument `calloc` tells whether the allocation of the font
succeeds. The outcome is `none` when the assertion `size > 0` fails or the
fuel of `atlas_size` runs out. The texture of the atlas is not modelled. -/
def font_create (calloc : Bool) (ft : FT_Library) (size : Int) (k : ℚ) (fuel : Nat) :
    Option (Option font × List String) :=
  if size > 0 then
    if calloc then
      if ft.init_freetype = 0 then
        if font_load ft ≠ 0 then
          if ft.set_pixel_sizes size = 0 then
            match atlas_size fuel (ft.metrics_height >>> (6 : Nat)) with
            | some s =>
              some (some { font_zero with
                             k := k
                             a := ft.space_advance_x >>> (6 : Nat)
                             h := ft.metrics_height >>> (6 : Nat)
                             s := s }, [])
            | none => none
          else some (some font_zero, ["Failure to set font pixel size"])
        else some (some font_zero, ["Failure to load font"])
      else some (some font_zero, ["Failure to initialize FreeType"])
    else some (none, [])
  else none

/-- A glyph provider for the examples that works: the space advances by 6
pixels and the line height is 8 pixels. -/
def library_ok : FT_Library :=
  { init_freetype := 0, new_memory_face := 0, new_face := 0, set_pixel_sizes := fun _ => 0,
    space_advance_x := 384, metrics_height := 512 }

/-- A glyph provider for the examples that cannot be initialised. -/
def library_no_init : FT_Library :=
  { library_ok with init_freetype := 2 }

/-- A glyph provider for the examples that can load the input neither as font
bytes nor as a path. -/
def library_no_face : FT_Library :=
  { library_ok with new_memory_face := 2, new_face := 1 }

/-- A glyph provider for the examples that cannot set the pixel size. -/
def library_no_size : FT_Library :=
  { library_ok with set_pixel_sizes := fun _ => 23 }

/-! ## Definitions: matrices of `math3d.c` -/

/-- The function `wtransform` of `math3d.c`: the array `a` after the call, for
the column-major matrix `M` and the homogeneous vector `b`. The type `real` is
an ordered field `K` with exact arithmetic. An array is the function from its
indices to its entries; the four entries written are at the indices 0 to 3,
and the function is 0 elsewhere. -/
def wtransform {K : Type} [LinearOrderedField K] (M b : Nat → K) : Nat → K :=
  fun t =>
    [M 0 * b 0 + M 4 * b 1 + M 8 * b 2 + M 12 * b 3,
     M 1 * b 0 + M 5 * b 1 + M 9 * b 2 + M 13 * b 3,
     M 2 * b 0 + M 6 * b 1 + M 10 * b 2 + M 14 * b 3,
     M 3 * b 0 + M 7 * b 1 + M 11 * b 2 + M 15 * b 3].getD t 0

/-- The function `midentity` of `math3d.c`: the array `M` after the call, at
the indices 0 to 15, and 0 elsewhere. -/
def midentity {K : Type} [LinearOrderedField K] : Nat → K :=
  fun t =>
    [1, 0, 0, 0, 0, 1, 0, 0, 0, 0, 1, 0, 0, 0, 0, 1].getD t 0

/-- The function `mmultiply` of `math3d.c`: the array `M` after the call, at
the indices 0 to 15, and 0 elsewhere. -/
def mmultiply {K : Type} [LinearOrderedField K] (A B : Nat → K) : Nat → K :=
  fun t =>
    [A 0 * B 0 + A 4 * B 1 + A 8 * B 2 + A 12 * B 3,
     A 1 * B 0 + A 5 * B 1 + A 9 * B 2 + A 13 * B 3,
     A 2 * B 0 + A 6 * B 1 + A 10 * B 2 + A 14 * B 3,
     A 3 * B 0 + A 7 * B 1 + A 11 * B 2 + A 15 * B 3,
     A 0 * B 4 + A 4 * B 5 + A 8 * B 6 + A 12 * B 7,
     A 1 * B 4 + A 5 * B 5 + A 9 * B 6 + A 13 * B 7,
     A 2 * B 4 + A 6 * B 5 + A 10 * B 6 + A 14 * B 7,
     A 3 * B 4 + A 7 * B 5 + A 11 * B 6 + A 15 * B 7,
     A 0 * B 8 + A 4 * B 9 + A 8 * B 10 + A 12 * B 11,
     A 1 * B 8 + A 5 * B 9 + A 9 * B 10 + A 13 * B 11,
     A 2 * B 8 + A 6 * B 9 + A 10 * B 10 + A 14 * B 11,
     A 3 * B 8 + A 7 * B 9 + A 11 * B 10 + A 15 * B 11,
     A 0 * B 12 + A 4 * B 13 + A 8 * B 14 + A 12 * B 15,
     A 1 * B 12 + A 5 * B 13 + A 9 * B 14 + A 13 * B 15,
     A 2 * B 12 + A 6 * B 13 + A 10 * B 14 + A 14 * B 15,
     A 3 * B 12 + A 7 * B 13 + A 11 * B 14 + A 15 * B 15].getD t 0

/-- The local array `T` of `minvert`: the sixteen signed minors of `M`. -/
def minvert_T {K : Type} [LinearOrderedField K] (M : Nat → K) : Nat → K :=
  fun t =>
    [(M 5 * (M 10 * M 15 - M 11 * M 14) - M 9 * (M 6 * M 15 - M 7 * M 14) + M 13 * (M 6 * M 11 - M 7 * M 10)),
     -(M 4 * (M 10 * M 15 - M 11 * M 14) - M 8 * (M 6 * M 15 - M 7 * M 14) + M 12 * (M 6 * M 11 - M 7 * M 10)),
     (M 4 * (M 9 * M 15 - M 11 * M 13) - M 8 * (M 5 * M 15 - M 7 * M 13) + M 12 * (M 5 * M 11 - M 7 * M 9)),
     -(M 4 * (M 9 * M 14 - M 10 * M 13) - M 8 * (M 5 * M 14 - M 6 * M 13) + M 12 * (M 5 * M 10 - M 6 * M 9)),
     -(M 1 * (M 10 * M 15 - M 11 * M 14) - M 9 * (M 2 * M 15 - M 3 * M 14) + M 13 * (M 2 * M 11 - M 3 * M 10)),
     (M 0 * (M 10 * M 15 - M 11 * M 14) - M 8 * (M 2 * M 15 - M 3 * M 14) + M 12 * (M 2 * M 11 - M 3 * M 10)),
     -(M 0 * (M 9 * M 15 - M 11 * M 13) - M 8 * (M 1 * M 15 - M 3 * M 13) + M 12 * (M 1 * M 11 - M 3 * M 9)),
     (M 0 * (M 9 * M 14 - M 10 * M 13) - M 8 * (M 1 * M 14 - M 2 * M 13) + M 12 * (M 1 * M 10 - M 2 * M 9)),
     (M 1 * (M 6 * M 15 - M 7 * M 14) - M 5 * (M 2 * M 15 - M 3 * M 14) + M 13 * (M 2 * M 7 - M 3 * M 6)),
     -(M 0 * (M 6 * M 15 - M 7 * M 14) - M 4 * (M 2 * M 15 - M 3 * M 14) + M 12 * (M 2 * M 7 - M 3 * M 6)),
     (M 0 * (M 5 * M 15 - M 7 * M 13) - M 4 * (M 1 * M 15 - M 3 * M 13) + M 12 * (M 1 * M 7 - M 3 * M 5)),
     -(M 0 * (M 5 * M 14 - M 6 * M 13) - M 4 * (M 1 * M 14 - M 2 * M 13) + M 12 * (M 1 * M 6 - M 2 * M 5)),
     -(M 1 * (M 6 * M 11 - M 7 * M 10) - M 5 * (M 2 * M 11 - M 3 * M 10) + M 9 * (M 2 * M 7 - M 3 * M 6)),
     (M 0 * (M 6 * M 11 - M 7 * M 10) - M 4 * (M 2 * M 11 - M 3 * M 10) + M 8 * (M 2 * M 7 - M 3 * M 6)),
     -(M 0 * (M 5 * M 11 - M 7 * M 9) - M 4 * (M 1 * M 11 - M 3 * M 9) + M 8 * (M 1 * M 7 - M 3 * M 5)),
     (M 0 * (M 5 * M 10 - M 6 * M 9) - M 4 * (M 1 * M 10 - M 2 * M 9) + M 8 * (M 1 * M 6 - M 2 * M 5))].getD t 0

/-- The local `d` of `minvert` before the test: the determinant of `M`,
expanded along its first row. -/
def minvert_d {K : Type} [LinearOrderedField K] (M : Nat → K) : K :=
  M 0 * minvert_T M 0 + M 4 * minvert_T M 4 + M 8 * minvert_T M 8 + M 12 * minvert_T M 12

/-- The function `minvert` of `math3d.c`: the array `I` after the call. When
`fabs(d) > 0.0` fails, nothing is written and `I` is as before the call. -/
def minvert {K : Type} [LinearOrderedField K] (I M : Nat → K) : Nat → K :=
  if |minvert_d M| > 0 then
    fun t =>
      if t < 16 then
        [minvert_T M 0 * (1 / minvert_d M),
         minvert_T M 4 * (1 / minvert_d M),
         minvert_T M 8 * (1 / minvert_d M),
         minvert_T M 12 * (1 / minvert_d M),
         minvert_T M 1 * (1 / minvert_d M),
         minvert_T M 5 * (1 / minvert_d M),
         minvert_T M 9 * (1 / minvert_d M),
         minvert_T M 13 * (1 / minvert_d M),
         minvert_T M 2 * (1 / minvert_d M),
         minvert_T M 6 * (1 / minvert_d M),
         minvert_T M 10 * (1 / minvert_d M),
         minvert_T M 14 * (1 / minvert_d M),
         minvert_T M 3 * (1 / minvert_d M),
         minvert_T M 7 * (1 / minvert_d M),
         minvert_T M 11 * (1 / minvert_d M),
         minvert_T M 15 * (1 / minvert_d M)].getD t 0
      else I t
  else I

/-- A matrix for the examples: a scaling by 2 along the first axis, a shear
and a translation by 3; its determinant is 2. -/
def mat_shear : Nat → ℚ :=
  fun t => [2, 0, 0, 0, 1, 1, 0, 0, 0, 0, 1, 0, 3, 0, 0, 1].getD t 0

/-! ## Definitions: checked division, encoded strings and further fixtures -/

/-- A face for the examples: every glyph is 32 pixels wide and 7 pixels high. -/
def face_wide : FT_Face :=
  fun _ => { horiBearingX := 0, horiBearingY := 448, width := 2048, height := 448,
             advance_x := 2112 }

/-- The body of the second loop of `layout` with the division by the number of
spaces made explicit: the outcome is `none` when the branch of the space is
taken with `s = 0`, where the C code divides by zero. -/
def layout_step_checked (face : FT_Face) (kern : FT_Kerning) (realloc : Nat → Bool) (off : Nat)
    (s exp : Int) (mat : Nat → ℚ) (st : layout_state) (c : Nat) : Option layout_state :=
  if c = 32 then
    if s = 0 then none
    else some (layout_step face kern realloc off s exp mat st c)
  else some (layout_step face kern realloc off s exp mat st c)

/-- The second loop of `layout` with the division checked. -/
def layout_loop_checked (face : FT_Face) (kern : FT_Kerning) (realloc : Nat → Nat → Bool)
    (off : Nat) (s exp : Int) (mat : Nat → ℚ) :
    List Nat → Nat → layout_state → Option layout_state
  | [], _, st => some st
  | c :: cs, t, st =>
    match layout_step_checked face kern (realloc t) off s exp mat st c with
    | none => none
    | some st1 => layout_loop_checked face kern realloc off s exp mat cs (t + 1) st1

/-- The function `layout` up to the exit of its second loop, with the division
checked. -/
def layout_run_checked (face : FT_Face) (kern : FT_Kerning) (realloc : Nat → Nat → Bool)
    (v : List vert) (off : Nat) (str : CString) (exp : Int) (mat : Nat → ℚ) (F : font) :
    Option layout_state :=
  layout_loop_checked face kern realloc off (layout_count (utf8_codes str)).1 exp mat
    (utf8_codes str) 0 { F := F, v := v, x := 0, e := 0, i := 0, l := 0 }

/-- The concatenation of the standard UTF-8 encodings of a sequence of scalar
values: the well-formed strings that the claims on the decoder speak of. -/
def utf8_encode_all : List Nat → CString
  | [] => []
  | c :: cs => utf8_encode c ++ utf8_encode_all cs

/-- The value that `utf8` returns for the standard encoding of `c`. -/
def utf8_value (c : Nat) : Nat :=
  (utf8 (utf8_encode c) 0).1

/-- The cursor `p` after the loop `for (p = str; (c = utf8(&p));)` started at
cursor `p`: the cursor that the call returning 0 leaves. Each call costs one
unit of fuel. -/
def utf8_stop_from (str : CString) : Nat → Nat → Nat
  | 0, p => p
  | fuel + 1, p =>
    if (utf8 str p).1 = 0 then (utf8 str p).2
    else utf8_stop_from str fuel (utf8 str p).2

/-- The cursor after the loop over a whole string. -/
def utf8_stop (str : CString) : Nat :=
  utf8_stop_from str (str.length + 1) 0

/-- The sum that the claim on `line_length` words: over the decoded codes,
`(int) (a * k)` for each space and `(int) (advance * k)` for each other
character, where the advance is that of the glyph of the character in
pixels. -/
def advance_sum (face : FT_Face) (a : Int) (k : ℚ) (codes : List Nat) : Int :=
  (codes.map (fun (c : Nat) =>
    if c = 32 then to_int ((a : ℚ) * k)
    else to_int ((((face (c : Int)).advance_x >>> (6 : Nat) : Int) : ℚ) * k))).sum

/-- The number of characters other than the space in a string. -/
def glyph_count (str : CString) : Nat :=
  ((utf8_codes str).filter (fun c => c ≠ 32)).length

/-- The number of characters other than the space in a list of strings. -/
def glyph_total (strv : List CString) : Nat :=
  (strv.map glyph_count).sum

/-- The expansion that `line_layout` passes to `layout` for string `i`:
`expv ? expv[i] : 0`. -/
def line_expansion (expv : Option (List Int)) (i : Nat) : Int :=
  match expv with
  | some e => e.getD i 0
  | none => 0

/-- The matrix that `line_layout` passes to `layout` for string `i` in a font
of line height `h`: `matv ? matv + i * 16 : I`, where `I` is the identity with
`I[13] = -i * h`. -/
def line_matrix (matv : Option (Nat → ℚ)) (h : Int) (i : Nat) : Nat → ℚ :=
  match matv with
  | some m => fun t => m (i * 16 + t)
  | none => Function.update mat_identity 13 ((-(i : Int) * h : Int) : ℚ)

/-! ## Definitions: the simplex noise of `noise.c` -/

/-- The function `c` of `noise.c`: bit `B` of `N`. -/
def noise.c (N : Int) (B : Nat) : Int :=
  Int.land (N >>> B) 1

/-- The function `b` of `noise.c`: the entry of the table `T` chosen by bit `B`
of `i`, `j` and `k`. -/
def noise.b (i j k : Int) (B : Nat) : Int :=
  [0x15, 0x38, 0x32, 0x2c, 0x0d, 0x13, 0x07, 0x2a].getD
    (Int.lor (Int.lor (noise.c i B <<< (2 : Int)) (noise.c j B <<< (1 : Int)))
      (noise.c k B)).toNat 0

/-- The function `shuffle` of `noise.c`. -/
def noise.shuffle (i j k : Int) : Int :=
  noise.b i j k 0 + noise.b j k i 1 + noise.b k i j 2 + noise.b i j k 3 +
    noise.b j k i 4 + noise.b k i j 5 + noise.b i j k 6 + noise.b j k i 7

/-- The value that `K` of `noise.c` returns, in exact arithmetic; it is
computed from `A` as it is before the increment. Arrays of three entries are
lists, read at the constant indices 0, 1, 2. -/
def noise.K_value (A i : List Int) (v : List ℚ) : ℚ :=
  let s : ℚ := ((A.getD 0 0 + A.getD 1 0 + A.getD 2 0 : Int) : ℚ) / 6
  let x : ℚ := v.getD 0 0 - (A.getD 0 0 : ℚ) + s
  let y : ℚ := v.getD 1 0 - (A.getD 1 0 : ℚ) + s
  let z : ℚ := v.getD 2 0 - (A.getD 2 0 : ℚ) + s
  let h : Int := noise.shuffle (i.getD 0 0 + A.getD 0 0) (i.getD 1 0 + A.getD 1 0)
    (i.getD 2 0 + A.getD 2 0)
  let t : ℚ := 3 / 5 - x * x - y * y - z * z
  if t ≥ 0 then
    let b5 : Int := Int.land (h >>> (5 : Nat)) 1
    let b4 : Int := Int.land (h >>> (4 : Nat)) 1
    let b3 : Int := Int.land (h >>> (3 : Nat)) 1
    let b2 : Int := Int.land (h >>> (2 : Nat)) 1
    let b : Int := Int.land h 3
    let p : ℚ := if b = 1 then x else (if b = 2 then y else z)
    let q : ℚ := if b = 1 then y else (if b = 2 then z else x)
    let r : ℚ := if b = 1 then z else (if b = 2 then x else y)
    let p1 : ℚ := if b5 = b3 then -p else p
    let q1 : ℚ := if b5 = b4 then -q else q
    let r1 : ℚ := if b5 ≠ Int.xor b4 b3 then -r else r
    let m : ℚ := p1 + (if b = 0 then q1 + r1 else (if b2 = 0 then q1 else r1))
    8 * (t * t * t * t) * m
  else 0

/-- The function `K` of `noise.c`: the returned value and the array `A` after
the statement `A[a]++`; `none` when the index `a` is outside the three entries
of `A`. -/
def noise.K (A i : List Int) (v : List ℚ) (a : Int) : Option (ℚ × List Int) :=
  if 0 ≤ a ∧ a < 3 then
    some (noise.K_value A i v, A.set a.toNat (A.getD a.toNat 0 + 1))
  else none

/-- The local `hi` of `noise_sample`: the axis chosen by the first chain of
comparisons of `v[0]`, `v[1]`, `v[2]`. -/
def noise.hi {α : Type} [LinearOrder α] (v0 v1 v2 : α) : Int :=
  if v0 ≥ v2 then (if v0 ≥ v1 then 0 else 1) else (if v1 ≥ v2 then 1 else 2)

/-- The local `lo` of `noise_sample`. -/
def noise.lo {α : Type} [LinearOrder α] (v0 v1 v2 : α) : Int :=
  if v0 < v2 then (if v0 < v1 then 0 else 1) else (if v1 < v2 then 1 else 2)

/-- The locals `i` and `v` of `noise_sample` before the calls of `K`. -/
def noise.cell (x y z : ℚ) : List Int × List ℚ :=
  let s : ℚ := (x + y + z) / 3
  let i0 : Int := ⌊x + s⌋
  let i1 : Int := ⌊y + s⌋
  let i2 : Int := ⌊z + s⌋
  let s1 : ℚ := ((i0 + i1 + i2 : Int) : ℚ) / 6
  ([i0, i1, i2], [x - (i0 : ℚ) + s1, y - (i1 : ℚ) + s1, z - (i2 : ℚ) + s1])

/-- The function `noise_sample` of `noise.c`, with the four calls of `K` made
from left to right; `none` when one of them indexes outside `A`. -/
def noise.noise_sample (x y z : ℚ) : Option ℚ :=
  let i := (noise.cell x y z).1
  let v := (noise.cell x y z).2
  let hi := noise.hi (v.getD 0 0) (v.getD 1 0) (v.getD 2 0)
  let lo := noise.lo (v.getD 0 0) (v.getD 1 0) (v.getD 2 0)
  match noise.K [0, 0, 0] i v hi with
  | none => none
  | some (r1, A1) =>
    match noise.K A1 i v (3 - hi - lo) with
    | none => none
    | some (r2, A2) =>
      match noise.K A2 i v lo with
      | none => none
      | some (r3, A3) =>
        match noise.K A3 i v 0 with
        | none => none
        | some (r4, _) => some (r1 + r2 + r3 + r4)

/-! ## Theorems -/

/-! ## The UTF-8 decoder -/

set_option maxRecDepth 100000 in
/-- The four length classes exclude each other, and the leads outside them are
exactly those of the form `10xxxxxx` or `11111xxx`. -/
theorem lead_byte_classes : ∀ b : Fin 256,
    (b.val &&& 0xE0 = 0xC0 → ¬ b.val &&& 0x80 = 0x00) ∧
    (b.val &&& 0xF0 = 0xE0 → ¬ b.val &&& 0x80 = 0x00 ∧ ¬ b.val &&& 0xE0 = 0xC0) ∧
    (b.val &&& 0xF8 = 0xF0 →
      ¬ b.val &&& 0x80 = 0x00 ∧ ¬ b.val &&& 0xE0 = 0xC0 ∧ ¬ b.val &&& 0xF0 = 0xE0) ∧
    ((b.val &&& 0xC0 = 0x80 ∨ b.val &&& 0xF8 = 0xF8) ↔
      (¬ b.val &&& 0x80 = 0x00 ∧ ¬ b.val &&& 0xE0 = 0xC0 ∧ ¬ b.val &&& 0xF0 = 0xE0 ∧
        ¬ b.val &&& 0xF8 = 0xF0)) := by
  decide

theorem peek_classes (str : CString) (p : Nat) :
    (peek str p &&& 0xE0 = 0xC0 → ¬ peek str p &&& 0x80 = 0x00) ∧
    (peek str p &&& 0xF0 = 0xE0 →
      ¬ peek str p &&& 0x80 = 0x00 ∧ ¬ peek str p &&& 0xE0 = 0xC0) ∧
    (peek str p &&& 0xF8 = 0xF0 →
      ¬ peek str p &&& 0x80 = 0x00 ∧ ¬ peek str p &&& 0xE0 = 0xC0 ∧
        ¬ peek str p &&& 0xF0 = 0xE0) ∧
    ((peek str p &&& 0xC0 = 0x80 ∨ peek str p &&& 0xF8 = 0xF8) ↔
      (¬ peek str p &&& 0x80 = 0x00 ∧ ¬ peek str p &&& 0xE0 = 0xC0 ∧
        ¬ peek str p &&& 0xF0 = 0xE0 ∧ ¬ peek str p &&& 0xF8 = 0xF0)) :=
  lead_byte_classes (str.getD p 0)

/-- C1 (failing input): the scalar value U+10040 has the standard encoding
`F0 90 81 80`; the decoder consumes the four bytes and returns `0x10100`, which
is not `0x10040`: the third byte is shifted by 8 where the payload needs 6. -/
theorem C1_utf8_four_byte_mismatch :
    utf8_encode 0x10040 = [0xF0, 0x90, 0x81, 0x80] ∧
    utf8 (utf8_encode 0x10040) 0 = (0x10100, 4) ∧
    (utf8 (utf8_encode 0x10040) 0).1 ≠ 0x10040 := by
  decide

/-- C2: a lead byte of the class `0xxxxxxx`, `110xxxxx`, `1110xxxx` or `11110xxx`
makes one call of `utf8` advance the cursor by 1, 2, 3 or 4 bytes; the bytes
`C3 A9` decode to the single codepoint `0x00E9` with the cursor advanced by 2. -/
theorem C2_utf8_cursor_advance (str : CString) (p : Nat) :
    (peek str p &&& 0x80 = 0x00 → (utf8 str p).2 = p + 1) ∧
    (peek str p &&& 0xE0 = 0xC0 → (utf8 str p).2 = p + 2) ∧
    (peek str p &&& 0xF0 = 0xE0 → (utf8 str p).2 = p + 3) ∧
    (peek str p &&& 0xF8 = 0xF0 → (utf8 str p).2 = p + 4) ∧
    utf8 [0xC3, 0xA9] 0 = (0x00E9, 2) ∧ utf8 [0xC3, 0xA9] 2 = (0, 3) := by
  obtain ⟨h2, h3, h4, -⟩ := peek_classes str p
  refine ⟨?_, ?_, ?_, ?_, by decide, by decide⟩
  · intro h
    simp [utf8, h]
  · intro h
    simp [utf8, h, h2 h]
  · intro h
    obtain ⟨n1, n2⟩ := h3 h
    simp [utf8, h, n1, n2]
  · intro h
    obtain ⟨n1, n2, n3⟩ := h4 h
    simp [utf8, h, n1, n2, n3]

/-- C2 at the two-byte string `C3 A9`. -/
theorem C2_utf8_cursor_advance_witness :
    peek [0xC3, 0xA9] 0 &&& 0xE0 = 0xC0 ∧ (utf8 [0xC3, 0xA9] 0).2 = 0 + 2 :=
  ⟨by decide, (C2_utf8_cursor_advance [0xC3, 0xA9] 0).2.1 (by decide)⟩

/-- C3: `utf8` returns 0 on a NUL lead byte, and returns 0 on every lead byte
outside the four length classes, that is of the form `10xxxxxx` or `11111xxx`. -/
theorem C3_utf8_returns_zero (str : CString) (p : Nat) :
    (peek str p = 0 → (utf8 str p).1 = 0) ∧
    ((peek str p &&& 0xC0 = 0x80 ∨ peek str p &&& 0xF8 = 0xF8) → (utf8 str p).1 = 0) ∧
    ((¬ peek str p &&& 0x80 = 0x00 ∧ ¬ peek str p &&& 0xE0 = 0xC0 ∧
        ¬ peek str p &&& 0xF0 = 0xE0 ∧ ¬ peek str p &&& 0xF8 = 0xF0) →
      (utf8 str p).1 = 0) := by
  have key : (¬ peek str p &&& 0x80 = 0x00 ∧ ¬ peek str p &&& 0xE0 = 0xC0 ∧
        ¬ peek str p &&& 0xF0 = 0xE0 ∧ ¬ peek str p &&& 0xF8 = 0xF0) →
      (utf8 str p).1 = 0 := by
    rintro ⟨n1, n2, n3, n4⟩
    simp [utf8, n1, n2, n3, n4]
  refine ⟨?_, ?_, key⟩
  · intro h
    simp [utf8, h]
  · intro h
    exact key ((peek_classes str p).2.2.2.1 h)

/-- C3 at the strings `00`, `80` (a continuation byte as lead) and `FF`. -/
theorem C3_utf8_returns_zero_witness :
    (utf8 [0x00] 0).1 = 0 ∧ (utf8 [0x80] 0).1 = 0 ∧ (utf8 [0xFF] 0).1 = 0 :=
  ⟨(C3_utf8_returns_zero [0x00] 0).1 (by decide),
   (C3_utf8_returns_zero [0x80] 0).2.1 (Or.inl (by decide)),
   (C3_utf8_returns_zero [0xFF] 0).2.1 (Or.inr (by decide))⟩

/-! ## The atlas size -/

theorem atlas_size_loop_pow (h : Int) :
    ∀ (n k : Nat), (2 : Int) ^ k / 2 < 4 * h → 4 * h ≤ 2 ^ (k + n) →
      ∃ j : Nat, j ≤ k + n ∧ (∀ fuel, n < fuel → atlas_size_loop h fuel (2 ^ k) = some (2 ^ j)) ∧
        4 * h ≤ 2 ^ j ∧ (2 : Int) ^ j / 2 < 4 * h := by
  intro n
  induction n with
  | zero =>
    intro k hinv hle
    refine ⟨k, le_refl _, ?_, by simpa using hle, hinv⟩
    intro fuel hf
    obtain ⟨f, rfl⟩ : ∃ f, fuel = f + 1 := ⟨fuel - 1, by omega⟩
    have hnot : ¬ ((2 : Int) ^ k < h * 4) := by
      have : 4 * h ≤ (2 : Int) ^ k := by simpa using hle
      omega
    simp [atlas_size_loop, hnot]
  | succ n ih =>
    intro k hinv hle
    by_cases hlt : (2 : Int) ^ k < h * 4
    · have hstep : (2 : Int) ^ (k + 1) / 2 < 4 * h := by
        rw [pow_succ, Int.mul_ediv_cancel _ (by norm_num : (2 : Int) ≠ 0)]
        omega
      have hle1 : 4 * h ≤ (2 : Int) ^ (k + 1 + n) := by
        have : k + 1 + n = k + (n + 1) := by omega
        rw [this]
        exact hle
      obtain ⟨j, hj, hrun, hge, hmin⟩ := ih (k + 1) hstep hle1
      refine ⟨j, by omega, ?_, hge, hmin⟩
      intro fuel hf
      obtain ⟨f, rfl⟩ : ∃ f, fuel = f + 1 := ⟨fuel - 1, by omega⟩
      have := hrun f (by omega)
      simp only [atlas_size_loop, hlt, if_true]
      rw [← pow_succ]
      exact this
    · refine ⟨k, by omega, ?_, by omega, hinv⟩
      intro fuel hf
      obtain ⟨f, rfl⟩ : ∃ f, fuel = f + 1 := ⟨fuel - 1, by omega⟩
      simp [atlas_size_loop, hlt]

/-- C4: for a line height `h` with `1 ≤ h` and `4 * h ≤ 2 ^ 30`, `atlas_size h`
terminates (31 evaluations of the loop condition are enough, and more fuel does
not change the result) and returns a power of two `s = 2 ^ k` with `k ≤ 30`,
`4 * h ≤ s` and `s / 2 < 4 * h`: the smallest power of two that is at least
`4 * h`. -/
theorem C4_atlas_size (h : Int) (h1 : 1 ≤ h) (h2 : 4 * h ≤ 2 ^ 30) :
    ∃ k : Nat, k ≤ 30 ∧ (∀ fuel, 31 ≤ fuel → atlas_size fuel h = some (2 ^ k)) ∧
      4 * h ≤ 2 ^ k ∧ (2 : Int) ^ k / 2 < 4 * h := by
  obtain ⟨j, hj, hrun, hge, hmin⟩ :=
    atlas_size_loop_pow h 30 0 (by norm_num; omega) (by simpa using h2)
  refine ⟨j, by omega, ?_, hge, hmin⟩
  intro fuel hf
  have := hrun fuel (by omega)
  simpa [atlas_size] using this

/-- C4 at the line height 5: the atlas size is 32. -/
theorem C4_atlas_size_witness :
    atlas_size 31 5 = some 32 ∧
    ∃ k : Nat, k ≤ 30 ∧ (∀ fuel, 31 ≤ fuel → atlas_size fuel 5 = some (2 ^ k)) ∧
      4 * (5 : Int) ≤ 2 ^ k ∧ (2 : Int) ^ k / 2 < 4 * 5 :=
  ⟨by decide, C4_atlas_size 5 (by norm_num) (by norm_num)⟩

/-! ## Writing into the sort table -/

theorem poke_length (l : List sort) (i : Nat) (f : sort → sort) :
    (poke l i f).length = l.length := by
  induction l generalizing i with
  | nil => simp [poke]
  | cons S rest ih =>
    cases i with
    | zero => simp [poke]
    | succ i => simp [poke, ih]

theorem poke_getElem? (l : List sort) (i j : Nat) (f : sort → sort) :
    (poke l i f)[j]? = if j = i then (l[j]?).map f else l[j]? := by
  induction l generalizing i j with
  | nil => simp [poke]
  | cons S rest ih =>
    cases i with
    | zero =>
      cases j with
      | zero => simp [poke]
      | succ j => simp [poke]
    | succ i =>
      cases j with
      | zero => simp [poke]
      | succ j => simp [poke, ih]

theorem poke_append_last (l : List sort) (S : sort) (f : sort → sort) :
    poke (l ++ [S]) l.length f = l ++ [f S] := by
  induction l with
  | nil => simp [poke]
  | cons T rest ih => simp [poke, ih]

theorem shelf_frame (F : font) (W : Int) :
    (shelf F W).sorts = F.sorts ∧ (shelf F W).s = F.s ∧ (shelf F W).h = F.h ∧
      (shelf F W).a = F.a ∧ (shelf F W).k = F.k := by
  unfold shelf
  split <;> simp

/-- C5: `font_sort_create` follows the shelf policy. With `W`, `H` the pixel
size of the glyph and `(x0, y0, m0)` the cursor after the shelf test (which is
`(0, y + rowMax + 1, 0)` when `x + W ≥ s` and the old cursor otherwise), the
sort at index `i` receives the atlas position `(x0, y0)` and the size
`(W, H)`, the cursor becomes `(x0 + W + 1, y0, max m0 H)`, and the atlas size,
the length of the table and every other sort are unchanged. -/
theorem C5_shelf_policy (face : FT_Face) (F : font) (i : Nat) (c : Int) (S : sort)
    (W H x0 y0 m0 : Int) (hS : F.sorts[i]? = some S)
    (hW : W = (face c).width >>> (6 : Nat)) (hH : H = (face c).height >>> (6 : Nat))
    (hcur : (x0, y0, m0) =
      if F.x + W ≥ F.s then (0, F.y + F.m + 1, 0) else (F.x, F.y, F.m)) :
    (∃ S1, (font_sort_create face F i c).sorts[i]? = some S1 ∧
      S1.X = x0 ∧ S1.Y = y0 ∧ S1.W = W ∧ S1.H = H ∧ S1.c = S.c ∧
      S1.x = (face c).horiBearingX >>> (6 : Nat) ∧ S1.y = (face c).horiBearingY >>> (6 : Nat) ∧
      S1.a = (face c).advance_x >>> (6 : Nat)) ∧
    (font_sort_create face F i c).x = x0 + W + 1 ∧
    (font_sort_create face F i c).y = y0 ∧
    (font_sort_create face F i c).m = max m0 H ∧
    (font_sort_create face F i c).s = F.s ∧
    (font_sort_create face F i c).sorts.length = F.sorts.length ∧
    (∀ j, j ≠ i → (font_sort_create face F i c).sorts[j]? = F.sorts[j]?) := by
  subst hW hH
  have hx : (shelf F ((face c).width >>> (6 : Nat))).x = x0 ∧
      (shelf F ((face c).width >>> (6 : Nat))).y = y0 ∧ (shelf F ((face c).width >>> (6 : Nat))).m = m0 := by
    unfold shelf
    split_ifs at hcur ⊢ <;> simp only [Prod.mk.injEq] at hcur <;> simp [hcur]
  obtain ⟨hx0, hy0, hm0⟩ := hx
  obtain ⟨hsorts, hs, -, -, -⟩ := shelf_frame F ((face c).width >>> (6 : Nat))
  refine ⟨?_, ?_, ?_, ?_, ?_, ?_, ?_⟩
  · simp [font_sort_create, poke_getElem?, hsorts, hS, hx0, hy0]
  · simp [font_sort_create, hx0]
  · simp [font_sort_create, hy0]
  · simp only [font_sort_create, hm0]
    rcases le_or_lt ((face c).height >>> (6 : Nat)) m0 with hle | hlt
    · rw [if_neg (by omega), max_eq_left hle]
    · rw [if_pos hlt, max_eq_right (le_of_lt hlt)]
  · simp [font_sort_create, hs]
  · simp [font_sort_create, poke_length, hsorts]
  · intro j hj
    simp [font_sort_create, poke_getElem?, hsorts, hj]

/-! ## The comparisons, `bsearch` and `qsort` -/

theorem sortcmp1_neg (key : Int) (S : sort) : sortcmp1 key S < 0 ↔ key < S.c := by
  unfold sortcmp1
  split_ifs <;> constructor <;> intro h <;> omega

theorem sortcmp1_pos (key : Int) (S : sort) : 0 < sortcmp1 key S ↔ S.c < key := by
  unfold sortcmp1
  split_ifs <;> constructor <;> intro h <;> omega

theorem sort_le_iff (S T : sort) : sort_le S T ↔ S.c ≤ T.c := by
  unfold sort_le sortcmp2
  split_ifs <;> constructor <;> intro h <;> omega

theorem qsort_perm (l : List sort) : (qsort l).Perm l :=
  List.perm_insertionSort sort_le l

theorem qsort_sorted (l : List sort) : ascending_table (qsort l) := by
  have h : (qsort l).Pairwise sort_le := List.sorted_insertionSort sort_le l
  exact h.imp (fun {S T} hST => (sort_le_iff S T).1 hST)

theorem bsearch_loop_sound (key : Int) (base : List sort) :
    ∀ (fuel l u i : Nat), bsearch_loop key base fuel l u = some i →
      ∃ S, base[i]? = some S ∧ S.c = key := by
  intro fuel
  induction fuel with
  | zero =>
    intro l u i h
    simp [bsearch_loop] at h
  | succ fuel ih =>
    intro l u i h
    unfold bsearch_loop at h
    split_ifs at h with hlu
    cases hget : base[(l + u) / 2]? with
    | none => simp [hget] at h
    | some S =>
      simp only [hget] at h
      split_ifs at h with h1 h2
      · exact ih _ _ _ h
      · exact ih _ _ _ h
      · cases h
        refine ⟨S, hget, ?_⟩
        rw [sortcmp1_neg] at h1
        simp only [gt_iff_lt, sortcmp1_pos] at h2
        omega

theorem pairwise_getElem? {R : sort → sort → Prop} {l : List sort} (h : l.Pairwise R)
    {i j : Nat} {S T : sort} (hij : i < j) (hi : l[i]? = some S) (hj : l[j]? = some T) :
    R S T := by
  rw [List.pairwise_iff_getElem] at h
  obtain ⟨hi1, hi2⟩ := List.getElem?_eq_some.1 hi
  obtain ⟨hj1, hj2⟩ := List.getElem?_eq_some.1 hj
  have := h i j hi1 hj1 hij
  rw [hi2, hj2] at this
  exact this

theorem bsearch_loop_complete (key : Int) (base : List sort)
    (hs : ascending_table base) :
    ∀ (fuel l u : Nat), u ≤ base.length → u - l ≤ fuel →
      (∃ j S, l ≤ j ∧ j < u ∧ base[j]? = some S ∧ S.c = key) →
      ∃ i, bsearch_loop key base fuel l u = some i := by
  intro fuel
  induction fuel with
  | zero =>
    intro l u _ hf ⟨j, S, h1, h2, _, _⟩
    omega
  | succ fuel ih =>
    intro l u hu hf ⟨j, S, h1, h2, hj, hkey⟩
    have hlu : l < u := by omega
    have hidx : (l + u) / 2 < base.length := by omega
    obtain ⟨T, hT⟩ : ∃ T, base[(l + u) / 2]? = some T :=
      ⟨base[(l + u) / 2], List.getElem?_eq_getElem hidx⟩
    unfold bsearch_loop
    simp only [hlu, if_true, hT]
    split_ifs with c1 c2
    · rw [sortcmp1_neg] at c1
      apply ih l ((l + u) / 2) (by omega) (by omega)
      refine ⟨j, S, h1, ?_, hj, hkey⟩
      by_contra hcon
      rcases Nat.lt_or_ge ((l + u) / 2) j with hlt | hge
      · have := pairwise_getElem? hs hlt hT hj
        simp only at this
        omega
      · have hjeq : j = (l + u) / 2 := by omega
        rw [hjeq, hT] at hj
        cases hj
        omega
    · simp only [gt_iff_lt, sortcmp1_pos] at c2
      apply ih ((l + u) / 2 + 1) u hu (by omega)
      refine ⟨j, S, ?_, h2, hj, hkey⟩
      by_contra hcon
      rcases Nat.lt_or_ge j ((l + u) / 2) with hlt | hge
      · have := pairwise_getElem? hs hlt hj hT
        simp only at this
        omega
      · have hjeq : j = (l + u) / 2 := by omega
        rw [hjeq, hT] at hj
        cases hj
        omega
    · exact ⟨_, rfl⟩

/-- A hit of `bsearch` is a sort of the table with the key searched for. -/
theorem bsearch_sound (key : Int) (base : List sort) (i : Nat)
    (h : bsearch key base base.length = some i) :
    ∃ S, base[i]? = some S ∧ S.c = key :=
  bsearch_loop_sound key base _ _ _ i h

/-- On a table in ascending order `bsearch` finds every key that is present. -/
theorem bsearch_complete (key : Int) (base : List sort)
    (hs : ascending_table base) (S : sort) (hS : S ∈ base) (hkey : S.c = key) :
    ∃ i, bsearch key base base.length = some i := by
  obtain ⟨j, hj, hjS⟩ := List.getElem_of_mem hS
  apply bsearch_loop_complete key base hs _ _ _ (le_refl _) (by omega)
  exact ⟨j, S, by omega, hj, by rw [List.getElem?_eq_getElem hj, hjS], hkey⟩

theorem sorted_table_le {l : List sort} (h : sorted_table l) : ascending_table l :=
  h.imp (fun {_ _} hlt => le_of_lt hlt)

/-- In a strictly increasing table a character code names at most one sort. -/
theorem sorted_table_unique {l : List sort} (h : sorted_table l) {S T : sort}
    (hS : S ∈ l) (hT : T ∈ l) (hc : S.c = T.c) : S = T := by
  by_contra hne
  have hp : l.Pairwise (fun S T => S.c ≠ T.c) :=
    h.imp (fun {_ _} hlt => ne_of_lt hlt)
  exact (hp.forall (fun _ _ hab => Ne.symm hab) hS hT hne) hc

/-- On a strictly increasing table `bsearch` returns the sort with the key when
there is one. -/
theorem bsearch_hit {l : List sort} (h : sorted_table l) {S : sort} (hS : S ∈ l) :
    ∃ i, bsearch S.c l l.length = some i ∧ l[i]? = some S := by
  obtain ⟨i, hi⟩ := bsearch_complete S.c l (sorted_table_le h) S hS rfl
  obtain ⟨T, hT, hTc⟩ := bsearch_sound S.c l i hi
  have hTmem : T ∈ l := List.getElem?_mem hT
  have : T = S := sorted_table_unique h hTmem hS hTc
  exact ⟨i, hi, this ▸ hT⟩

/-- A miss of `bsearch` on a table in ascending order: the key is absent. -/
theorem bsearch_miss {l : List sort} (hs : ascending_table l) {key : Int}
    (h : bsearch key l l.length = none) : ∀ S ∈ l, S.c ≠ key := by
  intro S hS hkey
  obtain ⟨i, hi⟩ := bsearch_complete key l hs S hS hkey
  rw [h] at hi
  cases hi

/-! ## Inserting a sort -/

theorem font_sort_insert_sorts (face : FT_Face) (F : font) (c : Int) :
    (font_sort_insert face F c).sorts = qsort (F.sorts ++ [sort_placed face F c]) := by
  simp only [font_sort_insert, font_sort_create, shelf, font.n, sort_placed, sort_blank,
    ge_iff_le]
  split_ifs <;> simp [poke_append_last]

theorem font_sort_insert_frame (face : FT_Face) (F : font) (c : Int) :
    (font_sort_insert face F c).s = F.s ∧ (font_sort_insert face F c).h = F.h ∧
      (font_sort_insert face F c).a = F.a ∧ (font_sort_insert face F c).k = F.k := by
  simp only [font_sort_insert, font_sort_create, shelf, ge_iff_le]
  split_ifs <;> simp

/-- The cursor after an insertion and the position of the new sort, in the two
cases of the shelf test. -/
theorem font_sort_insert_cursor (face : FT_Face) (F : font) (c : Int) :
    (F.x + (face c).width >>> (6 : Nat) ≥ F.s →
      (sort_placed face F c).X = 0 ∧ (sort_placed face F c).Y = F.y + F.m + 1 ∧
      (font_sort_insert face F c).x = (face c).width >>> (6 : Nat) + 1 ∧
      (font_sort_insert face F c).y = F.y + F.m + 1 ∧
      (font_sort_insert face F c).m = max 0 ((face c).height >>> (6 : Nat))) ∧
    (F.x + (face c).width >>> (6 : Nat) < F.s →
      (sort_placed face F c).X = F.x ∧ (sort_placed face F c).Y = F.y ∧
      (font_sort_insert face F c).x = F.x + (face c).width >>> (6 : Nat) + 1 ∧
      (font_sort_insert face F c).y = F.y ∧
      (font_sort_insert face F c).m = max F.m ((face c).height >>> (6 : Nat))) := by
  constructor
  · intro h
    have hm : (if (face c).height >>> (6 : Nat) > 0 then (face c).height >>> (6 : Nat) else 0)
        = max 0 ((face c).height >>> (6 : Nat)) := by
      split_ifs <;> omega
    simp [font_sort_insert, font_sort_create, shelf, sort_placed, h, hm]
  · intro h
    have h1 : ¬ (F.x + (face c).width >>> (6 : Nat) ≥ F.s) := by omega
    have hm : (if (face c).height >>> (6 : Nat) > F.m then (face c).height >>> (6 : Nat)
        else F.m) = max F.m ((face c).height >>> (6 : Nat)) := by
      split_ifs <;> omega
    simp only [font_sort_insert, font_sort_create, shelf, sort_placed, h1, if_false, hm]
    simp

theorem sort_placed_fields (face : FT_Face) (F : font) (c : Int) :
    (sort_placed face F c).c = c ∧
      (sort_placed face F c).W = (face c).width >>> (6 : Nat) ∧
      (sort_placed face F c).H = (face c).height >>> (6 : Nat) :=
  ⟨rfl, rfl, rfl⟩

theorem shr6_nonneg (v : Int) (h : 0 ≤ v) : 0 ≤ v >>> (6 : Nat) := by
  rw [Int.shiftRight_eq_div_pow]
  positivity

theorem sort.apart_symm {S T : sort} (h : sort.apart S T) : sort.apart T S := by
  unfold sort.apart at h ⊢
  omega

theorem sort.apart_disjoint {S T : sort} (h : sort.apart S T) (px py : Int) :
    ¬ (S.covers px py ∧ T.covers px py) := by
  unfold sort.apart at h
  unfold sort.covers
  omega

/-- An insertion keeps the table strictly increasing when the code is new. -/
theorem sorted_table_insert {l : List sort} (hs : sorted_table l) (Sn : sort)
    (hnew : ∀ S ∈ l, S.c ≠ Sn.c) : sorted_table (qsort (l ++ [Sn])) := by
  have hne : (l ++ [Sn]).Pairwise (fun S T => S.c ≠ T.c) := by
    rw [List.pairwise_append]
    refine ⟨hs.imp (fun {_ _} hlt => ne_of_lt hlt), List.pairwise_singleton _ _, ?_⟩
    intro S hS T hT
    rw [List.mem_singleton] at hT
    subst hT
    exact hnew S hS
  have hne2 : (qsort (l ++ [Sn])).Pairwise (fun S T => S.c ≠ T.c) :=
    ((qsort_perm _).pairwise_iff (fun {_ _} hab => Ne.symm hab)).2 hne
  exact ((qsort_sorted _).and hne2).imp (fun {_ _} hab => lt_of_le_of_ne hab.1 hab.2)

theorem font_sort_insert_sorted (face : FT_Face) (F : font) (c : Int)
    (hs : sorted_table F.sorts) (hnew : ∀ S ∈ F.sorts, S.c ≠ c) :
    sorted_table (font_sort_insert face F c).sorts := by
  rw [font_sort_insert_sorts]
  exact sorted_table_insert hs _ hnew

theorem font_sort_insert_mem (face : FT_Face) (F : font) (c : Int) (S : sort) :
    S ∈ (font_sort_insert face F c).sorts ↔ S ∈ F.sorts ∨ S = sort_placed face F c := by
  rw [font_sort_insert_sorts, (qsort_perm _).mem_iff]
  simp

theorem font_sort_insert_length (face : FT_Face) (F : font) (c : Int) :
    (font_sort_insert face F c).n = F.n + 1 := by
  unfold font.n
  rw [font_sort_insert_sorts, (qsort_perm _).length_eq]
  simp

/-- An insertion keeps the packing invariant. -/
theorem pack_inv_insert (face : FT_Face) (hface : face_nonneg face) (F : font) (c : Int)
    (hinv : pack_inv F) : pack_inv (font_sort_insert face F c) := by
  obtain ⟨hx, hy, hm, hsh, hap⟩ := hinv
  have hW := shr6_nonneg _ (hface c).1
  have hH := shr6_nonneg _ (hface c).2
  obtain ⟨hfs, -, -, -⟩ := font_sort_insert_frame face F c
  obtain ⟨hc1, hc2⟩ := font_sort_insert_cursor face F c
  obtain ⟨-, hSW, hSH⟩ := sort_placed_fields face F c
  have hcases : F.x + (face c).width >>> (6 : Nat) ≥ F.s ∨
      F.x + (face c).width >>> (6 : Nat) < F.s := by omega
  have hnewsh : sort.shelved (font_sort_insert face F c) (sort_placed face F c) := by
    unfold sort.shelved
    rw [hfs, hSW, hSH]
    rcases hcases with hge | hlt
    · obtain ⟨e1, e2, e3, e4, e5⟩ := hc1 hge
      rw [e1, e2, e3, e4, e5]
      omega
    · obtain ⟨e1, e2, e3, e4, e5⟩ := hc2 hlt
      rw [e1, e2, e3, e4, e5]
      omega
  have holdsh : ∀ S ∈ F.sorts, sort.shelved (font_sort_insert face F c) S := by
    intro S hS
    have h0 := hsh S hS
    unfold sort.shelved at h0 ⊢
    rw [hfs]
    rcases hcases with hge | hlt
    · obtain ⟨e1, e2, e3, e4, e5⟩ := hc1 hge
      rw [e3, e4, e5]
      omega
    · obtain ⟨e1, e2, e3, e4, e5⟩ := hc2 hlt
      rw [e3, e4, e5]
      omega
  have hnewap : ∀ S ∈ F.sorts, sort.apart S (sort_placed face F c) := by
    intro S hS
    have h0 := hsh S hS
    unfold sort.shelved at h0
    unfold sort.apart
    rw [hSW, hSH]
    rcases hcases with hge | hlt
    · obtain ⟨e1, e2, e3, e4, e5⟩ := hc1 hge
      rw [e1, e2]
      omega
    · obtain ⟨e1, e2, e3, e4, e5⟩ := hc2 hlt
      rw [e1, e2]
      omega
  refine ⟨?_, ?_, ?_, ?_, ?_⟩
  · rcases hcases with hge | hlt
    · rw [(hc1 hge).2.2.1]
      omega
    · rw [(hc2 hlt).2.2.1]
      omega
  · rcases hcases with hge | hlt
    · rw [(hc1 hge).2.2.2.1]
      omega
    · rw [(hc2 hlt).2.2.2.1]
      omega
  · rcases hcases with hge | hlt
    · rw [(hc1 hge).2.2.2.2]
      omega
    · rw [(hc2 hlt).2.2.2.2]
      omega
  · intro S hS
    rcases (font_sort_insert_mem face F c S).1 hS with hold | hnew
    · exact holdsh S hold
    · rw [hnew]
      exact hnewsh
  · rw [font_sort_insert_sorts]
    refine ((qsort_perm _).pairwise_iff (fun {_ _} hab => sort.apart_symm hab)).2 ?_
    rw [List.pairwise_append]
    refine ⟨hap, List.pairwise_singleton _ _, ?_⟩
    intro S hS T hT
    rw [List.mem_singleton] at hT
    subst hT
    exact hnewap S hS

/-! ## The lookup -/

theorem bsearch_absent {l : List sort} {key : Int} (h : ∀ S ∈ l, S.c ≠ key) :
    bsearch key l l.length = none := by
  cases hb : bsearch key l l.length with
  | none => rfl
  | some i =>
    obtain ⟨S, hS, hc⟩ := bsearch_sound key l i hb
    exact absurd hc (h S (List.getElem?_mem hS))

/-- When `bsearch` hits, the lookup returns the sort found, which has the code
searched for, and changes nothing; the allocator is not consulted. -/
theorem font_sort_search_found (face : FT_Face) (realloc : Nat → Bool) (F : font) (c : Int)
    (fuel i : Nat) (h : bsearch c F.sorts F.sorts.length = some i) :
    ∃ S, F.sorts[i]? = some S ∧ S.c = c ∧ S ∈ F.sorts ∧
      font_sort_search face realloc (fuel + 1) F c = some (F, some S) := by
  obtain ⟨S, hS, hc⟩ := bsearch_sound c F.sorts i h
  refine ⟨S, hS, hc, List.getElem?_mem hS, ?_⟩
  simp [font_sort_search, font.n, h, hS]

/-- A lookup of a code that is in a strictly increasing table returns its sort
and changes nothing. -/
theorem font_sort_search_hit (face : FT_Face) (realloc : Nat → Bool) (F : font) (S : sort)
    (fuel : Nat) (hs : sorted_table F.sorts) (hS : S ∈ F.sorts) :
    font_sort_search face realloc (fuel + 1) F S.c = some (F, some S) := by
  obtain ⟨i, hi, hget⟩ := bsearch_hit hs hS
  simp [font_sort_search, font.n, hi, hget]

/-- A lookup of an absent code with a failing allocation returns the null
pointer and changes nothing. -/
theorem font_sort_search_fail (face : FT_Face) (realloc : Nat → Bool) (F : font) (c : Int)
    (fuel : Nat) (habs : ∀ S ∈ F.sorts, S.c ≠ c) (hre : realloc (F.n + 1) = false) :
    font_sort_search face realloc (fuel + 1) F c = some (F, none) := by
  simp only [font.n] at hre
  simp [font_sort_search, font.n, bsearch_absent habs, hre]

/-- A lookup of an absent code with a successful allocation inserts the sort
and returns it from the recursive call, which is a hit. -/
theorem font_sort_search_miss (face : FT_Face) (realloc : Nat → Bool) (F : font) (c : Int)
    (fuel : Nat) (habs : ∀ S ∈ F.sorts, S.c ≠ c) (hre : realloc (F.n + 1) = true) :
    font_sort_search face realloc (fuel + 2) F c =
      some (font_sort_insert face F c, some (sort_placed face F c)) := by
  have h1 : font_sort_search face realloc (fuel + 2) F c =
      font_sort_search face realloc (fuel + 1) (font_sort_insert face F c) c := by
    rw [font_sort_search]
    simp only [font.n] at hre
    simp only [font.n, bsearch_absent habs, hre, if_true]
  have hmem : sort_placed face F c ∈ (font_sort_insert face F c).sorts :=
    (font_sort_insert_mem face F c _).2 (Or.inr rfl)
  have hasc : ascending_table (font_sort_insert face F c).sorts := by
    rw [font_sort_insert_sorts]
    exact qsort_sorted _
  obtain ⟨i, hi⟩ := bsearch_complete c _ hasc _ hmem rfl
  obtain ⟨S, -, hc, hS, hrun⟩ :=
    font_sort_search_found face realloc (font_sort_insert face F c) c fuel i hi
  rw [h1, hrun]
  rcases (font_sort_insert_mem face F c S).1 hS with hold | hnew
  · exact absurd hc (habs S hold)
  · rw [hnew]

/-- With two units of fuel a lookup on a table in ascending order returns, and
the font afterwards is the old one or the old one with the code inserted. -/
theorem font_sort_search_step (face : FT_Face) (realloc : Nat → Bool) (F : font) (c : Int)
    (fuel : Nat) (hs : ascending_table F.sorts) (hf : 2 ≤ fuel) :
    ∃ F1 r, font_sort_search face realloc fuel F c = some (F1, r) ∧
      (F1 = F ∨ (F1 = font_sort_insert face F c ∧ ∀ S ∈ F.sorts, S.c ≠ c)) := by
  obtain ⟨f, rfl⟩ : ∃ f, fuel = f + 2 := ⟨fuel - 2, by omega⟩
  cases hb : bsearch c F.sorts F.sorts.length with
  | some i =>
    obtain ⟨S, -, -, -, hrun⟩ := font_sort_search_found face realloc F c (f + 1) i hb
    exact ⟨F, some S, hrun, Or.inl rfl⟩
  | none =>
    have habs : ∀ S ∈ F.sorts, S.c ≠ c := bsearch_miss hs hb
    cases hre : realloc (F.n + 1) with
    | false =>
      exact ⟨F, none, font_sort_search_fail face realloc F c (f + 1) habs hre, Or.inl rfl⟩
    | true =>
      exact ⟨_, _, font_sort_search_miss face realloc F c f habs hre, Or.inr ⟨rfl, habs⟩⟩

/-- Every sequence of lookups returns when each lookup has two units of fuel,
keeps the table strictly increasing and the atlas size fixed, and keeps every
property that insertions keep. -/
theorem sort_lookups_invariant (face : FT_Face) (P : font → Prop)
    (hP : ∀ F c, P F → P (font_sort_insert face F c)) (fuel : Nat) (hf : 2 ≤ fuel) :
    ∀ (reqs : List (Int × (Nat → Bool))) (F : font), sorted_table F.sorts → P F →
      ∃ F1, sort_lookups face fuel F reqs = some F1 ∧ sorted_table F1.sorts ∧ P F1 ∧
        F1.s = F.s := by
  intro reqs
  induction reqs with
  | nil =>
    intro F hs hp
    exact ⟨F, rfl, hs, hp, rfl⟩
  | cons req rest ih =>
    intro F hs hp
    obtain ⟨c, realloc⟩ := req
    obtain ⟨F1, r, hrun, hcase⟩ := font_sort_search_step face realloc F c fuel (sorted_table_le hs) hf
    have hnext : sorted_table F1.sorts ∧ P F1 ∧ F1.s = F.s := by
      rcases hcase with rfl | ⟨rfl, habs⟩
      · exact ⟨hs, hp, rfl⟩
      · exact ⟨font_sort_insert_sorted face F c hs habs, hP F c hp,
          (font_sort_insert_frame face F c).1⟩
    obtain ⟨F2, hrun2, hs2, hp2, hsz⟩ := ih F1 hnext.1 hnext.2.1
    refine ⟨F2, ?_, hs2, hp2, hsz.trans hnext.2.2⟩
    simp only [sort_lookups, hrun]
    exact hrun2

theorem font_fresh_pack_inv (h a : Int) (k : ℚ) (s : Int) : pack_inv (font_fresh h a k s) :=
  ⟨le_refl _, le_refl _, le_refl _, fun _ hS => by simp [font_fresh] at hS,
    by simp [font_fresh]⟩

theorem font_fresh_sorted (h a : Int) (k : ℚ) (s : Int) :
    sorted_table (font_fresh h a k s).sorts := by
  simp [font_fresh, sorted_table]

theorem face_square_nonneg : face_nonneg face_square := by
  intro c
  simp [face_square]

/-- C5 at a font with one blank sort, atlas size 32 and the cursor at
`(25, 0, 4)`: the glyph of 10 by 10 pixels starts a new shelf at `(0, 5)`. -/
theorem C5_shelf_policy_witness :
    (∃ S1, (font_sort_create face_square
        { h := 8, a := 6, k := 1, sorts := [sort_blank 65], s := 32, x := 25, y := 0, m := 4 }
        0 65).sorts[0]? = some S1 ∧
      S1.X = 0 ∧ S1.Y = 5 ∧ S1.W = 10 ∧ S1.H = 10 ∧ S1.c = (sort_blank 65).c ∧
      S1.x = (face_square 65).horiBearingX >>> (6 : Nat) ∧
      S1.y = (face_square 65).horiBearingY >>> (6 : Nat) ∧
      S1.a = (face_square 65).advance_x >>> (6 : Nat)) ∧
    (font_sort_create face_square
        { h := 8, a := 6, k := 1, sorts := [sort_blank 65], s := 32, x := 25, y := 0, m := 4 }
        0 65).x = 0 + 10 + 1 ∧
    (font_sort_create face_square
        { h := 8, a := 6, k := 1, sorts := [sort_blank 65], s := 32, x := 25, y := 0, m := 4 }
        0 65).y = 5 ∧
    (font_sort_create face_square
        { h := 8, a := 6, k := 1, sorts := [sort_blank 65], s := 32, x := 25, y := 0, m := 4 }
        0 65).m = max 0 10 ∧
    (font_sort_create face_square
        { h := 8, a := 6, k := 1, sorts := [sort_blank 65], s := 32, x := 25, y := 0, m := 4 }
        0 65).s = 32 ∧
    (font_sort_create face_square
        { h := 8, a := 6, k := 1, sorts := [sort_blank 65], s := 32, x := 25, y := 0, m := 4 }
        0 65).sorts.length = 1 ∧
    (∀ j, j ≠ 0 → (font_sort_create face_square
        { h := 8, a := 6, k := 1, sorts := [sort_blank 65], s := 32, x := 25, y := 0, m := 4 }
        0 65).sorts[j]? = [sort_blank 65][j]?) :=
  C5_shelf_policy face_square
    { h := 8, a := 6, k := 1, sorts := [sort_blank 65], s := 32, x := 25, y := 0, m := 4 }
    0 65 (sort_blank 65) 10 10 0 5 0 rfl (by decide) (by decide) (by decide)

/-! ## Sequences of lookups on a fresh font -/

/-- C6: after any sequence of sort lookups on a freshly created font (cursor
`(0, 0, 0)`, empty table) whose glyph provider returns non-negative widths and
heights, the sequence returns, and the atlas rectangles
`[X, X + W) x [Y, Y + H)` of two sorts at different places of the table have no
point in common. -/
theorem C6_atlas_disjoint (face : FT_Face) (hface : face_nonneg face) (h a : Int) (k : ℚ)
    (s : Int) (reqs : List (Int × (Nat → Bool))) (fuel : Nat) (hf : 2 ≤ fuel) :
    ∃ F, sort_lookups face fuel (font_fresh h a k s) reqs = some F ∧
      ∀ (i j : Nat) (S T : sort), i ≠ j → F.sorts[i]? = some S → F.sorts[j]? = some T →
        ∀ px py : Int, ¬ (S.covers px py ∧ T.covers px py) := by
  obtain ⟨F, hrun, -, hinv, -⟩ :=
    sort_lookups_invariant face pack_inv (fun F c hp => pack_inv_insert face hface F c hp)
      fuel hf reqs (font_fresh h a k s) (font_fresh_sorted h a k s) (font_fresh_pack_inv h a k s)
  refine ⟨F, hrun, ?_⟩
  intro i j S T hij hS hT px py
  rcases Nat.lt_or_gt_of_ne hij with hlt | hgt
  · exact sort.apart_disjoint (pairwise_getElem? hinv.apart hlt hS hT) px py
  · exact sort.apart_disjoint (sort.apart_symm (pairwise_getElem? hinv.apart hgt hT hS)) px py

/-- C6 for three lookups of glyphs of 10 by 10 pixels in an atlas of size 32. -/
theorem C6_atlas_disjoint_witness :
    ∃ F, sort_lookups face_square 2 (font_fresh 8 6 1 32)
        [(66, realloc_ok), (65, realloc_ok), (67, realloc_ok)] = some F ∧
      ∀ (i j : Nat) (S T : sort), i ≠ j → F.sorts[i]? = some S → F.sorts[j]? = some T →
        ∀ px py : Int, ¬ (S.covers px py ∧ T.covers px py) :=
  C6_atlas_disjoint face_square face_square_nonneg 8 6 1 32
    [(66, realloc_ok), (65, realloc_ok), (67, realloc_ok)] 2 (le_refl 2)

/-- C7 (counterexample): seven lookups of glyphs of 10 by 10 pixels on a fresh
font of line height 8, whose atlas has size 32. The seventh sort is placed at
`(0, 33)`: its rectangle ends at `Y + H = 43`, outside the atlas. -/
theorem C7_atlas_overflow :
    ∃ F, sort_lookups face_square 2 (font_fresh 8 6 1 32)
        [(65, realloc_ok), (66, realloc_ok), (67, realloc_ok), (68, realloc_ok),
         (69, realloc_ok), (70, realloc_ok), (71, realloc_ok)] = some F ∧
      F.s = 32 ∧
      F.sorts.map (fun S => (S.c, S.X, S.Y, S.W, S.H)) =
        [(65, 0, 0, 10, 10), (66, 11, 0, 10, 10), (67, 0, 11, 10, 10), (68, 11, 11, 10, 10),
         (69, 0, 22, 10, 10), (70, 11, 22, 10, 10), (71, 0, 33, 10, 10)] ∧
      ¬ (∀ S ∈ F.sorts, 0 ≤ S.X ∧ S.X + S.W ≤ F.s ∧ 0 ≤ S.Y ∧ S.Y + S.H ≤ F.s) := by
  refine ⟨_, rfl, ?_, ?_, ?_⟩
  · decide
  · decide
  · decide

/-- C7 (amended): after any sequence of sort lookups on a freshly created font
with atlas size `s` whose glyph provider returns non-negative widths and
heights, every sort in the table has `0 ≤ X` and `0 ≤ Y`, ends at
`X + W ≤ s` when its width is at most `s`, and ends at `Y + H ≤ y + m`, the
extent of the packing cursor. Hence it lies wholly inside the atlas when its
width is at most `s` and the cursor extent `y + m` is at most `s`. -/
theorem C7_atlas_bounds (face : FT_Face) (hface : face_nonneg face) (h a : Int) (k : ℚ)
    (s : Int) (reqs : List (Int × (Nat → Bool))) (fuel : Nat) (hf : 2 ≤ fuel) :
    ∃ F, sort_lookups face fuel (font_fresh h a k s) reqs = some F ∧ F.s = s ∧
      ∀ S ∈ F.sorts, 0 ≤ S.X ∧ 0 ≤ S.Y ∧ (S.W ≤ s → S.X + S.W ≤ s) ∧
        S.Y + S.H ≤ F.y + F.m ∧
        (S.W ≤ s → F.y + F.m ≤ s →
          0 ≤ S.X ∧ S.X + S.W ≤ s ∧ 0 ≤ S.Y ∧ S.Y + S.H ≤ s) := by
  obtain ⟨F, hrun, -, hinv, hs⟩ :=
    sort_lookups_invariant face pack_inv (fun F c hp => pack_inv_insert face hface F c hp)
      fuel hf reqs (font_fresh h a k s) (font_fresh_sorted h a k s) (font_fresh_pack_inv h a k s)
  have hs1 : F.s = s := hs
  refine ⟨F, hrun, hs1, ?_⟩
  intro S hS
  have hsh := hinv.shelved S hS
  have hm := hinv.m_nonneg
  unfold sort.shelved at hsh
  rw [hs1] at hsh
  omega

/-- C7 (amended) for the seven lookups of the counterexample. -/
theorem C7_atlas_bounds_witness :
    ∃ F, sort_lookups face_square 2 (font_fresh 8 6 1 32)
        [(65, realloc_ok), (66, realloc_ok), (67, realloc_ok), (68, realloc_ok),
         (69, realloc_ok), (70, realloc_ok), (71, realloc_ok)] = some F ∧ F.s = 32 ∧
      ∀ S ∈ F.sorts, 0 ≤ S.X ∧ 0 ≤ S.Y ∧ (S.W ≤ 32 → S.X + S.W ≤ 32) ∧
        S.Y + S.H ≤ F.y + F.m ∧
        (S.W ≤ 32 → F.y + F.m ≤ 32 →
          0 ≤ S.X ∧ S.X + S.W ≤ 32 ∧ 0 ≤ S.Y ∧ S.Y + S.H ≤ 32) :=
  C7_atlas_bounds face_square face_square_nonneg 8 6 1 32
    [(65, realloc_ok), (66, realloc_ok), (67, realloc_ok), (68, realloc_ok),
     (69, realloc_ok), (70, realloc_ok), (71, realloc_ok)] 2 (le_refl 2)

/-- C8: after any sequence of calls of `font_sort_search` on a freshly created
font, each reallocation succeeding or failing as its oracle says, the sequence
returns and the sort table is strictly increasing in the character code: for
indices `i < j` of the table, `sorts[i].c < sorts[j].c`. -/
theorem C8_table_strictly_increasing (face : FT_Face) (h a : Int) (k : ℚ) (s : Int)
    (reqs : List (Int × (Nat → Bool))) (fuel : Nat) (hf : 2 ≤ fuel) :
    ∃ F, sort_lookups face fuel (font_fresh h a k s) reqs = some F ∧
      ∀ (i j : Nat) (S T : sort), i < j → F.sorts[i]? = some S → F.sorts[j]? = some T →
        S.c < T.c := by
  obtain ⟨F, hrun, hsorted, -, -⟩ :=
    sort_lookups_invariant face (fun _ => True) (fun _ _ _ => trivial)
      fuel hf reqs (font_fresh h a k s) (font_fresh_sorted h a k s) trivial
  exact ⟨F, hrun, fun i j S T hij hS hT => pairwise_getElem? hsorted hij hS hT⟩

/-- C8 for lookups out of order, one repeated and one with a failing
reallocation. -/
theorem C8_table_strictly_increasing_witness :
    ∃ F, sort_lookups face_square 2 (font_fresh 8 6 1 32)
        [(67, realloc_ok), (65, realloc_ok), (67, realloc_fail), (66, realloc_fail),
         (68, realloc_ok)] = some F ∧
      ∀ (i j : Nat) (S T : sort), i < j → F.sorts[i]? = some S → F.sorts[j]? = some T →
        S.c < T.c :=
  C8_table_strictly_increasing face_square 8 6 1 32
    [(67, realloc_ok), (65, realloc_ok), (67, realloc_fail), (66, realloc_fail),
     (68, realloc_ok)] 2 (le_refl 2)

/-! ## One lookup on a font with a sorted table -/

/-- C9: on a font whose table is in ascending order (strictly or not), with the
allocation of the first call succeeding, two calls of `font_sort_search` for
the same character code in succession return the same sort, field by field,
and the second call, whatever its allocator does, leaves the font, that is the
sort count, the table and the packing cursor, exactly as the first call left
it. -/
theorem C9_lookup_twice (face : FT_Face) (realloc realloc2 : Nat → Bool) (F : font) (c : Int)
    (fuel : Nat) (hs : ascending_table F.sorts) (hf : 2 ≤ fuel)
    (hok : realloc (F.n + 1) = true) :
    ∃ F1 S, font_sort_search face realloc fuel F c = some (F1, some S) ∧ S.c = c ∧
      font_sort_search face realloc2 fuel F1 c = some (F1, some S) ∧
      F1.n = (if ∃ T ∈ F.sorts, T.c = c then F.n else F.n + 1) := by
  obtain ⟨f, rfl⟩ : ∃ f, fuel = f + 2 := ⟨fuel - 2, by omega⟩
  cases hb : bsearch c F.sorts F.sorts.length with
  | some i =>
    obtain ⟨S, hS1, hc, hS, hrun⟩ := font_sort_search_found face realloc F c (f + 1) i hb
    obtain ⟨S2, hS2, -, -, hrun2⟩ := font_sort_search_found face realloc2 F c (f + 1) i hb
    have hex : ∃ T ∈ F.sorts, T.c = c := ⟨S, hS, hc⟩
    have hSS : S2 = S := by
      rw [hS1] at hS2
      exact (Option.some.inj hS2).symm
    rw [hSS] at hrun2
    exact ⟨F, S, hrun, hc, hrun2, by rw [if_pos hex]⟩
  | none =>
    have habs : ∀ S ∈ F.sorts, S.c ≠ c := bsearch_miss hs hb
    have hex : ¬ ∃ T ∈ F.sorts, T.c = c := fun ⟨T, hT, hc⟩ => habs T hT hc
    have hrun := font_sort_search_miss face realloc F c f habs hok
    refine ⟨font_sort_insert face F c, sort_placed face F c, hrun, rfl, ?_,
      by rw [if_neg hex]; exact font_sort_insert_length face F c⟩
    have hmem : sort_placed face F c ∈ (font_sort_insert face F c).sorts :=
      (font_sort_insert_mem face F c _).2 (Or.inr rfl)
    have hasc : ascending_table (font_sort_insert face F c).sorts := by
      rw [font_sort_insert_sorts]
      exact qsort_sorted _
    obtain ⟨i, hi⟩ := bsearch_complete c _ hasc _ hmem rfl
    obtain ⟨S, -, hc, hS, hrun2⟩ :=
      font_sort_search_found face realloc2 (font_sort_insert face F c) c (f + 1) i hi
    rw [hrun2]
    rcases (font_sort_insert_mem face F c S).1 hS with hold | hnew
    · exact absurd hc (habs S hold)
    · rw [hnew]

/-- C9 on a fresh font: the first call inserts the sort for 65, the second call,
even with a failing allocator, returns the same sort and the same font. -/
theorem C9_lookup_twice_witness :
    ∃ F1 S, font_sort_search face_square realloc_ok 2 (font_fresh 8 6 1 32) 65
        = some (F1, some S) ∧ S.c = 65 ∧
      font_sort_search face_square realloc_fail 2 F1 65 = some (F1, some S) ∧
      F1.n = (if ∃ T ∈ (font_fresh 8 6 1 32).sorts, T.c = 65 then (font_fresh 8 6 1 32).n
        else (font_fresh 8 6 1 32).n + 1) :=
  C9_lookup_twice face_square realloc_ok realloc_fail (font_fresh 8 6 1 32) 65 2
    (sorted_table_le (font_fresh_sorted 8 6 1 32)) (le_refl 2) rfl

/-- C10 (counterexample): on a fresh font the code 65 is absent; when the
reallocation fails the lookup returns the null pointer and the sort count stays
0 instead of growing by one. -/
theorem C10_failed_allocation :
    (∀ S ∈ (font_fresh 8 6 1 32).sorts, S.c ≠ 65) ∧
    font_sort_search face_square realloc_fail 2 (font_fresh 8 6 1 32) 65
      = some (font_fresh 8 6 1 32, none) ∧
    (font_fresh 8 6 1 32).n = 0 := by
  refine ⟨?_, ?_, ?_⟩ <;> decide

/-- C10 (amended): on a font whose table is in ascending order (strictly or
not) a lookup of `c` returns, and every sort of the table before the lookup is
in the table afterwards, unchanged. When `c` was present the sort count is
unchanged and the returned sort has code `c`. When `c` was absent and the
reallocation succeeds the sort count grows by exactly one and the returned sort
has code `c`. When `c` was absent and the reallocation fails the font is
unchanged and the null pointer is returned. The table afterwards is again in
ascending order, and strictly increasing if it was so before. -/
theorem C10_sorts_accumulate (face : FT_Face) (realloc : Nat → Bool) (F : font) (c : Int)
    (fuel : Nat) (hs : ascending_table F.sorts) (hf : 2 ≤ fuel) :
    ∃ F1 r, font_sort_search face realloc fuel F c = some (F1, r) ∧
      ascending_table F1.sorts ∧ (sorted_table F.sorts → sorted_table F1.sorts) ∧
      (∀ S ∈ F.sorts, S ∈ F1.sorts) ∧
      ((∃ S ∈ F.sorts, S.c = c) →
        F1.n = F.n ∧ ∃ S, r = some S ∧ S.c = c ∧ S ∈ F1.sorts) ∧
      ((∀ S ∈ F.sorts, S.c ≠ c) → realloc (F.n + 1) = true →
        F1.n = F.n + 1 ∧ ∃ S, r = some S ∧ S.c = c ∧ S ∈ F1.sorts) ∧
      ((∀ S ∈ F.sorts, S.c ≠ c) → realloc (F.n + 1) = false → F1 = F ∧ r = none) := by
  obtain ⟨f, rfl⟩ : ∃ f, fuel = f + 2 := ⟨fuel - 2, by omega⟩
  cases hb : bsearch c F.sorts F.sorts.length with
  | some i =>
    obtain ⟨S, -, hc, hS, hrun⟩ := font_sort_search_found face realloc F c (f + 1) i hb
    refine ⟨F, some S, hrun, hs, fun h => h, fun T hT => hT,
      fun _ => ⟨rfl, S, rfl, hc, hS⟩, ?_, ?_⟩
    · intro habs
      exact absurd hc (habs S hS)
    · intro habs
      exact absurd hc (habs S hS)
  | none =>
    have habs : ∀ S ∈ F.sorts, S.c ≠ c := bsearch_miss hs hb
    have hex : ¬ ∃ S ∈ F.sorts, S.c = c := fun ⟨T, hT, hc⟩ => habs T hT hc
    cases hre : realloc (F.n + 1) with
    | false =>
      refine ⟨F, none, font_sort_search_fail face realloc F c (f + 1) habs hre, hs,
        fun h => h, fun T hT => hT, fun h => absurd h hex, ?_, fun _ _ => ⟨rfl, rfl⟩⟩
      intro _ h
      cases h
    | true =>
      have hmem : sort_placed face F c ∈ (font_sort_insert face F c).sorts :=
        (font_sort_insert_mem face F c _).2 (Or.inr rfl)
      have hasc : ascending_table (font_sort_insert face F c).sorts := by
        rw [font_sort_insert_sorts]
        exact qsort_sorted _
      refine ⟨font_sort_insert face F c, some (sort_placed face F c),
        font_sort_search_miss face realloc F c f habs hre, hasc,
        fun h => font_sort_insert_sorted face F c h habs,
        fun T hT => (font_sort_insert_mem face F c T).2 (Or.inl hT),
        fun h => absurd h hex,
        fun _ _ => ⟨font_sort_insert_length face F c, _, rfl, rfl, hmem⟩, ?_⟩
      intro _ h
      cases h

/-- C10 (amended) on a fresh font with a succeeding allocator. -/
theorem C10_sorts_accumulate_witness :
    ∃ F1 r, font_sort_search face_square realloc_ok 2 (font_fresh 8 6 1 32) 65 = some (F1, r) ∧
      ascending_table F1.sorts ∧
      (sorted_table (font_fresh 8 6 1 32).sorts → sorted_table F1.sorts) ∧
      (∀ S ∈ (font_fresh 8 6 1 32).sorts, S ∈ F1.sorts) ∧
      ((∃ S ∈ (font_fresh 8 6 1 32).sorts, S.c = 65) →
        F1.n = (font_fresh 8 6 1 32).n ∧ ∃ S, r = some S ∧ S.c = 65 ∧ S ∈ F1.sorts) ∧
      ((∀ S ∈ (font_fresh 8 6 1 32).sorts, S.c ≠ 65) →
        realloc_ok ((font_fresh 8 6 1 32).n + 1) = true →
        F1.n = (font_fresh 8 6 1 32).n + 1 ∧ ∃ S, r = some S ∧ S.c = 65 ∧ S ∈ F1.sorts) ∧
      ((∀ S ∈ (font_fresh 8 6 1 32).sorts, S.c ≠ 65) →
        realloc_ok ((font_fresh 8 6 1 32).n + 1) = false → F1 = font_fresh 8 6 1 32 ∧ r = none) :=
  C10_sorts_accumulate face_square realloc_ok (font_fresh 8 6 1 32) 65 2
    (sorted_table_le (font_fresh_sorted 8 6 1 32)) (le_refl 2)

/-! ## The loop over the characters of a string -/

/-- A call of `utf8` that does not return 0 advances the cursor. -/
theorem utf8_advance (str : CString) (p : Nat) (h : (utf8 str p).1 ≠ 0) :
    p < (utf8 str p).2 := by
  unfold utf8 at h ⊢
  split_ifs at h ⊢ <;> simp at h ⊢

/-- At or past the terminator `utf8` returns 0. -/
theorem utf8_at_end (str : CString) (p : Nat) (h : str.length ≤ p) : (utf8 str p).1 = 0 := by
  have hp : peek str p = 0 := by
    unfold peek
    rw [List.getD_eq_default _ _ h]
    rfl
  simp [utf8, hp]

/-- The loop over a string ends by itself: from cursor `p` it makes at most
`length + 1 - p` calls of `utf8`, and more fuel does not change the codes. -/
theorem utf8_codes_from_fuel (str : CString) :
    ∀ (fuel p : Nat), str.length + 1 ≤ fuel + p →
      utf8_codes_from str (fuel + 1) p = utf8_codes_from str fuel p := by
  intro fuel
  induction fuel with
  | zero =>
    intro p hp
    have h0 := utf8_at_end str p (by omega)
    simp [utf8_codes_from, h0]
  | succ fuel ih =>
    intro p hp
    rw [utf8_codes_from]
    conv_rhs => rw [utf8_codes_from]
    by_cases h0 : (utf8 str p).1 = 0
    · simp [h0]
    · have := utf8_advance str p h0
      simp only [h0, if_false]
      rw [ih _ (by omega)]

/-- The codes of a string do not depend on the fuel beyond `length + 1`. -/
theorem utf8_codes_fuel (str : CString) (extra : Nat) :
    utf8_codes_from str (str.length + 1 + extra) 0 = utf8_codes str := by
  induction extra with
  | zero => rfl
  | succ extra ih =>
    rw [← ih]
    exact utf8_codes_from_fuel str (str.length + 1 + extra) 0 (by omega)

/-! ## The lookup as the typesetter calls it -/

theorem font_sort_search_unfold (face : FT_Face) (realloc : Nat → Bool) (F : font) (c : Int)
    (fuel : Nat) :
    font_sort_search face realloc (fuel + 1) F c =
      match bsearch c F.sorts F.sorts.length with
      | some idx => some (F, F.sorts[idx]?)
      | none =>
        if realloc (F.sorts.length + 1) then
          font_sort_search face realloc fuel (font_sort_insert face F c) c
        else some (F, none) := by
  rw [font_sort_search]
  rfl

/-- After an insertion of `c` the search for `c` hits. -/
theorem bsearch_after_insert (face : FT_Face) (F : font) (c : Int) :
    ∃ i S, bsearch c (font_sort_insert face F c).sorts (font_sort_insert face F c).sorts.length
        = some i ∧ (font_sort_insert face F c).sorts[i]? = some S ∧ S.c = c := by
  have hmem : sort_placed face F c ∈ (font_sort_insert face F c).sorts :=
    (font_sort_insert_mem face F c _).2 (Or.inr rfl)
  have hasc : ascending_table (font_sort_insert face F c).sorts := by
    rw [font_sort_insert_sorts]
    exact qsort_sorted _
  obtain ⟨i, hi⟩ := bsearch_complete c _ hasc _ hmem rfl
  obtain ⟨S, hS, hc⟩ := bsearch_sound c _ i hi
  exact ⟨i, S, hi, hS, hc⟩

/-- Two levels of recursion are enough for `font_sort_search` in every state:
with more fuel the result is the same. -/
theorem font_sort_search_fuel (face : FT_Face) (realloc : Nat → Bool) (F : font) (c : Int)
    (fuel : Nat) (hf : 2 ≤ fuel) :
    font_sort_search face realloc fuel F c = some (font_sort_lookup face realloc F c) := by
  obtain ⟨f, rfl⟩ : ∃ f, fuel = f + 2 := ⟨fuel - 2, by omega⟩
  obtain ⟨i, S, hi, hS, -⟩ := bsearch_after_insert face F c
  have key : ∀ g : Nat, ∃ r, font_sort_search face realloc (g + 2) F c = some r ∧
      font_sort_search face realloc 2 F c = some r := by
    intro g
    rw [font_sort_search_unfold, font_sort_search_unfold face realloc F c 1]
    cases hb : bsearch c F.sorts F.sorts.length with
    | some idx => exact ⟨_, rfl, rfl⟩
    | none =>
      cases hre : realloc (F.sorts.length + 1) with
      | false => exact ⟨_, rfl, rfl⟩
      | true =>
        simp only [if_true]
        rw [font_sort_search_unfold, font_sort_search_unfold face realloc _ c 0, hi]
        exact ⟨_, rfl, rfl⟩
  obtain ⟨r, h1, h2⟩ := key f
  rw [h1, font_sort_lookup, h2]
  rfl

/-- The result of a lookup: the font is unchanged and the sort, if any, is one
of the table with the code `c`; or the allocation succeeded and the font is the
old one with `c` inserted and the sort returned has the code `c`. -/
theorem font_sort_lookup_cases (face : FT_Face) (realloc : Nat → Bool) (F : font) (c : Int) :
    ((font_sort_lookup face realloc F c).1 = F ∧
      ((font_sort_lookup face realloc F c).2 = none ∧ realloc (F.n + 1) = false ∨
        ∃ S, (font_sort_lookup face realloc F c).2 = some S ∧ S ∈ F.sorts ∧ S.c = c)) ∨
    ((font_sort_lookup face realloc F c).1 = font_sort_insert face F c ∧
      realloc (F.n + 1) = true ∧
      ∃ S, (font_sort_lookup face realloc F c).2 = some S ∧
        S ∈ (font_sort_insert face F c).sorts ∧ S.c = c) := by
  obtain ⟨i, S, hi, hS, hc⟩ := bsearch_after_insert face F c
  unfold font_sort_lookup font.n
  rw [font_sort_search_unfold face realloc F c 1]
  cases hb : bsearch c F.sorts F.sorts.length with
  | some idx =>
    obtain ⟨T, hT, hTc⟩ := bsearch_sound c F.sorts idx hb
    left
    simp only [Option.getD_some, hT, true_and]
    exact Or.inr ⟨T, rfl, List.getElem?_mem hT, hTc⟩
  | none =>
    cases hre : realloc (F.sorts.length + 1) with
    | false =>
      left
      simp
    | true =>
      right
      simp only [if_true]
      rw [font_sort_search_unfold face realloc _ c 0, hi]
      simp only [Option.getD_some, hS, true_and]
      exact ⟨S, rfl, List.getElem?_mem hS, hc⟩

/-- A lookup keeps the line height, the space advance, the letter space factor
and the atlas size of the font. -/
theorem font_sort_lookup_frame (face : FT_Face) (realloc : Nat → Bool) (F : font) (c : Int) :
    (font_sort_lookup face realloc F c).1.s = F.s ∧
    (font_sort_lookup face realloc F c).1.h = F.h ∧
    (font_sort_lookup face realloc F c).1.a = F.a ∧
    (font_sort_lookup face realloc F c).1.k = F.k := by
  rcases font_sort_lookup_cases face realloc F c with ⟨h, -⟩ | ⟨h, -⟩
  · rw [h]
    exact ⟨rfl, rfl, rfl, rfl⟩
  · rw [h]
    exact font_sort_insert_frame face F c

/-! ## Setting one glyph -/

/-- What `line_set` leaves in the vertex array: four vertices from `off` on,
everything else as before. -/
theorem line_set_getElem? (v : List vert) (off : Nat) (S : sort) (s x : Int) (k : ℚ)
    (M : Nat → ℚ) (hroom : off + 3 < v.length) (j : Nat) :
    (line_set v off S s x k M).1[j]? =
      if j = off then
        some { v0 := (mat_apply M ((S.x : ℚ) + x) ((S.y : ℚ) - S.H)).1,
               v1 := (mat_apply M ((S.x : ℚ) + x) ((S.y : ℚ) - S.H)).2.1,
               v2 := (mat_apply M ((S.x : ℚ) + x) ((S.y : ℚ) - S.H)).2.2,
               t0 := (S.X : ℚ) / s, t1 := ((S.Y + S.H : Int) : ℚ) / s }
      else if j = off + 1 then
        some { v0 := (mat_apply M ((S.x : ℚ) + S.W + x) ((S.y : ℚ) - S.H)).1,
               v1 := (mat_apply M ((S.x : ℚ) + S.W + x) ((S.y : ℚ) - S.H)).2.1,
               v2 := (mat_apply M ((S.x : ℚ) + S.W + x) ((S.y : ℚ) - S.H)).2.2,
               t0 := ((S.X + S.W : Int) : ℚ) / s, t1 := ((S.Y + S.H : Int) : ℚ) / s }
      else if j = off + 2 then
        some { v0 := (mat_apply M ((S.x : ℚ) + S.W + x) (S.y : ℚ)).1,
               v1 := (mat_apply M ((S.x : ℚ) + S.W + x) (S.y : ℚ)).2.1,
               v2 := (mat_apply M ((S.x : ℚ) + S.W + x) (S.y : ℚ)).2.2,
               t0 := ((S.X + S.W : Int) : ℚ) / s, t1 := (S.Y : ℚ) / s }
      else if j = off + 3 then
        some { v0 := (mat_apply M ((S.x : ℚ) + x) (S.y : ℚ)).1,
               v1 := (mat_apply M ((S.x : ℚ) + x) (S.y : ℚ)).2.1,
               v2 := (mat_apply M ((S.x : ℚ) + x) (S.y : ℚ)).2.2,
               t0 := (S.X : ℚ) / s, t1 := (S.Y : ℚ) / s }
      else v[j]? := by
  simp only [line_set, mat_apply, List.getElem?_set, List.length_set]
  by_cases h3 : j = off + 3
  · subst h3
    simp [hroom]
  · by_cases h2 : j = off + 2
    · subst h2
      have : off + 2 < v.length := by omega
      simp [this]
    · by_cases h1 : j = off + 1
      · subst h1
        have : off + 1 < v.length := by omega
        simp [this]
      · by_cases h0 : j = off
        · subst h0
          have : j < v.length := by omega
          simp [this]
        · have e0 : ¬ off = j := fun h => h0 h.symm
          have e1 : ¬ off + 1 = j := fun h => h1 h.symm
          have e2 : ¬ off + 2 = j := fun h => h2 h.symm
          have e3 : ¬ off + 3 = j := fun h => h3 h.symm
          simp [h0, h1, h2, h3, e0, e1, e2, e3]

theorem line_set_length (v : List vert) (off : Nat) (S : sort) (s x : Int) (k : ℚ)
    (M : Nat → ℚ) : (line_set v off S s x k M).1.length = v.length := by
  simp [line_set]

theorem line_set_pen (v : List vert) (off : Nat) (S : sort) (s x : Int) (k : ℚ)
    (M : Nat → ℚ) : (line_set v off S s x k M).2 = to_int ((x : ℚ) + (S.a : ℚ) * k) := rfl

/-- C15: `line_set` writes the positions of the four vertices as the affine
images under `M` of the corners `(l, b)`, `(r, b)`, `(r, t)`, `(l, t)`, in this
order (bottom left, bottom right, top right, top left), where
`l = S.x + x`, `r = l + S.W`, `t = S.y` and `b = t - S.H`; the image of
`(px, py)` is `(M0 px + M4 py + M12, M1 px + M5 py + M13, M2 px + M6 py + M14)`.
The array keeps its length and its other vertices. -/
theorem C15_line_set_positions (v : List vert) (off : Nat) (S : sort) (s x : Int) (k : ℚ)
    (M : Nat → ℚ) (l r t b : ℚ) (hroom : off + 3 < v.length)
    (hl : l = (S.x : ℚ) + x) (hr : r = l + S.W) (ht : t = S.y) (hb : b = t - S.H) :
    ∃ q0 q1 q2 q3 : vert,
      (line_set v off S s x k M).1[off]? = some q0 ∧
      (line_set v off S s x k M).1[off + 1]? = some q1 ∧
      (line_set v off S s x k M).1[off + 2]? = some q2 ∧
      (line_set v off S s x k M).1[off + 3]? = some q3 ∧
      (q0.v0, q0.v1, q0.v2) = mat_apply M l b ∧
      (q1.v0, q1.v1, q1.v2) = mat_apply M r b ∧
      (q2.v0, q2.v1, q2.v2) = mat_apply M r t ∧
      (q3.v0, q3.v1, q3.v2) = mat_apply M l t ∧
      mat_apply M l b =
        (M 0 * l + M 4 * b + M 12, M 1 * l + M 5 * b + M 13, M 2 * l + M 6 * b + M 14) ∧
      (line_set v off S s x k M).1.length = v.length ∧
      ∀ j, (j < off ∨ off + 3 < j) → (line_set v off S s x k M).1[j]? = v[j]? := by
  have hr2 : r = (S.x : ℚ) + S.W + x := by rw [hr, hl]; ring
  subst hl ht hb
  rw [hr2]
  have h0 := line_set_getElem? v off S s x k M hroom off
  rw [if_pos rfl] at h0
  have h1 := line_set_getElem? v off S s x k M hroom (off + 1)
  rw [if_neg (by omega), if_pos rfl] at h1
  have h2 := line_set_getElem? v off S s x k M hroom (off + 2)
  rw [if_neg (by omega), if_neg (by omega), if_pos rfl] at h2
  have h3 := line_set_getElem? v off S s x k M hroom (off + 3)
  rw [if_neg (by omega), if_neg (by omega), if_neg (by omega), if_pos rfl] at h3
  refine ⟨_, _, _, _, h0, h1, h2, h3, rfl, rfl, rfl, rfl, rfl, line_set_length _ _ _ _ _ _ _, ?_⟩
  intro j hj
  rw [line_set_getElem? _ _ _ _ _ _ _ hroom, if_neg (by omega), if_neg (by omega),
    if_neg (by omega), if_neg (by omega)]

/-- C16: for an atlas size `s > 0`, the texture rectangle of the quad runs from
`(X / s, Y / s)` to `((X + W) / s, (Y + H) / s)` and the vertices carry its
corners: bottom left `(X / s, (Y + H) / s)`, bottom right
`((X + W) / s, (Y + H) / s)`, top right `((X + W) / s, Y / s)`, top left
`(X / s, Y / s)`; when the rectangle of the sort lies inside the atlas, all
texture coordinates are in `[0, 1]`. -/
theorem C16_line_set_texcoords (v : List vert) (off : Nat) (S : sort) (s x : Int) (k : ℚ)
    (M : Nat → ℚ) (hroom : off + 3 < v.length) (hs : 0 < s) :
    ∃ q0 q1 q2 q3 : vert,
      (line_set v off S s x k M).1[off]? = some q0 ∧
      (line_set v off S s x k M).1[off + 1]? = some q1 ∧
      (line_set v off S s x k M).1[off + 2]? = some q2 ∧
      (line_set v off S s x k M).1[off + 3]? = some q3 ∧
      (q0.t0, q0.t1) = ((S.X : ℚ) / s, ((S.Y : ℚ) + S.H) / s) ∧
      (q1.t0, q1.t1) = (((S.X : ℚ) + S.W) / s, ((S.Y : ℚ) + S.H) / s) ∧
      (q2.t0, q2.t1) = (((S.X : ℚ) + S.W) / s, (S.Y : ℚ) / s) ∧
      (q3.t0, q3.t1) = ((S.X : ℚ) / s, (S.Y : ℚ) / s) ∧
      (0 ≤ S.X → 0 ≤ S.W → S.X + S.W ≤ s → 0 ≤ S.Y → 0 ≤ S.H → S.Y + S.H ≤ s →
        ∀ q ∈ [q0, q1, q2, q3], 0 ≤ q.t0 ∧ q.t0 ≤ 1 ∧ 0 ≤ q.t1 ∧ q.t1 ≤ 1) := by
  have hsq : (0 : ℚ) < (s : ℚ) := by exact_mod_cast hs
  have h0 := line_set_getElem? v off S s x k M hroom off
  rw [if_pos rfl] at h0
  have h1 := line_set_getElem? v off S s x k M hroom (off + 1)
  rw [if_neg (by omega), if_pos rfl] at h1
  have h2 := line_set_getElem? v off S s x k M hroom (off + 2)
  rw [if_neg (by omega), if_neg (by omega), if_pos rfl] at h2
  have h3 := line_set_getElem? v off S s x k M hroom (off + 3)
  rw [if_neg (by omega), if_neg (by omega), if_neg (by omega), if_pos rfl] at h3
  refine ⟨_, _, _, _, h0, h1, h2, h3, ?_, ?_, ?_, ?_, ?_⟩
  · simp
  · simp
  · simp
  · simp
  · intro hX hW hXW hY hH hYH q hq
    have bound : ∀ z : Int, 0 ≤ z → z ≤ s → 0 ≤ (z : ℚ) / s ∧ (z : ℚ) / s ≤ 1 := by
      intro z hz0 hzs
      have hzq : (0 : ℚ) ≤ (z : ℚ) := by exact_mod_cast hz0
      have hzs2 : (z : ℚ) ≤ (s : ℚ) := by exact_mod_cast hzs
      exact ⟨div_nonneg hzq (le_of_lt hsq), (div_le_one hsq).2 hzs2⟩
    have bX := bound S.X hX (by omega)
    have bXW := bound (S.X + S.W) (by omega) hXW
    have bY := bound S.Y hY (by omega)
    have bYH := bound (S.Y + S.H) (by omega) hYH
    simp only [List.mem_cons, List.mem_singleton, List.not_mem_nil, or_false] at hq
    rcases hq with rfl | rfl | rfl | rfl
    · exact ⟨bX.1, bX.2, bYH.1, bYH.2⟩
    · exact ⟨bXW.1, bXW.2, bYH.1, bYH.2⟩
    · exact ⟨bXW.1, bXW.2, bY.1, bY.2⟩
    · exact ⟨bX.1, bX.2, bY.1, bY.2⟩

/-! ## The body of the loop of `layout` -/

theorem layout_step_space (face : FT_Face) (kern : FT_Kerning) (realloc : Nat → Bool) (off : Nat)
    (s exp : Int) (mat : Nat → ℚ) (st : layout_state) :
    layout_step face kern realloc off s exp mat st 32 =
      { st with
        x := st.x + to_int ((st.F.a : ℚ) * st.F.k + ((Int.tdiv (exp * (st.e + 1)) s : Int) : ℚ)
                - ((Int.tdiv (exp * st.e) s : Int) : ℚ))
        e := st.e + 1 } := by
  simp [layout_step]

theorem layout_step_glyph (face : FT_Face) (kern : FT_Kerning) (realloc : Nat → Bool) (off : Nat)
    (s exp : Int) (mat : Nat → ℚ) (st : layout_state) (c : Nat) (S : sort) (hc : c ≠ 32)
    (hS : (font_sort_lookup face realloc st.F (c : Int)).2 = some S) :
    layout_step face kern realloc off s exp mat st c =
      { F := (font_sort_lookup face realloc st.F (c : Int)).1
        v := (line_set st.v (off + 4 * st.i) S (font_sort_lookup face realloc st.F (c : Int)).1.s
          (st.x + kern.kerning_x st.l (kern.char_index (c : Int)) >>> (6 : Nat))
          (font_sort_lookup face realloc st.F (c : Int)).1.k mat).1
        x := (line_set st.v (off + 4 * st.i) S (font_sort_lookup face realloc st.F (c : Int)).1.s
          (st.x + kern.kerning_x st.l (kern.char_index (c : Int)) >>> (6 : Nat))
          (font_sort_lookup face realloc st.F (c : Int)).1.k mat).2
        e := st.e
        i := st.i + 1
        l := kern.char_index (c : Int) } := by
  unfold layout_step
  rw [if_neg hc]
  rcases hlook : font_sort_lookup face realloc st.F (c : Int) with ⟨F1, r⟩
  rw [hlook] at hS
  simp only at hS
  subst hS
  rfl

theorem layout_step_skip (face : FT_Face) (kern : FT_Kerning) (realloc : Nat → Bool) (off : Nat)
    (s exp : Int) (mat : Nat → ℚ) (st : layout_state) (c : Nat) (hc : c ≠ 32)
    (hS : (font_sort_lookup face realloc st.F (c : Int)).2 = none) :
    layout_step face kern realloc off s exp mat st c =
      { st with F := (font_sort_lookup face realloc st.F (c : Int)).1 } := by
  unfold layout_step
  rw [if_neg hc]
  rcases hlook : font_sort_lookup face realloc st.F (c : Int) with ⟨F1, r⟩
  rw [hlook] at hS
  simp only at hS
  subst hS
  rfl

/-- The three cases of the body: a space, a glyph set, a character skipped. -/
theorem layout_step_cases (face : FT_Face) (realloc : Nat → Bool)
    (st : layout_state) (c : Nat) :
    c = 32 ∨
    (c ≠ 32 ∧ ∃ S, (font_sort_lookup face realloc st.F (c : Int)).2 = some S) ∨
    (c ≠ 32 ∧ (font_sort_lookup face realloc st.F (c : Int)).2 = none) := by
  by_cases hc : c = 32
  · exact Or.inl hc
  · cases h : (font_sort_lookup face realloc st.F (c : Int)).2 with
    | none => exact Or.inr (Or.inr ⟨hc, rfl⟩)
    | some S => exact Or.inr (Or.inl ⟨hc, S, rfl⟩)

/-- The body keeps the length of the vertex array and the constants of the
font; the font, the counter `e`, the count `i` and the glyph index `l`
afterwards do not depend on the expansion, the matrix, the offset or the
vertex array. -/
theorem layout_step_frame (face : FT_Face) (kern : FT_Kerning) (realloc : Nat → Bool) (off : Nat)
    (s exp : Int) (mat : Nat → ℚ) (st : layout_state) (c : Nat) :
    (layout_step face kern realloc off s exp mat st c).v.length = st.v.length ∧
    (layout_step face kern realloc off s exp mat st c).F.s = st.F.s ∧
    (layout_step face kern realloc off s exp mat st c).F.h = st.F.h ∧
    (layout_step face kern realloc off s exp mat st c).F.a = st.F.a ∧
    (layout_step face kern realloc off s exp mat st c).F.k = st.F.k := by
  obtain ⟨f1, f2, f3, f4⟩ := font_sort_lookup_frame face realloc st.F (c : Int)
  rcases layout_step_cases face realloc st c with rfl | ⟨hc, S, hS⟩ | ⟨hc, hS⟩
  · rw [layout_step_space]
    exact ⟨rfl, rfl, rfl, rfl, rfl⟩
  · rw [layout_step_glyph face kern realloc off s exp mat st c S hc hS]
    refine ⟨?_, f1, f2, f3, f4⟩
    simp only [line_set_length]
  · rw [layout_step_skip face kern realloc off s exp mat st c hc hS]
    exact ⟨rfl, f1, f2, f3, f4⟩

theorem layout_loop_frame (face : FT_Face) (kern : FT_Kerning) (realloc : Nat → Nat → Bool)
    (off : Nat) (s exp : Int) (mat : Nat → ℚ) :
    ∀ (codes : List Nat) (t : Nat) (st : layout_state),
      (layout_loop face kern realloc off s exp mat codes t st).v.length = st.v.length ∧
      (layout_loop face kern realloc off s exp mat codes t st).F.s = st.F.s ∧
      (layout_loop face kern realloc off s exp mat codes t st).F.h = st.F.h ∧
      (layout_loop face kern realloc off s exp mat codes t st).F.a = st.F.a ∧
      (layout_loop face kern realloc off s exp mat codes t st).F.k = st.F.k := by
  intro codes
  induction codes with
  | nil =>
    intro t st
    exact ⟨rfl, rfl, rfl, rfl, rfl⟩
  | cons c cs ih =>
    intro t st
    obtain ⟨a1, a2, a3, a4, a5⟩ := ih (t + 1) (layout_step face kern (realloc t) off s exp mat st c)
    obtain ⟨b1, b2, b3, b4, b5⟩ := layout_step_frame face kern (realloc t) off s exp mat st c
    simp only [layout_loop]
    exact ⟨a1.trans b1, a2.trans b2, a3.trans b3, a4.trans b4, a5.trans b5⟩

theorem layout_frame (face : FT_Face) (kern : FT_Kerning) (realloc : Nat → Nat → Bool)
    (v : List vert) (off : Nat) (str : CString) (exp : Int) (mat : Nat → ℚ) (F : font) :
    (layout face kern realloc v off str exp mat F).2.1.length = v.length ∧
    (layout face kern realloc v off str exp mat F).1.h = F.h := by
  obtain ⟨a1, -, a3, -, -⟩ := layout_loop_frame face kern realloc off
    (layout_count (utf8_codes str)).1 exp mat (utf8_codes str) 0
    { F := F, v := v, x := 0, e := 0, i := 0, l := 0 }
  exact ⟨a1, a3⟩

/-! ## The count of `line_layout` -/

theorem count_fold (codes : List Nat) :
    ∀ n : Int, codes.foldl (fun n c => if c ≠ 32 then n + 1 else n) n =
      n + ((codes.filter (fun c => c ≠ 32)).length : Int) := by
  induction codes with
  | nil =>
    intro n
    simp
  | cons c cs ih =>
    intro n
    rw [List.foldl_cons, ih]
    by_cases hc : c = 32
    · simp [List.filter_cons, hc]
    · simp [List.filter_cons, hc]
      ring

theorem line_count_fold (strv : List CString) :
    ∀ n : Int,
      strv.foldl (fun n str => (utf8_codes str).foldl (fun n c => if c ≠ 32 then n + 1 else n) n)
          n =
        n + (((strv.map (fun str => ((utf8_codes str).filter (fun c => c ≠ 32)).length)).sum
          : Nat) : Int) := by
  induction strv with
  | nil =>
    intro n
    simp
  | cons str rest ih =>
    intro n
    simp only [List.foldl_cons, List.map_cons, List.sum_cons]
    rw [ih, count_fold]
    push_cast
    ring

theorem line_count_eq (strv : List CString) :
    line_count strv =
      (((strv.map (fun str => ((utf8_codes str).filter (fun c => c ≠ 32)).length)).sum
        : Nat) : Int) := by
  unfold line_count
  rw [line_count_fold]
  simp

theorem line_layout_loop_length (face : FT_Face) (kern : FT_Kerning)
    (realloc : Nat → Nat → Nat → Bool) (expv : Option (List Int)) (matv : Option (Nat → ℚ)) :
    ∀ (strv : List CString) (i : Nat) (st : font × List vert × Nat × (Nat → ℚ)),
      (line_layout_loop face kern realloc expv matv strv i st).2.1.length = st.2.1.length := by
  intro strv
  induction strv with
  | nil =>
    intro i st
    rfl
  | cons str rest ih =>
    intro i st
    obtain ⟨F, v, j, I⟩ := st
    simp only [line_layout_loop]
    rw [ih]
    exact (layout_frame _ _ _ _ _ _ _ _ _).1

/-- C11: every line that `line_layout` returns has as its count `n` the number
of codes other than the space that the strings decode to (each up to the first
result 0 of the decoder), and every vertex array of such a line holds exactly
`4 * n` vertices; when the two allocations of `line_layout` succeed, such a
line with such a vertex array is returned. -/
theorem C11_line_layout_count (face : FT_Face) (kern : FT_Kerning) (heap : allocator)
    (strv : List CString) (expv : Option (List Int)) (matv : Option (Nat → ℚ)) (F : font)
    (n : Nat)
    (hn : n = (strv.map (fun str => ((utf8_codes str).filter (fun c => c ≠ 32)).length)).sum) :
    (∀ L, (line_layout face kern heap strv expv matv F).2 = some L →
      L.n = n ∧ ∀ buf, L.v = some buf → buf.length = 4 * n) ∧
    (heap.calloc_line = true → heap.calloc_vert ((n : Int) * 4) = true →
      ∃ L buf, (line_layout face kern heap strv expv matv F).2 = some L ∧
        L.v = some buf ∧ L.n = n ∧ buf.length = 4 * n) := by
  have hcount : line_count strv = (n : Int) := by rw [hn]; exact line_count_eq strv
  have hlen : (line_layout_loop face kern heap.realloc expv matv strv 0
      (F, List.replicate (line_count strv * 4).toNat vert_zero, 0, mat_identity)).2.1.length
      = 4 * n := by
    rw [line_layout_loop_length, hcount]
    simp
    omega
  constructor
  · intro L hL
    by_cases h1 : heap.calloc_line = true
    · by_cases h2 : heap.calloc_vert (line_count strv * 4) = true
      · simp only [line_layout, h1, h2, if_true, Option.some.injEq] at hL
        subst hL
        refine ⟨hcount, ?_⟩
        intro buf hbuf
        simp only [Option.some.injEq] at hbuf
        rw [← hbuf]
        exact hlen
      · simp only [Bool.not_eq_true] at h2
        simp only [line_layout, h1, h2, if_true, Bool.false_eq_true, if_false,
          Option.some.injEq] at hL
        subst hL
        refine ⟨hcount, ?_⟩
        intro buf hbuf
        cases hbuf
    · simp only [Bool.not_eq_true] at h1
      simp only [line_layout, h1, Bool.false_eq_true, if_false] at hL
      cases hL
  · intro h1 h2
    rw [← hcount] at h2
    obtain ⟨buf, hbuf⟩ : ∃ buf, buf = (line_layout_loop face kern heap.realloc expv matv strv 0
        (F, List.replicate (line_count strv * 4).toNat vert_zero, 0, mat_identity)).2.1 :=
      ⟨_, rfl⟩
    rw [← hbuf] at hlen
    refine ⟨{ v := some buf, n := line_count strv }, buf, ?_, rfl, hcount, hlen⟩
    simp [line_layout, h1, h2, hbuf]

/-! ## Expansion at the spaces -/

theorem to_int_add_int (q : ℚ) (n : Int) (hq : 0 ≤ q) (hn : 0 ≤ n) :
    to_int (q + (n : ℚ)) = to_int q + n := by
  have hn2 : (0 : ℚ) ≤ (n : ℚ) := by exact_mod_cast hn
  unfold to_int
  rw [if_pos hq, if_pos (add_nonneg hq hn2)]
  exact Int.floor_add_int q n

theorem tdiv_mul_mono (E e s : Int) (hE : 0 ≤ E) (he : 0 ≤ e) (hs : 0 ≤ s) :
    0 ≤ Int.tdiv (E * e) s ∧ Int.tdiv (E * e) s ≤ Int.tdiv (E * (e + 1)) s := by
  have h1 : 0 ≤ E * e := mul_nonneg hE he
  have h2 : 0 ≤ E * (e + 1) := mul_nonneg hE (by omega)
  have h3 : E * e ≤ E * (e + 1) := by nlinarith
  refine ⟨Int.tdiv_nonneg h1 hs, ?_⟩
  rw [Int.tdiv_eq_ediv h1 hs, Int.tdiv_eq_ediv h2 hs]
  rcases eq_or_lt_of_le hs with h0 | hpos
  · rw [← h0]
    simp
  · exact Int.ediv_le_ediv hpos h3

/-- The first loop of `layout` counts the spaces. -/
theorem layout_count_spaces (codes : List Nat) :
    (layout_count codes).1 = (codes.count 32 : Nat) := by
  have key : ∀ (sn : Int × Int),
      (codes.foldl (fun sn c => if c = 32 then (sn.1 + 1, sn.2) else (sn.1, sn.2 + 1)) sn).1
        = sn.1 + (codes.count 32 : Nat) := by
    induction codes with
    | nil =>
      intro sn
      simp
    | cons c cs ih =>
      intro sn
      rw [List.foldl_cons, ih]
      by_cases hc : c = 32
      · subst hc
        simp
        ring
      · have hc2 : ¬ (32 = c) := fun h => hc h.symm
        simp [hc, List.count_cons, hc2]
  have := key (0, 0)
  simpa [layout_count] using this

theorem layout_event_space (face : FT_Face) (kern : FT_Kerning) (realloc : Nat → Bool)
    (st : layout_state) : layout_event face kern realloc st 32 = none := by
  simp [layout_event]

theorem layout_event_glyph (face : FT_Face) (kern : FT_Kerning) (realloc : Nat → Bool)
    (st : layout_state) (c : Nat) (S : sort) (hc : c ≠ 32)
    (hS : (font_sort_lookup face realloc st.F (c : Int)).2 = some S) :
    layout_event face kern realloc st c =
      some { pen := st.x + kern.kerning_x st.l (kern.char_index (c : Int)) >>> (6 : Nat),
             e := st.e, S := S } := by
  simp [layout_event, hc, hS]

theorem layout_event_skip (face : FT_Face) (kern : FT_Kerning) (realloc : Nat → Bool)
    (st : layout_state) (c : Nat) (hc : c ≠ 32)
    (hS : (font_sort_lookup face realloc st.F (c : Int)).2 = none) :
    layout_event face kern realloc st c = none := by
  simp [layout_event, hc, hS]

/-- One iteration keeps the relation between the expanded and the unexpanded
run, when the space advance is not negative and the glyph of this iteration, if
any, ends at a pen that is not negative before its conversion to `int`. -/
theorem layout_step_shift (face : FT_Face) (kern : FT_Kerning) (realloc : Nat → Bool)
    (off : Nat) (s E : Int) (mat : Nat → ℚ) (stE st0 : layout_state) (c : Nat)
    (hrel : pen_shift E s stE st0) (hE : 0 ≤ E) (hs : 0 ≤ s) (he : 0 ≤ st0.e)
    (hak : 0 ≤ (st0.F.a : ℚ) * st0.F.k)
    (hpen : ∀ ev, layout_event face kern realloc st0 c = some ev →
      0 ≤ (ev.pen : ℚ) + (ev.S.a : ℚ) * st0.F.k) :
    pen_shift E s (layout_step face kern realloc off s E mat stE c)
      (layout_step face kern realloc off s 0 mat st0 c) ∧
    (layout_step face kern realloc off s 0 mat st0 c).e = st0.e + (if c = 32 then 1 else 0) ∧
    layout_event face kern realloc stE c =
      (layout_event face kern realloc st0 c).map
        (fun ev => { ev with pen := ev.pen + Int.tdiv (E * ev.e) s }) := by
  obtain ⟨hF, hee, hi, hl, hx⟩ := hrel
  obtain ⟨-, -, -, fk⟩ := font_sort_lookup_frame face realloc st0.F (c : Int)
  rcases layout_step_cases face realloc st0 c with rfl | ⟨hc, S, hS⟩ | ⟨hc, hS⟩
  · rw [layout_step_space, layout_step_space, layout_event_space, layout_event_space]
    obtain ⟨hD0, hD1⟩ := tdiv_mul_mono E st0.e s hE he hs
    refine ⟨⟨hF, ?_, hi, hl, ?_⟩, by simp, rfl⟩
    · simp only [hee]
    · simp only [hF, hee, hx, zero_mul, Int.zero_tdiv, Int.cast_zero, add_zero, sub_zero]
      have hcast : (st0.F.a : ℚ) * st0.F.k + ((Int.tdiv (E * (st0.e + 1)) s : Int) : ℚ)
          - ((Int.tdiv (E * st0.e) s : Int) : ℚ)
          = (st0.F.a : ℚ) * st0.F.k
            + ((Int.tdiv (E * (st0.e + 1)) s - Int.tdiv (E * st0.e) s : Int) : ℚ) := by
        push_cast
        ring
      rw [hcast, to_int_add_int _ _ hak (by omega)]
      ring
  · have hSE : (font_sort_lookup face realloc stE.F (c : Int)).2 = some S := by rw [hF]; exact hS
    rw [layout_step_glyph face kern realloc _ s E mat stE c S hc hSE,
      layout_step_glyph face kern realloc _ s 0 mat st0 c S hc hS,
      layout_event_glyph face kern realloc stE c S hc hSE,
      layout_event_glyph face kern realloc st0 c S hc hS]
    have hp := hpen _ (layout_event_glyph face kern realloc st0 c S hc hS)
    simp only at hp
    obtain ⟨hD0, -⟩ := tdiv_mul_mono E st0.e s hE he hs
    refine ⟨⟨?_, hee, ?_, rfl, ?_⟩, by simp [hc], ?_⟩
    · simp only [hF]
    · simp only [hi]
    · simp only [line_set_pen, hF, hl, hx, fk]
      have hcast : (((st0.x + Int.tdiv (E * st0.e) s
            + kern.kerning_x st0.l (kern.char_index (c : Int)) >>> (6 : Nat) : Int) : ℚ))
            + (S.a : ℚ) * st0.F.k
          = ((st0.x + kern.kerning_x st0.l (kern.char_index (c : Int)) >>> (6 : Nat) : Int) : ℚ)
            + (S.a : ℚ) * st0.F.k + ((Int.tdiv (E * st0.e) s : Int) : ℚ) := by
        push_cast
        ring
      rw [hcast, to_int_add_int _ _ hp hD0]
    · simp only [Option.map_some', hl, hx, hee]
      congr 1
      simp only [glyph_event.mk.injEq, and_true]
      ring
  · have hSE : (font_sort_lookup face realloc stE.F (c : Int)).2 = none := by rw [hF]; exact hS
    rw [layout_step_skip face kern realloc _ s E mat stE c hc hSE,
      layout_step_skip face kern realloc _ s 0 mat st0 c hc hS,
      layout_event_skip face kern realloc stE c hc hSE,
      layout_event_skip face kern realloc st0 c hc hS]
    refine ⟨⟨?_, hee, hi, hl, hx⟩, by simp [hc], rfl⟩
    simp only [hF]

/-- The loop keeps the relation between the expanded and the unexpanded run;
the unexpanded run counts the spaces in `e`, and the calls of `line_set` of the
expanded run are those of the unexpanded run with the pens moved by the share
`E * e / s` of the expansion. -/
theorem layout_loop_shift (face : FT_Face) (kern : FT_Kerning) (realloc : Nat → Nat → Bool)
    (off : Nat) (s E : Int) (mat : Nat → ℚ) (hE : 0 ≤ E) (hs : 0 ≤ s) (a0 : Int) (k0 : ℚ)
    (hak : 0 ≤ (a0 : ℚ) * k0) :
    ∀ (codes : List Nat) (t : Nat) (stE st0 : layout_state),
      pen_shift E s stE st0 → 0 ≤ st0.e → st0.F.a = a0 → st0.F.k = k0 →
      (∀ ev ∈ layout_trace face kern realloc off s 0 mat codes t st0,
        0 ≤ (ev.pen : ℚ) + (ev.S.a : ℚ) * k0) →
      pen_shift E s (layout_loop face kern realloc off s E mat codes t stE)
        (layout_loop face kern realloc off s 0 mat codes t st0) ∧
      (layout_loop face kern realloc off s 0 mat codes t st0).e
        = st0.e + (codes.count 32 : Nat) ∧
      layout_trace face kern realloc off s E mat codes t stE =
        (layout_trace face kern realloc off s 0 mat codes t st0).map
          (fun ev => { ev with pen := ev.pen + Int.tdiv (E * ev.e) s }) := by
  intro codes
  induction codes with
  | nil =>
    intro t stE st0 hrel _ _ _ _
    exact ⟨hrel, by simp [layout_loop], rfl⟩
  | cons c cs ih =>
    intro t stE st0 hrel he ha hk hpen
    have hpen0 : ∀ ev, layout_event face kern (realloc t) st0 c = some ev →
        0 ≤ (ev.pen : ℚ) + (ev.S.a : ℚ) * st0.F.k := by
      intro ev hev
      rw [hk]
      apply hpen
      simp only [layout_trace, List.mem_append, Option.mem_toList, Option.mem_def]
      exact Or.inl hev
    obtain ⟨hrel1, he1, hev1⟩ := layout_step_shift face kern (realloc t) off s E mat stE st0 c
      hrel hE hs he (by rw [ha, hk]; exact hak) hpen0
    obtain ⟨-, -, -, fa, fk⟩ := layout_step_frame face kern (realloc t) off s 0 mat st0 c
    have he2 : 0 ≤ (layout_step face kern (realloc t) off s 0 mat st0 c).e := by
      rw [he1]
      split_ifs <;> omega
    obtain ⟨r1, r2, r3⟩ := ih (t + 1) _ _ hrel1 he2 (fa.trans ha) (fk.trans hk)
      (by
        intro ev hev
        apply hpen
        simp only [layout_trace, List.mem_append]
        exact Or.inr hev)
    refine ⟨?_, ?_, ?_⟩
    · simpa only [layout_loop] using r1
    · simp only [layout_loop]
      rw [r2, he1, List.count_cons]
      by_cases hc : c = 32
      · subst hc
        simp
        ring
      · have hc2 : ¬ (32 = c) := fun h => hc h.symm
        simp [hc, hc2]
    · simp only [layout_trace, List.map_append, r3, hev1]
      congr 1
      cases layout_event face kern (realloc t) st0 c <;> rfl

theorem pen_shift_init (E s : Int) (F : font) (v : List vert) :
    pen_shift E s { F := F, v := v, x := 0, e := 0, i := 0, l := 0 }
      { F := F, v := v, x := 0, e := 0, i := 0, l := 0 } :=
  ⟨rfl, rfl, rfl, rfl, by simp⟩

/-- C12 (counterexample): the string `a b`, space advance 2, letter space
factor 1/2, glyph advance 3 and the pair `a`, `b` kerned by -4 pixels. Without
expansion the pen is 0 at the end, with expansion 10 it is 9: the difference is
9, not 10. In the unexpanded run the glyph `b` ends at -1/2, which the
conversion to `int` rounds up to 0. -/
theorem C12_negative_pen :
    utf8_codes [0x61, 0x20, 0x62] = [97, 32, 98] ∧
    (0 : Int) ≤ (font_fresh 8 2 (1 / 2) 32).a ∧ (0 : ℚ) ≤ (font_fresh 8 2 (1 / 2) 32).k ∧
    (layout_run face_small kern_tight realloc_always (List.replicate 8 vert_zero) 0
      [0x61, 0x20, 0x62] 0 mat_identity (font_fresh 8 2 (1 / 2) 32)).x = 0 ∧
    (layout_run face_small kern_tight realloc_always (List.replicate 8 vert_zero) 0
      [0x61, 0x20, 0x62] 10 mat_identity (font_fresh 8 2 (1 / 2) 32)).x = 9 := by
  refine ⟨?_, ?_, ?_, ?_, ?_⟩ <;> decide!

/-- C12 (amended): for a string with at least one space, an expansion that is
not negative and a font with space advance and letter space factor that are
not negative, every space is advanced by the unexpanded space advance plus its
share `exp * (e + 1) / s - exp * e / s`, and the shares of the `s` spaces sum
to exactly the expansion. If moreover every glyph of the unexpanded layout
ends at a pen that is not negative before its conversion to `int`, the final
pen with the expansion minus the final pen without is exactly the
expansion. -/
theorem C12_expansion_sum (face : FT_Face) (kern : FT_Kerning) (realloc : Nat → Nat → Bool)
    (v : List vert) (off : Nat) (str : CString) (exp : Int) (mat : Nat → ℚ) (F : font)
    (hsp : 32 ∈ utf8_codes str) (hexp : 0 ≤ exp) (ha : 0 ≤ F.a) (hk : 0 ≤ F.k) :
    (∀ (r : Nat → Bool) (st : layout_state), st.F.a = F.a → st.F.k = F.k → 0 ≤ st.e →
      (layout_step face kern r off (layout_count (utf8_codes str)).1 exp mat st 32).x
        = (layout_step face kern r off (layout_count (utf8_codes str)).1 0 mat st 32).x
          + (Int.tdiv (exp * (st.e + 1)) (layout_count (utf8_codes str)).1
              - Int.tdiv (exp * st.e) (layout_count (utf8_codes str)).1)) ∧
    (∑ e in Finset.range ((utf8_codes str).count 32),
        (Int.tdiv (exp * ((e : Int) + 1)) (layout_count (utf8_codes str)).1
          - Int.tdiv (exp * (e : Int)) (layout_count (utf8_codes str)).1) = exp) ∧
    ((∀ ev ∈ layout_events face kern realloc v off str 0 mat F,
        0 ≤ (ev.pen : ℚ) + (ev.S.a : ℚ) * F.k) →
      (layout_run face kern realloc v off str exp mat F).x
        - (layout_run face kern realloc v off str 0 mat F).x = exp) := by
  have hs : (layout_count (utf8_codes str)).1 = ((utf8_codes str).count 32 : Nat) :=
    layout_count_spaces _
  have hpos : 0 < (utf8_codes str).count 32 := List.count_pos_iff.2 hsp
  have hak : 0 ≤ (F.a : ℚ) * F.k := mul_nonneg (by exact_mod_cast ha) hk
  have hne : (layout_count (utf8_codes str)).1 ≠ 0 := by rw [hs]; omega
  have hs0 : 0 ≤ (layout_count (utf8_codes str)).1 := by rw [hs]; omega
  refine ⟨?_, ?_, ?_⟩
  · intro r st hsa hsk he
    obtain ⟨-, hD1⟩ := tdiv_mul_mono exp st.e _ hexp he hs0
    rw [layout_step_space, layout_step_space]
    simp only [hsa, hsk, zero_mul, Int.zero_tdiv, Int.cast_zero, add_zero, sub_zero]
    have hcast : (F.a : ℚ) * F.k
          + ((Int.tdiv (exp * (st.e + 1)) (layout_count (utf8_codes str)).1 : Int) : ℚ)
          - ((Int.tdiv (exp * st.e) (layout_count (utf8_codes str)).1 : Int) : ℚ)
        = (F.a : ℚ) * F.k
          + ((Int.tdiv (exp * (st.e + 1)) (layout_count (utf8_codes str)).1
              - Int.tdiv (exp * st.e) (layout_count (utf8_codes str)).1 : Int) : ℚ) := by
      push_cast
      ring
    rw [hcast, to_int_add_int _ _ hak (by omega)]
    ring
  · have htel := Finset.sum_range_sub
      (fun e : Nat => Int.tdiv (exp * (e : Int)) (layout_count (utf8_codes str)).1)
      ((utf8_codes str).count 32)
    simp only [Nat.cast_add, Nat.cast_one, Nat.cast_zero, mul_zero, Int.zero_tdiv,
      sub_zero] at htel
    rw [htel, ← hs]
    exact Int.mul_tdiv_cancel _ hne
  · intro hpen
    obtain ⟨hrel, he, -⟩ := layout_loop_shift face kern realloc off
      (layout_count (utf8_codes str)).1 exp mat hexp hs0 F.a F.k hak
      (utf8_codes str) 0 _ _ (pen_shift_init exp _ F v) (le_refl _) rfl rfl hpen
    have hx := hrel.x_eq
    simp only [zero_add] at he
    rw [he, ← hs] at hx
    rw [Int.mul_tdiv_cancel _ hne] at hx
    unfold layout_run
    omega

/-- C13 (counterexample): the string `a b ` with a space at its end, letter
space factor 1, space advance 6, glyph advance 11, no kerning. The glyphs are
set at the pens 0 and 17 without expansion and at 0 and 22 with expansion 10:
the distance grows by 5, not by 10, the other 5 pixels go to the space after
the last glyph. -/
theorem C13_trailing_space :
    utf8_codes [0x61, 0x20, 0x62, 0x20] = [97, 32, 98, 32] ∧
    (layout_events face_square kern_none realloc_always (List.replicate 8 vert_zero) 0
      [0x61, 0x20, 0x62, 0x20] 0 mat_identity (font_fresh 8 6 1 32)).map (fun ev => ev.pen)
      = [0, 17] ∧
    (layout_events face_square kern_none realloc_always (List.replicate 8 vert_zero) 0
      [0x61, 0x20, 0x62, 0x20] 10 mat_identity (font_fresh 8 6 1 32)).map (fun ev => ev.pen)
      = [0, 22] := by
  refine ⟨?_, ?_, ?_⟩ <;> decide!

/-- C13 (amended): for a string with at least one space whose spaces all lie
between the first and the last glyph set (the first call of `line_set` is made
with `e = 0`, the last with `e` equal to the number of spaces), an expansion
that is not negative, a space advance and a letter space factor that are not
negative, and an unexpanded layout in which every glyph ends at a pen that is
not negative before its conversion to `int`: the layout with the expansion sets
the same glyphs, and the distance from the pen of its first glyph to the pen of
its last glyph is the distance in the unexpanded layout plus the expansion. -/
theorem C13_glyph_distance (face : FT_Face) (kern : FT_Kerning) (realloc : Nat → Nat → Bool)
    (v : List vert) (off : Nat) (str : CString) (exp : Int) (mat : Nat → ℚ) (F : font)
    (first last : glyph_event)
    (hsp : 32 ∈ utf8_codes str) (hexp : 0 ≤ exp) (ha : 0 ≤ F.a) (hk : 0 ≤ F.k)
    (hpen : ∀ ev ∈ layout_events face kern realloc v off str 0 mat F,
      0 ≤ (ev.pen : ℚ) + (ev.S.a : ℚ) * F.k)
    (hfirst : (layout_events face kern realloc v off str 0 mat F).head? = some first)
    (hlast : (layout_events face kern realloc v off str 0 mat F).getLast? = some last)
    (hbefore : first.e = 0) (hafter : last.e = (layout_count (utf8_codes str)).1) :
    ∃ firstE lastE : glyph_event,
      (layout_events face kern realloc v off str exp mat F).head? = some firstE ∧
      (layout_events face kern realloc v off str exp mat F).getLast? = some lastE ∧
      firstE.S = first.S ∧ lastE.S = last.S ∧
      lastE.pen - firstE.pen = (last.pen - first.pen) + exp := by
  have hs : (layout_count (utf8_codes str)).1 = ((utf8_codes str).count 32 : Nat) :=
    layout_count_spaces _
  have hpos : 0 < (utf8_codes str).count 32 := List.count_pos_iff.2 hsp
  have hak : 0 ≤ (F.a : ℚ) * F.k := mul_nonneg (by exact_mod_cast ha) hk
  obtain ⟨-, -, htrace⟩ := layout_loop_shift face kern realloc off
    (layout_count (utf8_codes str)).1 exp mat hexp (by rw [hs]; omega) F.a F.k hak
    (utf8_codes str) 0 _ _ (pen_shift_init exp _ F v) (le_refl _) rfl rfl hpen
  have hne : (layout_count (utf8_codes str)).1 ≠ 0 := by rw [hs]; omega
  refine ⟨{ first with pen := first.pen + Int.tdiv (exp * first.e) (layout_count (utf8_codes str)).1 },
    { last with pen := last.pen + Int.tdiv (exp * last.e) (layout_count (utf8_codes str)).1 },
    ?_, ?_, rfl, rfl, ?_⟩
  · unfold layout_events at hfirst ⊢
    rw [htrace, List.head?_map, hfirst]
    rfl
  · unfold layout_events at hlast ⊢
    rw [htrace, List.getLast?_map, hlast]
    rfl
  · simp only [hbefore, hafter, mul_zero, Int.zero_tdiv, add_zero, Int.mul_tdiv_cancel _ hne]
    ring

/-! ## The matrices of `line_layout` -/

/-- `line_set` reads the entries 0 to 14 of the matrix only. -/
theorem line_set_congr (v : List vert) (off : Nat) (S : sort) (s x : Int) (k : ℚ)
    (M N : Nat → ℚ) (h : ∀ t, t < 16 → M t = N t) :
    line_set v off S s x k M = line_set v off S s x k N := by
  simp only [line_set, h 0 (by norm_num), h 1 (by norm_num), h 2 (by norm_num),
    h 4 (by norm_num), h 5 (by norm_num), h 6 (by norm_num), h 12 (by norm_num),
    h 13 (by norm_num), h 14 (by norm_num)]

theorem layout_step_congr (face : FT_Face) (kern : FT_Kerning) (realloc : Nat → Bool) (off : Nat)
    (s exp : Int) (M N : Nat → ℚ) (h : ∀ t, t < 16 → M t = N t) (st : layout_state) (c : Nat) :
    layout_step face kern realloc off s exp M st c
      = layout_step face kern realloc off s exp N st c := by
  rcases layout_step_cases face realloc st c with rfl | ⟨hc, S, hS⟩ | ⟨hc, hS⟩
  · rw [layout_step_space, layout_step_space]
  · rw [layout_step_glyph face kern realloc off s exp M st c S hc hS,
      layout_step_glyph face kern realloc off s exp N st c S hc hS,
      line_set_congr _ _ _ _ _ _ M N h]
  · rw [layout_step_skip face kern realloc off s exp M st c hc hS,
      layout_step_skip face kern realloc off s exp N st c hc hS]

theorem layout_loop_congr (face : FT_Face) (kern : FT_Kerning) (realloc : Nat → Nat → Bool)
    (off : Nat) (s exp : Int) (M N : Nat → ℚ) (h : ∀ t, t < 16 → M t = N t) :
    ∀ (codes : List Nat) (t : Nat) (st : layout_state),
      layout_loop face kern realloc off s exp M codes t st
        = layout_loop face kern realloc off s exp N codes t st := by
  intro codes
  induction codes with
  | nil =>
    intro t st
    rfl
  | cons c cs ih =>
    intro t st
    simp only [layout_loop]
    rw [layout_step_congr face kern (realloc t) off s exp M N h, ih]

/-- `layout` depends on the sixteen entries of its matrix only. -/
theorem layout_congr (face : FT_Face) (kern : FT_Kerning) (realloc : Nat → Nat → Bool)
    (v : List vert) (off : Nat) (str : CString) (exp : Int) (M N : Nat → ℚ) (F : font)
    (h : ∀ t, t < 16 → M t = N t) :
    layout face kern realloc v off str exp M F = layout face kern realloc v off str exp N F := by
  unfold layout layout_run
  rw [layout_loop_congr face kern realloc off _ exp M N h]

/-- Matrix number `i` of `stack_matrices` is the identity with entry 13
replaced by `-i * h`. -/
theorem stack_matrices_entry (h : Int) (i t : Nat) (ht : t < 16) :
    stack_matrices h (i * 16 + t)
      = if t = 13 then ((-(i : Int) * h : Int) : ℚ) else mat_identity t := by
  have h1 : (i * 16 + t) % 16 = t := by omega
  have h2 : (i * 16 + t) / 16 = i := by omega
  simp only [stack_matrices, h1, h2]

/-- Without matrices, the loop of `line_layout` sets string `i` with the
identity translated by `(0, -i * h, 0)`, whatever the strings before it did to
the local matrix `I`. -/
theorem line_layout_loop_stack (face : FT_Face) (kern : FT_Kerning)
    (realloc : Nat → Nat → Nat → Bool) (expv : Option (List Int)) (h : Int) :
    ∀ (strv : List CString) (i : Nat) (F : font) (v : List vert) (j : Nat) (I : Nat → ℚ),
      F.h = h → (∀ t, t < 16 → t ≠ 13 → I t = mat_identity t) →
      line_layout_loop face kern realloc expv none strv i (F, v, j, I)
        = line_layout_loop face kern realloc expv (some (stack_matrices h)) strv i
            (F, v, j, I) := by
  intro strv
  induction strv with
  | nil =>
    intro i F v j I _ _
    rfl
  | cons str rest ih =>
    intro i F v j I hF hI
    simp only [line_layout_loop]
    have hmat : ∀ t, t < 16 →
        Function.update I 13 ((-(i : Int) * F.h : Int) : ℚ) t = stack_matrices h (i * 16 + t) := by
      intro t ht
      rw [stack_matrices_entry h i t ht]
      by_cases h13 : t = 13
      · subst h13
        simp [hF]
      · rw [if_neg h13, Function.update_noteq h13]
        exact hI t ht h13
    rw [layout_congr face kern (realloc i) v (4 * j) str _ _ _ F hmat]
    apply ih
    · rw [(layout_frame _ _ _ _ _ _ _ _ _).2]
      exact hF
    · intro t ht h13
      rw [Function.update_noteq h13]
      exact hI t ht h13

/-- The vertex array that `line_set` leaves, index by index. -/
theorem line_set_getElem?_quad (v : List vert) (off : Nat) (S : sort) (s x : Int) (k : ℚ)
    (M : Nat → ℚ) (j : Nat) :
    (line_set v off S s x k M).1[j]? =
      if off ≤ j ∧ j < off + 4 then
        (if j < v.length then some (line_quad S s x M (j - off)) else none)
      else v[j]? := by
  simp only [line_set, List.getElem?_set, List.length_set]
  by_cases h3 : off + 3 = j
  · subst h3
    have e : off + 3 - off = 3 := by omega
    simp [line_quad, line_set, e]
  · by_cases h2 : off + 2 = j
    · subst h2
      have e : off + 2 - off = 2 := by omega
      simp [line_quad, line_set, e]
    · by_cases h1 : off + 1 = j
      · subst h1
        have e : off + 1 - off = 1 := by omega
        simp [line_quad, line_set, e]
      · by_cases h0 : off = j
        · subst h0
          simp [line_quad, line_set]
        · have hout : ¬ (off ≤ j ∧ j < off + 4) := by omega
          simp only [h0, h1, h2, h3, if_false, hout]

/-- Under the identity translated by `(0, -d, 0)` every vertex of the quad is
the vertex under the identity lowered by `d`. -/
theorem line_quad_lower (S : sort) (s x : Int) (M : Nat → ℚ) (d : ℚ)
    (hM : ∀ t, t < 16 → M t = if t = 13 then -d else mat_identity t) (n : Nat) (hn : n < 4) :
    line_quad S s x M n = vert.lower d (line_quad S s x mat_identity n) := by
  have m0 := hM 0 (by norm_num)
  have m1 := hM 1 (by norm_num)
  have m2 := hM 2 (by norm_num)
  have m4 := hM 4 (by norm_num)
  have m5 := hM 5 (by norm_num)
  have m6 := hM 6 (by norm_num)
  have m12 := hM 12 (by norm_num)
  have m13 := hM 13 (by norm_num)
  have m14 := hM 14 (by norm_num)
  simp only [show (0 : Nat) ≠ 13 by norm_num, show (1 : Nat) ≠ 13 by norm_num,
    show (2 : Nat) ≠ 13 by norm_num, show (4 : Nat) ≠ 13 by norm_num,
    show (5 : Nat) ≠ 13 by norm_num, show (6 : Nat) ≠ 13 by norm_num,
    show (12 : Nat) ≠ 13 by norm_num, show (14 : Nat) ≠ 13 by norm_num, if_false, if_true]
    at m0 m1 m2 m4 m5 m6 m12 m13 m14
  rcases n with _ | _ | _ | _ | n
  case succ.succ.succ.succ => omega
  all_goals
    simp only [line_quad, line_set, vert.lower, m0, m1, m2, m4, m5, m6, m12, m13, m14,
      mat_identity]
    simp
    try ring

/-- The relation between a layout under the identity translated by
`(0, -d, 0)` and the layout under the identity: the same font, pen and
counters, and the vertices set so far lowered by `d`. -/
theorem layout_loop_lower (face : FT_Face) (kern : FT_Kerning) (realloc : Nat → Nat → Bool)
    (off : Nat) (s exp : Int) (M : Nat → ℚ) (d : ℚ)
    (hM : ∀ t, t < 16 → M t = if t = 13 then -d else mat_identity t) :
    ∀ (codes : List Nat) (t : Nat) (stT stI : layout_state),
      stT.F = stI.F → stT.x = stI.x → stT.e = stI.e → stT.i = stI.i → stT.l = stI.l →
      stT.v.length = stI.v.length →
      (∀ j, stT.v[j]? = if off ≤ j ∧ j < off + 4 * stI.i then (stI.v[j]?).map (vert.lower d)
        else stI.v[j]?) →
      (layout_loop face kern realloc off s exp M codes t stT).F
        = (layout_loop face kern realloc off s exp mat_identity codes t stI).F ∧
      (layout_loop face kern realloc off s exp M codes t stT).x
        = (layout_loop face kern realloc off s exp mat_identity codes t stI).x ∧
      (layout_loop face kern realloc off s exp M codes t stT).i
        = (layout_loop face kern realloc off s exp mat_identity codes t stI).i ∧
      (∀ j, (layout_loop face kern realloc off s exp M codes t stT).v[j]? =
        if off ≤ j ∧
            j < off + 4 * (layout_loop face kern realloc off s exp mat_identity codes t stI).i
        then ((layout_loop face kern realloc off s exp mat_identity codes t stI).v[j]?).map
          (vert.lower d)
        else (layout_loop face kern realloc off s exp mat_identity codes t stI).v[j]?) := by
  intro codes
  induction codes with
  | nil =>
    intro t stT stI hF hx _ hi _ _ hv
    exact ⟨hF, hx, hi, hv⟩
  | cons c cs ih =>
    intro t stT stI hF hx he hi hl hlen hv
    simp only [layout_loop]
    rcases layout_step_cases face (realloc t) stI c with rfl | ⟨hc, S, hS⟩ | ⟨hc, hS⟩
    · apply ih
      · simp [layout_step_space, hF]
      · simp [layout_step_space, hF, hx, he]
      · simp [layout_step_space, he]
      · simp [layout_step_space, hi]
      · simp [layout_step_space, hl]
      · simp [layout_step_space, hlen]
      · simpa [layout_step_space] using hv
    · have hST : (font_sort_lookup face (realloc t) stT.F (c : Int)).2 = some S := by
        rw [hF]; exact hS
      rw [layout_step_glyph face kern (realloc t) off s exp M stT c S hc hST,
        layout_step_glyph face kern (realloc t) off s exp mat_identity stI c S hc hS]
      apply ih
      · simp only [hF]
      · simp only [line_set_pen, hF, hx, hl]
      · exact he
      · simp only [hi]
      · rfl
      · simp only [line_set_length, hlen]
      · intro j
        have hvj := hv j
        simp only [hF, hx, hl, hi]
        rw [line_set_getElem?_quad, line_set_getElem?_quad, hlen]
        by_cases hin : off + 4 * stI.i ≤ j ∧ j < off + 4 * stI.i + 4
        · have hrange : off ≤ j ∧ j < off + 4 * (stI.i + 1) := by omega
          rw [if_pos hin, if_pos hin, if_pos hrange]
          by_cases hlt : j < stI.v.length
          · rw [if_pos hlt, if_pos hlt, Option.map_some', line_quad_lower _ _ _ M d hM _ (by omega)]
          · rw [if_neg hlt, if_neg hlt]
            rfl
        · rw [if_neg hin, if_neg hin, hvj]
          by_cases hold : off ≤ j ∧ j < off + 4 * stI.i
          · have hrange : off ≤ j ∧ j < off + 4 * (stI.i + 1) := by omega
            rw [if_pos hold, if_pos hrange]
          · have hrange : ¬ (off ≤ j ∧ j < off + 4 * (stI.i + 1)) := by omega
            rw [if_neg hold, if_neg hrange]
    · have hST : (font_sort_lookup face (realloc t) stT.F (c : Int)).2 = none := by
        rw [hF]; exact hS
      rw [layout_step_skip face kern (realloc t) off s exp M stT c hc hST,
        layout_step_skip face kern (realloc t) off s exp mat_identity stI c hc hS]
      apply ih
      · simp only [hF]
      · exact hx
      · exact he
      · exact hi
      · exact hl
      · exact hlen
      · exact hv

/-- C17: without matrices `line_layout` does what it does with the matrices
`stack_matrices h`, `h` the line height of the font: matrix `i` is the identity
with entry 13 replaced by `-i * h`, the identity translated by `(0, -i * h, 0)`,
and does not depend on the strings before string `i`. Under this matrix
`layout` reaches the same font, pen and glyph count as under the identity, and
each vertex that it sets is the vertex set under the identity with `i * h`
subtracted from its `y` coordinate, `x`, `z` and the texture coordinates
unchanged; the rest of the vertex array is the same. -/
theorem C17_default_matrices (face : FT_Face) (kern : FT_Kerning) (heap : allocator)
    (strv : List CString) (expv : Option (List Int)) (F : font) (realloc : Nat → Nat → Bool)
    (v : List vert) (off : Nat) (str : CString) (exp : Int) (i : Nat) :
    line_layout face kern heap strv expv none F
      = line_layout face kern heap strv expv (some (stack_matrices F.h)) F ∧
    (∀ t, t < 16 → stack_matrices F.h (i * 16 + t)
      = if t = 13 then ((-(i : Int) * F.h : Int) : ℚ) else mat_identity t) ∧
    (layout face kern realloc v off str exp (fun t => stack_matrices F.h (i * 16 + t)) F).1
      = (layout face kern realloc v off str exp mat_identity F).1 ∧
    (layout_run face kern realloc v off str exp (fun t => stack_matrices F.h (i * 16 + t)) F).x
      = (layout_run face kern realloc v off str exp mat_identity F).x ∧
    (layout face kern realloc v off str exp (fun t => stack_matrices F.h (i * 16 + t)) F).2.2
      = (layout face kern realloc v off str exp mat_identity F).2.2 ∧
    (∀ j,
      (layout face kern realloc v off str exp (fun t => stack_matrices F.h (i * 16 + t)) F).2.1[j]?
        = if off ≤ j ∧ j < off + 4 * (layout face kern realloc v off str exp mat_identity F).2.2
          then ((layout face kern realloc v off str exp mat_identity F).2.1[j]?).map
            (vert.lower ((i : ℚ) * (F.h : ℚ)))
          else (layout face kern realloc v off str exp mat_identity F).2.1[j]?) ∧
    (∀ (d : ℚ) (q : vert), vert.lower d q
      = { v0 := q.v0, v1 := q.v1 - d, v2 := q.v2, t0 := q.t0, t1 := q.t1 }) := by
  have hM : ∀ t, t < 16 → (fun t => stack_matrices F.h (i * 16 + t)) t
      = if t = 13 then -((i : ℚ) * (F.h : ℚ)) else mat_identity t := by
    intro t ht
    simp only [stack_matrices_entry F.h i t ht]
    split_ifs
    · push_cast
      ring
    · rfl
  obtain ⟨r1, r2, r3, r4⟩ := layout_loop_lower face kern realloc off
    (layout_count (utf8_codes str)).1 exp _ _ hM (utf8_codes str) 0
    { F := F, v := v, x := 0, e := 0, i := 0, l := 0 }
    { F := F, v := v, x := 0, e := 0, i := 0, l := 0 } rfl rfl rfl rfl rfl rfl
    (by
      intro j
      have : ¬ (off ≤ j ∧ j < off + 4 * 0) := by omega
      simp only [this, if_false])
  refine ⟨?_, fun t ht => stack_matrices_entry F.h i t ht, r1, r2, r3, r4, fun _ _ => rfl⟩
  simp only [line_layout]
  rw [line_layout_loop_stack face kern heap.realloc expv F.h strv 0 F
    (List.replicate (line_count strv * 4).toNat vert_zero) 0 mat_identity rfl
    (fun _ _ _ => rfl)]

/-! ## Measuring a string -/

/-- C14 (failing input): the string `ab` with the pair `a`, `b` kerned by -4
pixels, glyph advance 11 and letter space factor 1. `layout` with expansion 0
ends with the pen at 18, `line_length` returns 22: it fetches the kerning and
does not add it. -/
theorem C14_line_length_kerning :
    utf8_codes [0x61, 0x62] = [97, 98] ∧
    (layout_run face_square kern_tight realloc_always (List.replicate 8 vert_zero) 0
      [0x61, 0x62] 0 mat_identity (font_fresh 8 6 1 32)).x = 18 ∧
    (line_length face_square kern_tight realloc_always [0x61, 0x62] (font_fresh 8 6 1 32)).2
      = 22 := by
  refine ⟨?_, ?_, ?_⟩ <;> decide!

/-! ## What the typesetter does not test -/

theorem font_sort_lookup_miss (face : FT_Face) (realloc : Nat → Bool) (F : font) (c : Int)
    (habs : ∀ S ∈ F.sorts, S.c ≠ c) (hre : realloc (F.n + 1) = true) :
    font_sort_lookup face realloc F c
      = (font_sort_insert face F c, some (sort_placed face F c)) := by
  unfold font_sort_lookup
  rw [font_sort_search_miss face realloc F c 0 habs hre]
  rfl

/-- A lookup that returns the null pointer leaves the font as it was. -/
theorem font_sort_lookup_none (face : FT_Face) (realloc : Nat → Bool) (F : font) (c : Int)
    (h : (font_sort_lookup face realloc F c).2 = none) :
    (font_sort_lookup face realloc F c).1 = F ∧ realloc (F.n + 1) = false := by
  rcases font_sort_lookup_cases face realloc F c with ⟨h1, h2⟩ | ⟨-, -, S, hS, -⟩
  · rcases h2 with ⟨-, hre⟩ | ⟨S, hS, -⟩
    · exact ⟨h1, hre⟩
    · rw [h] at hS
      cases hS
  · rw [h] at hS
    cases hS

/-- C18 (counterexample): after six glyphs of 10 by 10 pixels the cursor of an
atlas of size 32 is at `(22, 22)` with `rowMax = 10`, so `y + H = 32 ≥ s`. The
lookup of a seventh code inserts its sort, placed at `(0, 33)` below the atlas,
and moves the cursor to `(11, 33)`. -/
theorem C18_full_atlas_insert :
    ∃ F6 F7 S, sort_lookups face_square 2 (font_fresh 8 6 1 32)
        [(65, realloc_ok), (66, realloc_ok), (67, realloc_ok), (68, realloc_ok),
         (69, realloc_ok), (70, realloc_ok)] = some F6 ∧
      (F6.x, F6.y, F6.m, F6.s, F6.n) = (22, 22, 10, 32, 6) ∧
      F6.y + (face_square 71).height >>> (6 : Nat) ≥ F6.s ∧
      font_sort_search face_square realloc_ok 2 F6 71 = some (F7, some S) ∧
      F7.n = 7 ∧ S ∈ F7.sorts ∧ (S.c, S.X, S.Y, S.W, S.H) = (71, 0, 33, 10, 10) ∧
      (F7.x, F7.y, F7.m) = (11, 33, 10) := by
  refine ⟨_, _, _, rfl, ?_, ?_, rfl, ?_, ?_, ?_, ?_⟩ <;> decide

/-- C18 (amended): when a glyph of height `H` is to be placed and
`y + H ≥ s`, the lookup of an absent code with a successful reallocation still
inserts the sort: the table grows by one, the sort returned is in the table
with the height `H`, placed by the shelf policy, and the cursor moves to
`x = X + W + 1` on the shelf `y = Y` of the sort. No test of `y + H` against
`s` is made. -/
theorem C18_no_height_test (face : FT_Face) (realloc : Nat → Bool) (F : font) (c H : Int)
    (fuel : Nat) (habs : ∀ S ∈ F.sorts, S.c ≠ c) (hre : realloc (F.n + 1) = true)
    (hf : 2 ≤ fuel) (hH : H = (face c).height >>> (6 : Nat)) (hfull : F.y + H ≥ F.s) :
    ∃ F1 S, font_sort_search face realloc fuel F c = some (F1, some S) ∧
      F1.n = F.n + 1 ∧ S ∈ F1.sorts ∧ S.c = c ∧ S.H = H ∧
      F1.x = S.X + S.W + 1 ∧ F1.y = S.Y ∧ H ≤ F1.m ∧ F.y + S.H ≥ F1.s := by
  obtain ⟨f, rfl⟩ : ∃ f, fuel = f + 2 := ⟨fuel - 2, by omega⟩
  obtain ⟨hc1, hc2⟩ := font_sort_insert_cursor face F c
  obtain ⟨hs, -, -, -⟩ := font_sort_insert_frame face F c
  refine ⟨font_sort_insert face F c, sort_placed face F c,
    font_sort_search_miss face realloc F c f habs hre, font_sort_insert_length face F c,
    (font_sort_insert_mem face F c _).2 (Or.inr rfl), rfl, hH.symm, ?_, ?_, ?_, ?_⟩
  · rcases le_or_lt F.s (F.x + (face c).width >>> (6 : Nat)) with hge | hlt
    · obtain ⟨e1, e2, e3, e4, e5⟩ := hc1 hge
      rw [e1, e3]
      simp [sort_placed]
    · obtain ⟨e1, e2, e3, e4, e5⟩ := hc2 hlt
      rw [e1, e3]
      simp [sort_placed]
  · rcases le_or_lt F.s (F.x + (face c).width >>> (6 : Nat)) with hge | hlt
    · obtain ⟨e1, e2, e3, e4, e5⟩ := hc1 hge
      rw [e2, e4]
    · obtain ⟨e1, e2, e3, e4, e5⟩ := hc2 hlt
      rw [e2, e4]
  · rcases le_or_lt F.s (F.x + (face c).width >>> (6 : Nat)) with hge | hlt
    · obtain ⟨e1, e2, e3, e4, e5⟩ := hc1 hge
      rw [e5, hH]
      omega
    · obtain ⟨e1, e2, e3, e4, e5⟩ := hc2 hlt
      rw [e5, hH]
      omega
  · rw [hs, hH] at *
    exact hfull

/-- C19 (counterexample): typesetting the string `a`. When the allocation of
the vertex array fails, `line_layout` returns a line, with count 1 and a null
vertex array. When the sort table cannot grow, it returns a line with count 1
and its four vertices, left zeroed: the character is skipped. -/
theorem C19_line_returned_after_failure :
    (line_layout face_square kern_none heap_no_vertices [[0x61]] none none
      (font_fresh 8 6 1 32)).2 = some { v := none, n := 1 } ∧
    (line_layout face_square kern_none heap_no_sorts [[0x61]] none none
      (font_fresh 8 6 1 32)).2
      = some { v := some [vert_zero, vert_zero, vert_zero, vert_zero], n := 1 } := by
  refine ⟨?_, ?_⟩ <;> decide!

/-- C19 (amended): `line_layout` returns the null line exactly when the
allocation of the line object fails. When the allocation of the vertex array
fails it returns a line with the count and a null vertex array, and the font is
untouched. When both succeed it returns a line with a vertex array whatever
the reallocations of the sort table do; a character whose lookup returns the
null pointer, which happens only when the reallocation fails, is skipped:
the iteration of `layout` changes nothing. -/
theorem C19_allocation_failures (face : FT_Face) (kern : FT_Kerning) (heap : allocator)
    (strv : List CString) (expv : Option (List Int)) (matv : Option (Nat → ℚ)) (F : font) :
    ((line_layout face kern heap strv expv matv F).2 = none ↔ heap.calloc_line = false) ∧
    (heap.calloc_line = true → heap.calloc_vert (line_count strv * 4) = false →
      line_layout face kern heap strv expv matv F
        = (F, some { v := none, n := line_count strv })) ∧
    (heap.calloc_line = true → heap.calloc_vert (line_count strv * 4) = true →
      ∃ buf, (line_layout face kern heap strv expv matv F).2
        = some { v := some buf, n := line_count strv }) ∧
    (∀ (realloc : Nat → Bool) (off : Nat) (s exp : Int) (mat : Nat → ℚ) (st : layout_state)
      (c : Nat), c ≠ 32 → (font_sort_lookup face realloc st.F (c : Int)).2 = none →
        realloc (st.F.n + 1) = false ∧
        layout_step face kern realloc off s exp mat st c = st) := by
  refine ⟨?_, ?_, ?_, ?_⟩
  · cases h1 : heap.calloc_line with
    | false => simp [line_layout, h1]
    | true =>
      cases h2 : heap.calloc_vert (line_count strv * 4) with
      | false => simp [line_layout, h1, h2]
      | true => simp [line_layout, h1, h2]
  · intro h1 h2
    simp [line_layout, h1, h2]
  · intro h1 h2
    exact ⟨(line_layout_loop face kern heap.realloc expv matv strv 0
      (F, List.replicate (line_count strv * 4).toNat vert_zero, 0, mat_identity)).2.1,
      by simp [line_layout, h1, h2]⟩
  · intro realloc off s exp mat st c hc hnone
    obtain ⟨hF, hre⟩ := font_sort_lookup_none face realloc st.F (c : Int) hnone
    refine ⟨hre, ?_⟩
    rw [layout_step_skip face kern realloc off s exp mat st c hc hnone, hF]

/-- C20 (counterexample): a provider whose `FT_Load_Glyph` fails for the
character `a` (error 6) and leaves a slot of 10 by 10 pixels with advance 11.
Typesetting `a` sets one glyph, moves the pen to 11, inserts a sort for `a`
and moves the packing cursor to `(11, 0)` with `rowMax = 10`. -/
theorem C20_failed_load_is_set :
    provider_failing.load_error 97 ≠ 0 ∧
    (layout_run provider_failing.face kern_none realloc_always (List.replicate 4 vert_zero) 0
      [0x61] 0 mat_identity (font_fresh 8 6 1 32)).i = 1 ∧
    (layout_run provider_failing.face kern_none realloc_always (List.replicate 4 vert_zero) 0
      [0x61] 0 mat_identity (font_fresh 8 6 1 32)).x = 11 ∧
    (layout_run provider_failing.face kern_none realloc_always (List.replicate 4 vert_zero) 0
      [0x61] 0 mat_identity (font_fresh 8 6 1 32)).F.sorts.map (fun S => (S.c, S.X, S.Y, S.W, S.H))
      = [(97, 0, 0, 10, 10)] ∧
    (layout_run provider_failing.face kern_none realloc_always (List.replicate 4 vert_zero) 0
      [0x61] 0 mat_identity (font_fresh 8 6 1 32)).v[0]?
      = some { v0 := 1, v1 := -1, v2 := 0, t0 := 0, t1 := 10 / 32 } := by
  refine ⟨?_, ?_, ?_, ?_, ?_⟩ <;> decide!

/-- C20 (amended): a failure of the glyph provider is not detected. For a
character `c` other than the space that has no sort yet, with a successful
reallocation, the iteration of `layout` inserts a sort for `c` with the metrics
found in the glyph slot, which moves the packing cursor, sets its quad and
moves the pen by the kerning and the advance of that sort, whatever
`FT_Load_Glyph` and `FT_Render_Glyph` returned. A character is skipped only
when its lookup returns the null pointer, that is when the reallocation
fails. -/
theorem C20_provider_failure_ignored (P : glyph_provider) (kern : FT_Kerning)
    (realloc : Nat → Bool) (off : Nat) (s exp : Int) (mat : Nat → ℚ) (st : layout_state)
    (c : Nat) (herr : P.load_error (c : Int) ≠ 0 ∨ P.render_error (c : Int) ≠ 0)
    (hc : c ≠ 32) (habs : ∀ S ∈ st.F.sorts, S.c ≠ (c : Int))
    (hre : realloc (st.F.n + 1) = true) :
    (P.load_error (c : Int) ≠ 0 ∨ P.render_error (c : Int) ≠ 0) ∧
    layout_step P.face kern realloc off s exp mat st c =
      { F := font_sort_insert P.face st.F (c : Int)
        v := (line_set st.v (off + 4 * st.i) (sort_placed P.face st.F (c : Int)) st.F.s
          (st.x + kern.kerning_x st.l (kern.char_index (c : Int)) >>> (6 : Nat)) st.F.k mat).1
        x := to_int (((st.x + kern.kerning_x st.l (kern.char_index (c : Int)) >>> (6 : Nat) : Int)
          : ℚ) + ((sort_placed P.face st.F (c : Int)).a : ℚ) * st.F.k)
        e := st.e
        i := st.i + 1
        l := kern.char_index (c : Int) } ∧
    (font_sort_insert P.face st.F (c : Int)).n = st.F.n + 1 ∧
    sort_placed P.face st.F (c : Int) ∈ (font_sort_insert P.face st.F (c : Int)).sorts ∧
    (font_sort_insert P.face st.F (c : Int)).x
      = (sort_placed P.face st.F (c : Int)).X + (P.face (c : Int)).width >>> (6 : Nat) + 1 ∧
    (sort_placed P.face st.F (c : Int)).a = (P.face (c : Int)).advance_x >>> (6 : Nat) := by
  have hlook := font_sort_lookup_miss P.face realloc st.F (c : Int) habs hre
  obtain ⟨hs, -, -, hk⟩ := font_sort_insert_frame P.face st.F (c : Int)
  obtain ⟨hc1, hc2⟩ := font_sort_insert_cursor P.face st.F (c : Int)
  refine ⟨herr, ?_, font_sort_insert_length P.face st.F (c : Int),
    (font_sort_insert_mem P.face st.F (c : Int) _).2 (Or.inr rfl), ?_, rfl⟩
  · rw [layout_step_glyph P.face kern realloc off s exp mat st c
      (sort_placed P.face st.F (c : Int)) hc (by rw [hlook])]
    simp only [hlook, hs, hk, line_set_pen]
  · rcases le_or_lt st.F.s (st.F.x + (P.face (c : Int)).width >>> (6 : Nat)) with hge | hlt
    · obtain ⟨e1, -, e3, -, -⟩ := hc1 hge
      rw [e1, e3]
      ring
    · obtain ⟨e1, -, e3, -, -⟩ := hc2 hlt
      rw [e1, e3]

/-! ## The theorems at concrete inputs -/

/-- C11 for the strings `a b` and `c`: three glyphs, twelve vertices. -/
theorem C11_line_layout_count_witness :
    (∀ L, (line_layout face_square kern_none heap_ok [[0x61, 0x20, 0x62], [0x63]] none none
        (font_fresh 8 6 1 32)).2 = some L →
      L.n = (3 : Nat) ∧ ∀ buf, L.v = some buf → buf.length = 4 * 3) ∧
    (heap_ok.calloc_line = true → heap_ok.calloc_vert (((3 : Nat) : Int) * 4) = true →
      ∃ L buf, (line_layout face_square kern_none heap_ok [[0x61, 0x20, 0x62], [0x63]] none none
          (font_fresh 8 6 1 32)).2 = some L ∧
        L.v = some buf ∧ L.n = (3 : Nat) ∧ buf.length = 4 * 3) :=
  C11_line_layout_count face_square kern_none heap_ok [[0x61, 0x20, 0x62], [0x63]] none none
    (font_fresh 8 6 1 32) 3 (by decide)

/-- C12 (amended) for the string `a b` with the pair kerned by -4 pixels and
letter space factor 1: every pen is positive and the expansion 10 moves the
final pen by exactly 10. -/
theorem C12_expansion_sum_witness :
    (layout_run face_square kern_tight realloc_always (List.replicate 8 vert_zero) 0
        [0x61, 0x20, 0x62] 0 mat_identity (font_fresh 8 6 1 32)).x = 24 ∧
    (layout_run face_square kern_tight realloc_always (List.replicate 8 vert_zero) 0
        [0x61, 0x20, 0x62] 10 mat_identity (font_fresh 8 6 1 32)).x
      - (layout_run face_square kern_tight realloc_always (List.replicate 8 vert_zero) 0
        [0x61, 0x20, 0x62] 0 mat_identity (font_fresh 8 6 1 32)).x = 10 :=
  ⟨by decide!,
   (C12_expansion_sum face_square kern_tight realloc_always (List.replicate 8 vert_zero) 0
    [0x61, 0x20, 0x62] 10 mat_identity (font_fresh 8 6 1 32) (by decide) (by decide) (by decide)
    (by decide!)).2.2 (by decide!)⟩

/-- C13 (amended) for the string `a b` without kerning: the glyphs are set at
the pens 0 and 17 without expansion, and the expansion 10 widens the distance
by exactly 10. -/
theorem C13_glyph_distance_witness :
    ∃ firstE lastE : glyph_event,
      (layout_events face_square kern_none realloc_always (List.replicate 8 vert_zero) 0
        [0x61, 0x20, 0x62] 10 mat_identity (font_fresh 8 6 1 32)).head? = some firstE ∧
      (layout_events face_square kern_none realloc_always (List.replicate 8 vert_zero) 0
        [0x61, 0x20, 0x62] 10 mat_identity (font_fresh 8 6 1 32)).getLast? = some lastE ∧
      firstE.S = sort_a ∧ lastE.S = sort_b ∧
      lastE.pen - firstE.pen = ((17 : Int) - 0) + 10 :=
  C13_glyph_distance face_square kern_none realloc_always (List.replicate 8 vert_zero) 0
    [0x61, 0x20, 0x62] 10 mat_identity (font_fresh 8 6 1 32)
    { pen := 0, e := 0, S := sort_a } { pen := 17, e := 1, S := sort_b }
    (by decide) (by decide) (by decide) (by decide!) (by decide!) (by decide!) (by decide!)
    rfl (by decide!)

/-- C15 for `sort_a` at the pen 5 under the identity: the corners are
`(6, -1)`, `(16, -1)`, `(16, 9)`, `(6, 9)`. -/
theorem C15_line_set_positions_witness :
    ∃ q0 q1 q2 q3 : vert,
      (line_set (List.replicate 4 vert_zero) 0 sort_a 32 5 1 mat_identity).1[0]? = some q0 ∧
      (line_set (List.replicate 4 vert_zero) 0 sort_a 32 5 1 mat_identity).1[0 + 1]? = some q1 ∧
      (line_set (List.replicate 4 vert_zero) 0 sort_a 32 5 1 mat_identity).1[0 + 2]? = some q2 ∧
      (line_set (List.replicate 4 vert_zero) 0 sort_a 32 5 1 mat_identity).1[0 + 3]? = some q3 ∧
      (q0.v0, q0.v1, q0.v2) = mat_apply mat_identity 6 (-1) ∧
      (q1.v0, q1.v1, q1.v2) = mat_apply mat_identity 16 (-1) ∧
      (q2.v0, q2.v1, q2.v2) = mat_apply mat_identity 16 9 ∧
      (q3.v0, q3.v1, q3.v2) = mat_apply mat_identity 6 9 ∧
      mat_apply mat_identity 6 (-1) =
        (mat_identity 0 * 6 + mat_identity 4 * (-1) + mat_identity 12,
         mat_identity 1 * 6 + mat_identity 5 * (-1) + mat_identity 13,
         mat_identity 2 * 6 + mat_identity 6 * (-1) + mat_identity 14) ∧
      (line_set (List.replicate 4 vert_zero) 0 sort_a 32 5 1 mat_identity).1.length
        = (List.replicate 4 vert_zero).length ∧
      ∀ j, (j < 0 ∨ 0 + 3 < j) →
        (line_set (List.replicate 4 vert_zero) 0 sort_a 32 5 1 mat_identity).1[j]?
          = (List.replicate 4 vert_zero)[j]? :=
  C15_line_set_positions (List.replicate 4 vert_zero) 0 sort_a 32 5 1 mat_identity 6 16 9 (-1)
    (by decide) (by norm_num [sort_a]) (by norm_num [sort_a]) (by norm_num [sort_a])
    (by norm_num [sort_a])

/-- C16 for `sort_b` in an atlas of size 32: the texture rectangle runs from
`(11 / 32, 0)` to `(21 / 32, 10 / 32)`. -/
theorem C16_line_set_texcoords_witness :
    ∃ q0 q1 q2 q3 : vert,
      (line_set (List.replicate 4 vert_zero) 0 sort_b 32 5 1 mat_identity).1[0]? = some q0 ∧
      (line_set (List.replicate 4 vert_zero) 0 sort_b 32 5 1 mat_identity).1[0 + 1]? = some q1 ∧
      (line_set (List.replicate 4 vert_zero) 0 sort_b 32 5 1 mat_identity).1[0 + 2]? = some q2 ∧
      (line_set (List.replicate 4 vert_zero) 0 sort_b 32 5 1 mat_identity).1[0 + 3]? = some q3 ∧
      (q0.t0, q0.t1) = ((sort_b.X : ℚ) / (32 : Int), ((sort_b.Y : ℚ) + sort_b.H) / (32 : Int)) ∧
      (q1.t0, q1.t1) = (((sort_b.X : ℚ) + sort_b.W) / (32 : Int),
        ((sort_b.Y : ℚ) + sort_b.H) / (32 : Int)) ∧
      (q2.t0, q2.t1) = (((sort_b.X : ℚ) + sort_b.W) / (32 : Int), (sort_b.Y : ℚ) / (32 : Int)) ∧
      (q3.t0, q3.t1) = ((sort_b.X : ℚ) / (32 : Int), (sort_b.Y : ℚ) / (32 : Int)) ∧
      (0 ≤ sort_b.X → 0 ≤ sort_b.W → sort_b.X + sort_b.W ≤ 32 → 0 ≤ sort_b.Y → 0 ≤ sort_b.H →
        sort_b.Y + sort_b.H ≤ 32 →
        ∀ q ∈ [q0, q1, q2, q3], 0 ≤ q.t0 ∧ q.t0 ≤ 1 ∧ 0 ≤ q.t1 ∧ q.t1 ≤ 1) :=
  C16_line_set_texcoords (List.replicate 4 vert_zero) 0 sort_b 32 5 1 mat_identity
    (by decide) (by decide)

/-- C17 for two strings set without matrices. -/
theorem C17_default_matrices_witness :
    line_layout face_square kern_none heap_ok [[0x61], [0x62]] none none (font_fresh 8 6 1 32)
      = line_layout face_square kern_none heap_ok [[0x61], [0x62]] none
          (some (stack_matrices (font_fresh 8 6 1 32).h)) (font_fresh 8 6 1 32) :=
  (C17_default_matrices face_square kern_none heap_ok [[0x61], [0x62]] none
    (font_fresh 8 6 1 32) realloc_always (List.replicate 4 vert_zero) 0 [0x62] 0 1).1

/-- C18 (amended) on a fresh font with an atlas of size 8 and a glyph of
height 10. -/
theorem C18_no_height_test_witness :
    ∃ F1 S, font_sort_search face_square realloc_ok 2 (font_fresh 2 6 1 8) 65
        = some (F1, some S) ∧
      F1.n = (font_fresh 2 6 1 8).n + 1 ∧ S ∈ F1.sorts ∧ S.c = 65 ∧ S.H = 10 ∧
      F1.x = S.X + S.W + 1 ∧ F1.y = S.Y ∧ 10 ≤ F1.m ∧ (font_fresh 2 6 1 8).y + S.H ≥ F1.s :=
  C18_no_height_test face_square realloc_ok (font_fresh 2 6 1 8) 65 10 2
    (by decide) rfl (le_refl 2) (by decide) (by decide)

/-- C19 (amended) with a failing allocation of the vertex array. -/
theorem C19_allocation_failures_witness :
    line_layout face_square kern_none heap_no_vertices [[0x61]] none none (font_fresh 8 6 1 32)
      = (font_fresh 8 6 1 32, some { v := none, n := line_count [[0x61]] }) :=
  (C19_allocation_failures face_square kern_none heap_no_vertices [[0x61]] none none
    (font_fresh 8 6 1 32)).2.1 rfl rfl

/-- C20 (amended) for the character `a` with the failing provider at the start
of `layout`. -/
theorem C20_provider_failure_ignored_witness :
    provider_failing.load_error 97 ≠ 0 ∧
    (font_sort_insert provider_failing.face layout_start.F ((97 : Nat) : Int)).n
      = layout_start.F.n + 1 ∧
    sort_placed provider_failing.face layout_start.F ((97 : Nat) : Int)
      ∈ (font_sort_insert provider_failing.face layout_start.F ((97 : Nat) : Int)).sorts :=
  ⟨by decide,
   (C20_provider_failure_ignored provider_failing kern_none realloc_ok 0 0 0 mat_identity
      layout_start 97 (Or.inl (by decide)) (by decide) (by decide) rfl).2.2.1,
   (C20_provider_failure_ignored provider_failing kern_none realloc_ok 0 0 0 mat_identity
      layout_start 97 (Or.inl (by decide)) (by decide) (by decide) rfl).2.2.2.1⟩

/-! ## The construction of a font -/

/-- C21 (counterexample): when the glyph provider cannot be initialised, when
it can load the input neither as font bytes nor as a path, and when the pixel
size cannot be set, `font_create` warns and returns the font that `calloc`
gave it, not the null pointer. -/
theorem C21_font_after_failed_init :
    font_create true library_no_init 12 1 0
      = some (some font_zero, ["Failure to initialize FreeType"]) ∧
    font_load library_no_face = 0 ∧
    font_create true library_no_face 12 1 0 = some (some font_zero, ["Failure to load font"]) ∧
    font_create true library_no_size 12 1 0
      = some (some font_zero, ["Failure to set font pixel size"]) := by
  refine ⟨?_, ?_, ?_, ?_⟩ <;> decide!

/-- C21 (amended): for a positive size, `font_create` returns the null pointer
exactly when `calloc` of the font fails, and then it warns nothing. When the
glyph provider cannot be initialised, when it can load the input neither as
font bytes nor as a path, and when the pixel size cannot be set, `font_create`
passes the matching message to `warn` and returns the zeroed font: a non-null
pointer whose fields are all 0. When every step succeeds it returns, without a
warning, the font with `k`, `a`, `h` and the atlas size filled in. -/
theorem C21_font_create_null (calloc : Bool) (ft : FT_Library) (size : Int) (k : ℚ)
    (fuel : Nat) (hsize : size > 0) :
    (∀ r w, font_create calloc ft size k fuel = some (r, w) → (r = none ↔ calloc = false)) ∧
    (calloc = false → font_create calloc ft size k fuel = some (none, [])) ∧
    (calloc = true → ft.init_freetype ≠ 0 →
      font_create calloc ft size k fuel
        = some (some font_zero, ["Failure to initialize FreeType"])) ∧
    (calloc = true → ft.init_freetype = 0 → ft.new_memory_face ≠ 0 → ft.new_face ≠ 0 →
      font_create calloc ft size k fuel = some (some font_zero, ["Failure to load font"])) ∧
    (calloc = true → ft.init_freetype = 0 → (ft.new_memory_face = 0 ∨ ft.new_face = 0) →
      ft.set_pixel_sizes size ≠ 0 →
      font_create calloc ft size k fuel
        = some (some font_zero, ["Failure to set font pixel size"])) ∧
    (calloc = true → ft.init_freetype = 0 → (ft.new_memory_face = 0 ∨ ft.new_face = 0) →
      ft.set_pixel_sizes size = 0 → 1 ≤ ft.metrics_height >>> (6 : Nat) →
      4 * (ft.metrics_height >>> (6 : Nat)) ≤ 2 ^ 30 → 31 ≤ fuel →
      ∃ s, font_create calloc ft size k fuel
        = some (some (font_fresh (ft.metrics_height >>> (6 : Nat))
            (ft.space_advance_x >>> (6 : Nat)) k s), [])) := by
  have hload : ft.new_memory_face = 0 ∨ ft.new_face = 0 → font_load ft ≠ 0 := by
    intro hl
    unfold font_load
    rcases hl with hl | hl
    · simp [hl]
    · simp [hl]
  refine ⟨?_, ?_, ?_, ?_, ?_, ?_⟩
  · intro r w h
    unfold font_create at h
    rw [if_pos hsize] at h
    cases calloc with
    | false =>
      simp only [Bool.false_eq_true, if_false, Option.some.injEq, Prod.mk.injEq] at h
      simp [← h.1]
    | true =>
      simp only [if_true] at h
      split_ifs at h
      · split at h
        · simp only [Option.some.injEq, Prod.mk.injEq] at h
          simp [← h.1]
        · exact absurd h (by simp)
      all_goals
        simp only [Option.some.injEq, Prod.mk.injEq] at h
        simp [← h.1]
  · intro hc
    simp [font_create, hsize, hc]
  · intro hc hi
    simp [font_create, hsize, hc, hi]
  · intro hc hi hm hf
    simp [font_create, font_load, hsize, hc, hi, hm, hf]
  · intro hc hi hl hs
    simp [font_create, hsize, hc, hi, hload hl, hs]
  · intro hc hi hl hs h1 h2 hf
    obtain ⟨j, -, hrun, -, -⟩ :=
      atlas_size_loop_pow (ft.metrics_height >>> (6 : Nat)) 30 0 (by norm_num; omega)
        (by simpa using h2)
    have hat : atlas_size fuel (ft.metrics_height >>> (6 : Nat)) = some (2 ^ j) := by
      have := hrun fuel (by omega)
      simpa [atlas_size] using this
    refine ⟨2 ^ j, ?_⟩
    simp [font_create, hsize, hc, hi, hload hl, hs, hat, font_fresh, font_zero]

/-- C21 (amended) for a glyph provider that cannot be initialised. -/
theorem C21_font_create_null_witness :
    (∀ r w, font_create true library_no_init 12 1 0 = some (r, w) → (r = none ↔ true = false)) ∧
    (true = false → font_create true library_no_init 12 1 0 = some (none, [])) ∧
    (true = true → library_no_init.init_freetype ≠ 0 →
      font_create true library_no_init 12 1 0
        = some (some font_zero, ["Failure to initialize FreeType"])) ∧
    (true = true → library_no_init.init_freetype = 0 → library_no_init.new_memory_face ≠ 0 →
      library_no_init.new_face ≠ 0 →
      font_create true library_no_init 12 1 0 = some (some font_zero, ["Failure to load font"])) ∧
    (true = true → library_no_init.init_freetype = 0 →
      (library_no_init.new_memory_face = 0 ∨ library_no_init.new_face = 0) →
      library_no_init.set_pixel_sizes 12 ≠ 0 →
      font_create true library_no_init 12 1 0
        = some (some font_zero, ["Failure to set font pixel size"])) ∧
    (true = true → library_no_init.init_freetype = 0 →
      (library_no_init.new_memory_face = 0 ∨ library_no_init.new_face = 0) →
      library_no_init.set_pixel_sizes 12 = 0 →
      1 ≤ library_no_init.metrics_height >>> (6 : Nat) →
      4 * (library_no_init.metrics_height >>> (6 : Nat)) ≤ 2 ^ 30 → 31 ≤ 0 →
      ∃ s, font_create true library_no_init 12 1 0
        = some (some (font_fresh (library_no_init.metrics_height >>> (6 : Nat))
            (library_no_init.space_advance_x >>> (6 : Nat)) 1 s), [])) :=
  C21_font_create_null true library_no_init 12 1 0 (by decide)

/-! ## Matrices -/

/-- C23: `mmultiply` is the matrix product that agrees with the transformation
of vectors. For all 4 by 4 matrices `A`, `B` and every homogeneous vector `v`
over exact arithmetic, `wtransform` by `mmultiply(A, B)` gives the result of
`wtransform` by `A` applied to the result of `wtransform` by `B` applied to
`v`. -/
theorem C23_mmultiply_wtransform {K : Type} [LinearOrderedField K] (A B v : Nat → K) :
    wtransform (mmultiply A B) v = wtransform A (wtransform B v) := by
  funext t
  match t with
  | 0 => simp [wtransform, mmultiply]; ring
  | 1 => simp [wtransform, mmultiply]; ring
  | 2 => simp [wtransform, mmultiply]; ring
  | 3 => simp [wtransform, mmultiply]; ring
  | n + 4 => simp [wtransform]

/-- The matrix written by `minvert` when the determinant is not 0. -/
theorem minvert_entries {K : Type} [LinearOrderedField K] (I M : Nat → K)
    (hd : minvert_d M ≠ 0) (t : Nat) (ht : t < 16) :
    minvert I M t =
      [minvert_T M 0 * (1 / minvert_d M), minvert_T M 4 * (1 / minvert_d M),
       minvert_T M 8 * (1 / minvert_d M), minvert_T M 12 * (1 / minvert_d M),
       minvert_T M 1 * (1 / minvert_d M), minvert_T M 5 * (1 / minvert_d M),
       minvert_T M 9 * (1 / minvert_d M), minvert_T M 13 * (1 / minvert_d M),
       minvert_T M 2 * (1 / minvert_d M), minvert_T M 6 * (1 / minvert_d M),
       minvert_T M 10 * (1 / minvert_d M), minvert_T M 14 * (1 / minvert_d M),
       minvert_T M 3 * (1 / minvert_d M), minvert_T M 7 * (1 / minvert_d M),
       minvert_T M 11 * (1 / minvert_d M), minvert_T M 15 * (1 / minvert_d M)].getD t 0 := by
  unfold minvert
  rw [if_pos (abs_pos.mpr hd)]
  simp only [if_pos ht]

/-- The rows of `M` against the rows of the array `T`, and the columns of `T`
against the columns of `M`: the determinant where the two indices agree, and 0
where they differ. -/
theorem minvert_adjugate {K : Type} [LinearOrderedField K] (M : Nat → K) :
    ∀ r, r < 4 → ∀ c, c < 4 →
      M r * minvert_T M c + M (4 + r) * minvert_T M (4 + c)
        + M (8 + r) * minvert_T M (8 + c) + M (12 + r) * minvert_T M (12 + c)
        = (if r = c then minvert_d M else 0) ∧
      minvert_T M (4 * r) * M (4 * c) + minvert_T M (4 * r + 1) * M (4 * c + 1)
        + minvert_T M (4 * r + 2) * M (4 * c + 2) + minvert_T M (4 * r + 3) * M (4 * c + 3)
        = (if r = c then minvert_d M else 0) := by
  intro r hr c hc
  interval_cases r <;> interval_cases c <;>
    (constructor <;>
      (simp only [minvert_d, minvert_T, List.getD_cons_succ, List.getD_cons_zero, Nat.reduceMul,
        Nat.reduceAdd, Nat.reduceEqDiff, if_true, if_false, OfNat.ofNat_ne_zero,
        OfNat.zero_ne_ofNat, OfNat.ofNat_ne_one, OfNat.one_ne_ofNat, zero_ne_one, one_ne_zero]
        <;> ring))

/-- The products of `M` and the matrix written by `minvert`, entry by entry. -/
theorem minvert_products {K : Type} [LinearOrderedField K] (I0 M : Nat → K)
    (hd : minvert_d M ≠ 0) (t : Nat) (ht : t < 16) :
    mmultiply M (minvert I0 M) t = (if t % 4 = t / 4 then 1 else 0) ∧
    mmultiply (minvert I0 M) M t = (if t % 4 = t / 4 then 1 else 0) := by
  have hI : ∀ t, t < 16 → minvert I0 M t = _ := fun t ht => minvert_entries I0 M hd t ht
  have key : ∀ a b c e f g h i : K,
      a * (b * (1 / minvert_d M)) + c * (e * (1 / minvert_d M)) + f * (g * (1 / minvert_d M))
          + h * (i * (1 / minvert_d M))
        = (a * b + c * e + f * g + h * i) / minvert_d M := by
    intro a b c e f g h i
    ring
  have key2 : ∀ a b c e f g h i : K,
      b * (1 / minvert_d M) * a + e * (1 / minvert_d M) * c + g * (1 / minvert_d M) * f
          + i * (1 / minvert_d M) * h
        = (b * a + e * c + g * f + i * h) / minvert_d M := by
    intro a b c e f g h i
    ring
  have h1 := minvert_adjugate M (t % 4) (Nat.mod_lt _ (by decide)) (t / 4) (by omega)
  have e1 : mmultiply M (minvert I0 M) t
      = (M (t % 4) * minvert_T M (t / 4) + M (4 + t % 4) * minvert_T M (4 + t / 4)
        + M (8 + t % 4) * minvert_T M (8 + t / 4) + M (12 + t % 4) * minvert_T M (12 + t / 4))
        / minvert_d M := by
    rw [← key]
    interval_cases t <;>
    simp only [mmultiply, List.getD_cons_succ, List.getD_cons_zero,
      hI _ (by decide : (0 : Nat) < 16),
      hI _ (by decide : (1 : Nat) < 16),
      hI _ (by decide : (2 : Nat) < 16),
      hI _ (by decide : (3 : Nat) < 16),
      hI _ (by decide : (4 : Nat) < 16),
      hI _ (by decide : (5 : Nat) < 16),
      hI _ (by decide : (6 : Nat) < 16),
      hI _ (by decide : (7 : Nat) < 16),
      hI _ (by decide : (8 : Nat) < 16),
      hI _ (by decide : (9 : Nat) < 16),
      hI _ (by decide : (10 : Nat) < 16),
      hI _ (by decide : (11 : Nat) < 16),
      hI _ (by decide : (12 : Nat) < 16),
      hI _ (by decide : (13 : Nat) < 16),
      hI _ (by decide : (14 : Nat) < 16),
      hI _ (by decide : (15 : Nat) < 16), Nat.reduceMod, Nat.reduceDiv, Nat.reduceAdd]
  have e2 : mmultiply (minvert I0 M) M t
      = (minvert_T M (4 * (t % 4)) * M (4 * (t / 4))
        + minvert_T M (4 * (t % 4) + 1) * M (4 * (t / 4) + 1)
        + minvert_T M (4 * (t % 4) + 2) * M (4 * (t / 4) + 2)
        + minvert_T M (4 * (t % 4) + 3) * M (4 * (t / 4) + 3)) / minvert_d M := by
    rw [← key2]
    interval_cases t <;>
    simp only [mmultiply, List.getD_cons_succ, List.getD_cons_zero,
      hI _ (by decide : (0 : Nat) < 16),
      hI _ (by decide : (1 : Nat) < 16),
      hI _ (by decide : (2 : Nat) < 16),
      hI _ (by decide : (3 : Nat) < 16),
      hI _ (by decide : (4 : Nat) < 16),
      hI _ (by decide : (5 : Nat) < 16),
      hI _ (by decide : (6 : Nat) < 16),
      hI _ (by decide : (7 : Nat) < 16),
      hI _ (by decide : (8 : Nat) < 16),
      hI _ (by decide : (9 : Nat) < 16),
      hI _ (by decide : (10 : Nat) < 16),
      hI _ (by decide : (11 : Nat) < 16),
      hI _ (by decide : (12 : Nat) < 16),
      hI _ (by decide : (13 : Nat) < 16),
      hI _ (by decide : (14 : Nat) < 16),
      hI _ (by decide : (15 : Nat) < 16), Nat.reduceMod, Nat.reduceDiv, Nat.reduceAdd, Nat.reduceMul]
  rw [e1, e2, h1.1, h1.2]
  constructor <;> split_ifs <;> simp [hd]

/-- C22: `minvert` computes the inverse of a matrix. For every 4 by 4
column-major matrix `M` over an ordered field with exact arithmetic whose
determinant `d = M0 * T0 + M4 * T4 + M8 * T8 + M12 * T12` is not 0, the matrix
`I` that `minvert` writes (whatever `I` held before) satisfies
`mmultiply(M, I) = mmultiply(I, M) = identity`. -/
theorem C22_minvert_inverse {K : Type} [LinearOrderedField K] (I0 M : Nat → K)
    (hd : M 0 * minvert_T M 0 + M 4 * minvert_T M 4 + M 8 * minvert_T M 8
      + M 12 * minvert_T M 12 ≠ 0) :
    mmultiply M (minvert I0 M) = midentity ∧ mmultiply (minvert I0 M) M = midentity := by
  have hid : ∀ t, t < 16 → (midentity : Nat → K) t = (if t % 4 = t / 4 then 1 else 0) := by
    intro t ht
    interval_cases t <;> simp [midentity]
  constructor
  · funext t
    by_cases ht : t < 16
    · rw [(minvert_products I0 M hd t ht).1, hid t ht]
    · obtain ⟨n, rfl⟩ : ∃ n, t = n + 16 := ⟨t - 16, by omega⟩
      simp only [mmultiply, midentity, List.getD_cons_succ, List.getD_nil]
  · funext t
    by_cases ht : t < 16
    · rw [(minvert_products I0 M hd t ht).2, hid t ht]
    · obtain ⟨n, rfl⟩ : ∃ n, t = n + 16 := ⟨t - 16, by omega⟩
      simp only [mmultiply, midentity, List.getD_cons_succ, List.getD_nil]

/-- C22 for a matrix of determinant 2; the entry 12 of the inverse is `-3/2`. -/
theorem C22_minvert_inverse_witness :
    minvert_d mat_shear = 2 ∧ minvert mat_identity mat_shear 12 = -3 / 2 ∧
    mat_shear 0 * minvert_T mat_shear 0 + mat_shear 4 * minvert_T mat_shear 4
      + mat_shear 8 * minvert_T mat_shear 8 + mat_shear 12 * minvert_T mat_shear 12 ≠ 0 ∧
    mmultiply mat_shear (minvert mat_identity mat_shear) = midentity ∧
    mmultiply (minvert mat_identity mat_shear) mat_shear = midentity :=
  ⟨by decide!, by decide!, by decide!,
   C22_minvert_inverse mat_identity mat_shear (by decide!)⟩

/-! ## The decoder on the standard encoding -/

theorem peek_zero (b : Fin 256) (l : CString) : peek (b :: l) 0 = b.val := rfl

theorem peek_succ (b : Fin 256) (l : CString) (p : Nat) : peek (b :: l) (p + 1) = peek l p := rfl

theorem byte_val (a : Nat) (h : a < 256) : (Fin.ofNat a : Fin 256).val = a :=
  Nat.mod_eq_of_lt h

theorem lead_one : ∀ x, x < 128 → x &&& 0x80 = 0x00 := by
  decide

theorem lead_two : ∀ x, x < 32 →
    ¬ (0xC0 + x) &&& 0x80 = 0x00 ∧ (0xC0 + x) &&& 0xE0 = 0xC0 ∧ (0xC0 + x) &&& 0x1F = x := by
  decide

theorem lead_three : ∀ x, x < 16 →
    ¬ (0xE0 + x) &&& 0x80 = 0x00 ∧ ¬ (0xE0 + x) &&& 0xE0 = 0xC0 ∧ (0xE0 + x) &&& 0xF0 = 0xE0 ∧
      (0xE0 + x) &&& 0x0F = x := by
  decide

theorem lead_four : ∀ x, x < 8 →
    ¬ (0xF0 + x) &&& 0x80 = 0x00 ∧ ¬ (0xF0 + x) &&& 0xE0 = 0xC0 ∧ ¬ (0xF0 + x) &&& 0xF0 = 0xE0 ∧
      (0xF0 + x) &&& 0xF8 = 0xF0 ∧ (0xF0 + x) &&& 0x07 = x := by
  decide

theorem continuation_payload : ∀ y, y < 64 → (0x80 + y) &&& 0x3F = y := by
  decide

/-- The decoder on a sequence of two bytes with the payloads `x` and `y`. -/
theorem utf8_two (x y : Nat) (hx : x < 32) (hy : y < 64) :
    utf8 [Fin.ofNat (0xC0 + x), Fin.ofNat (0x80 + y)] 0 = (64 * x + y, 2) := by
  obtain ⟨h1, h2, h3⟩ := lead_two x hx
  have hb := continuation_payload y hy
  have e0 : peek [Fin.ofNat (0xC0 + x), Fin.ofNat (0x80 + y)] 0 = 0xC0 + x := by
    rw [peek_zero, byte_val _ (by omega)]
  have e1 : peek [Fin.ofNat (0xC0 + x), Fin.ofNat (0x80 + y)] (0 + 1) = 0x80 + y := by
    rw [peek_succ, peek_zero, byte_val _ (by omega)]
  unfold utf8
  simp only [e0, e1, h1, h2, h3, hb, if_false, if_true]
  have : (x <<< 6) ||| y = 64 * x + y := by
    rw [Nat.shiftLeft_eq, Nat.mul_comm]
    exact (Nat.mul_add_lt_is_or (show y < 2 ^ 6 by omega) x).symm
  rw [this]

/-- The decoder on a sequence of three bytes with the payloads `x`, `y`, `z`. -/
theorem utf8_three (x y z : Nat) (hx : x < 16) (hy : y < 64) (hz : z < 64) :
    utf8 [Fin.ofNat (0xE0 + x), Fin.ofNat (0x80 + y), Fin.ofNat (0x80 + z)] 0
      = (4096 * x + 64 * y + z, 3) := by
  obtain ⟨h1, h2, h3, h4⟩ := lead_three x hx
  have hb := continuation_payload y hy
  have hc := continuation_payload z hz
  have e0 : peek [Fin.ofNat (0xE0 + x), Fin.ofNat (0x80 + y), Fin.ofNat (0x80 + z)] 0
      = 0xE0 + x := by
    rw [peek_zero, byte_val _ (by omega)]
  have e1 : peek [Fin.ofNat (0xE0 + x), Fin.ofNat (0x80 + y), Fin.ofNat (0x80 + z)] (0 + 1)
      = 0x80 + y := by
    rw [peek_succ, peek_zero, byte_val _ (by omega)]
  have e2 : peek [Fin.ofNat (0xE0 + x), Fin.ofNat (0x80 + y), Fin.ofNat (0x80 + z)] (0 + 2)
      = 0x80 + z := by
    rw [peek_succ, peek_succ, peek_zero, byte_val _ (by omega)]
  unfold utf8
  simp only [e0, e1, e2, h1, h2, h3, h4, hb, hc, if_false, if_true]
  have s1 : (x <<< 12) ||| (y <<< 6) = 4096 * x + 64 * y := by
    have k := Nat.mul_add_lt_is_or (show y * 2 ^ 6 < 2 ^ 12 by omega) x
    rw [Nat.shiftLeft_eq, Nat.shiftLeft_eq, Nat.mul_comm x, ← k]
    omega
  have s2 : (4096 * x + 64 * y) ||| z = 4096 * x + 64 * y + z := by
    have : 4096 * x + 64 * y = 2 ^ 6 * (64 * x + y) := by omega
    rw [this]
    exact (Nat.mul_add_lt_is_or (show z < 2 ^ 6 by omega) _).symm
  rw [s1, s2]

/-- C24: the one-, two- and three-byte length classes are decoded correctly.
For every value `c` in `[0, 0xFFFF]` (the scalar values of this range, and the
surrogates as well), `utf8` applied to the standard UTF-8 encoding of `c`
returns `c`, with the cursor after the last byte of the encoding. -/
theorem C24_utf8_roundtrip (c : Nat) (hc : c ≤ 0xFFFF) :
    utf8 (utf8_encode c) 0 = (c, (utf8_encode c).length) := by
  unfold utf8_encode
  by_cases h1 : c < 0x80
  · rw [if_pos h1]
    have e0 : peek [Fin.ofNat c] 0 = c := by
      rw [peek_zero, byte_val _ (by omega)]
    unfold utf8
    simp only [e0, lead_one c h1, if_true, List.length_singleton, zero_add]
  · rw [if_neg h1]
    by_cases h2 : c < 0x800
    · rw [if_pos h2, utf8_two (c / 0x40) (c % 0x40) (by omega) (by omega)]
      simp only [List.length_cons, List.length_nil, Prod.mk.injEq, and_true]
      omega
    · rw [if_neg h2, if_pos (show c < 0x10000 by omega),
        utf8_three (c / 0x1000) (c / 0x40 % 0x40) (c % 0x40) (by omega) (by omega) (by omega)]
      simp only [List.length_cons, List.length_nil, Prod.mk.injEq, and_true]
      omega

/-- C24 at U+20AC, the euro sign, encoded `E2 82 AC`. -/
theorem C24_utf8_roundtrip_witness :
    utf8_encode 0x20AC = [0xE2, 0x82, 0xAC] ∧
    utf8 (utf8_encode 0x20AC) 0 = (0x20AC, (utf8_encode 0x20AC).length) :=
  ⟨by decide, C24_utf8_roundtrip 0x20AC (by decide)⟩

set_option maxRecDepth 1000000 in
/-- The second and third payloads of a four-byte sequence as the decoder
combines them: below `2 ^ 18`, a multiple of 64, and equal to the value
`4096 * y + 64 * z` that the encoding stands for exactly when `z = 0`. -/
theorem four_byte_middle : ∀ y, y < 64 → ∀ z, z < 64 →
    (y <<< 12) ||| (z <<< 8) < 2 ^ 18 ∧ ((y <<< 12) ||| (z <<< 8)) % 64 = 0 ∧
      ((y <<< 12) ||| (z <<< 8) = 4096 * y + 64 * z ↔ z = 0) := by
  decide

/-- The decoder on a sequence of four bytes with the payloads `x`, `y`, `z`,
`w`. -/
theorem utf8_four (x y z w : Nat) (hx : x < 8) (hy : y < 64) (hz : z < 64) (hw : w < 64) :
    utf8 [Fin.ofNat (0xF0 + x), Fin.ofNat (0x80 + y), Fin.ofNat (0x80 + z),
        Fin.ofNat (0x80 + w)] 0
      = (262144 * x + ((y <<< 12) ||| (z <<< 8)) + w, 4) := by
  obtain ⟨h1, h2, h3, h4, h5⟩ := lead_four x hx
  have hb := continuation_payload y hy
  have hc := continuation_payload z hz
  have hd := continuation_payload w hw
  have e0 : peek [Fin.ofNat (0xF0 + x), Fin.ofNat (0x80 + y), Fin.ofNat (0x80 + z),
      Fin.ofNat (0x80 + w)] 0 = 0xF0 + x := by
    rw [peek_zero, byte_val _ (by omega)]
  have e1 : peek [Fin.ofNat (0xF0 + x), Fin.ofNat (0x80 + y), Fin.ofNat (0x80 + z),
      Fin.ofNat (0x80 + w)] (0 + 1) = 0x80 + y := by
    rw [peek_succ, peek_zero, byte_val _ (by omega)]
  have e2 : peek [Fin.ofNat (0xF0 + x), Fin.ofNat (0x80 + y), Fin.ofNat (0x80 + z),
      Fin.ofNat (0x80 + w)] (0 + 2) = 0x80 + z := by
    rw [peek_succ, peek_succ, peek_zero, byte_val _ (by omega)]
  have e3 : peek [Fin.ofNat (0xF0 + x), Fin.ofNat (0x80 + y), Fin.ofNat (0x80 + z),
      Fin.ofNat (0x80 + w)] (0 + 3) = 0x80 + w := by
    rw [peek_succ, peek_succ, peek_succ, peek_zero, byte_val _ (by omega)]
  unfold utf8
  simp only [e0, e1, e2, e3, h1, h2, h3, h4, h5, hb, hc, hd, if_false, if_true]
  obtain ⟨m1, m2, -⟩ := four_byte_middle y hy z hz
  have s1 : (x <<< 18) ||| (y <<< 12) ||| (z <<< 8)
      = 262144 * x + ((y <<< 12) ||| (z <<< 8)) := by
    have k := Nat.mul_add_lt_is_or m1 x
    rw [Nat.or_assoc, Nat.shiftLeft_eq x, Nat.mul_comm x, ← k]
  have s2 : (262144 * x + ((y <<< 12) ||| (z <<< 8))) ||| w
      = 262144 * x + ((y <<< 12) ||| (z <<< 8)) + w := by
    have k := Nat.mul_add_lt_is_or (show w < 2 ^ 6 by omega)
      ((262144 * x + ((y <<< 12) ||| (z <<< 8))) / 64)
    have : 2 ^ 6 * ((262144 * x + ((y <<< 12) ||| (z <<< 8))) / 64)
        = 262144 * x + ((y <<< 12) ||| (z <<< 8)) := by omega
    rw [this] at k
    exact k.symm
  rw [s1, s2]

/-- C25 (counterexample): the scalar value U+10000 has the standard encoding
`F0 90 80 80`, in four bytes, and the decoder returns `0x10000` for it: the
payload of the third byte is 0, so its shift does not matter. -/
theorem C25_four_byte_decoded_right :
    utf8_encode 0x10000 = [0xF0, 0x90, 0x80, 0x80] ∧
    utf8 (utf8_encode 0x10000) 0 = (0x10000, 4) := by
  decide

/-- C25 (amended): for every scalar value `c` in `[0x10000, 0x10FFFF]`, `utf8`
applied to the standard UTF-8 encoding of `c` consumes the four bytes and
returns `2 ^ 18 * a + ((b << 12) | (c3 << 8)) + d` for the payloads `a`, `b`,
`c3`, `d` of the four bytes; this value is `c` exactly when the payload
`c3 = (c / 64) % 64` of the third byte is 0, and differs from `c` otherwise. -/
theorem C25_four_byte_value (c : Nat) (hlo : 0x10000 ≤ c) (hhi : c ≤ 0x10FFFF) :
    utf8 (utf8_encode c) 0
      = (262144 * (c / 0x40000) + (((c / 0x1000 % 0x40) <<< 12) ||| ((c / 0x40 % 0x40) <<< 8))
          + c % 0x40, 4) ∧
    ((utf8 (utf8_encode c) 0).1 = c ↔ c / 0x40 % 0x40 = 0) := by
  have hrun : utf8 (utf8_encode c) 0
      = (262144 * (c / 0x40000) + (((c / 0x1000 % 0x40) <<< 12) ||| ((c / 0x40 % 0x40) <<< 8))
          + c % 0x40, 4) := by
    unfold utf8_encode
    rw [if_neg (show ¬ c < 0x80 by omega), if_neg (show ¬ c < 0x800 by omega),
      if_neg (show ¬ c < 0x10000 by omega)]
    exact utf8_four (c / 0x40000) (c / 0x1000 % 0x40) (c / 0x40 % 0x40) (c % 0x40)
      (by omega) (by omega) (by omega) (by omega)
  refine ⟨hrun, ?_⟩
  rw [hrun]
  obtain ⟨-, -, m3⟩ := four_byte_middle (c / 0x1000 % 0x40) (by omega) (c / 0x40 % 0x40) (by omega)
  simp only
  rw [← m3]
  omega

/-- C25 (amended) at U+10040, where the payload of the third byte is 1, and the
value returned. -/
theorem C25_four_byte_value_witness :
    utf8 (utf8_encode 0x10040) 0 = (0x10100, 4) ∧
    (utf8 (utf8_encode 0x10040) 0
      = (262144 * (0x10040 / 0x40000)
          + (((0x10040 / 0x1000 % 0x40) <<< 12) ||| ((0x10040 / 0x40 % 0x40) <<< 8))
          + 0x10040 % 0x40, 4) ∧
    ((utf8 (utf8_encode 0x10040) 0).1 = 0x10040 ↔ 0x10040 / 0x40 % 0x40 = 0)) :=
  ⟨by decide, C25_four_byte_value 0x10040 (by decide) (by decide)⟩

/-! ## The gutter and the height of the shelf -/

/-- C26: after any sequence of sort lookups on a freshly created font whose
glyph provider returns non-negative widths and heights, two sorts of the table
on the same shelf (equal `Y`) are at least one pixel apart horizontally: the
one further right (the one placed later) starts at `X ≥ X + W + 1` of the
other; and a sort on a later shelf (larger `Y`) starts at least one pixel below
the bottom of every sort on an earlier shelf: its `Y ≥ Y + H + 1` of theirs. -/
theorem C26_gutter (face : FT_Face) (hface : face_nonneg face) (h a : Int) (k : ℚ)
    (s : Int) (reqs : List (Int × (Nat → Bool))) (fuel : Nat) (hf : 2 ≤ fuel) :
    ∃ F, sort_lookups face fuel (font_fresh h a k s) reqs = some F ∧
      ∀ (i j : Nat) (S T : sort), i ≠ j → F.sorts[i]? = some S → F.sorts[j]? = some T →
        (S.Y = T.Y → S.X ≤ T.X → S.X + S.W + 1 ≤ T.X) ∧
        (S.Y < T.Y → S.Y + S.H + 1 ≤ T.Y) := by
  obtain ⟨F, hrun, -, hinv, -⟩ :=
    sort_lookups_invariant face pack_inv (fun F c hp => pack_inv_insert face hface F c hp)
      fuel hf reqs (font_fresh h a k s) (font_fresh_sorted h a k s) (font_fresh_pack_inv h a k s)
  refine ⟨F, hrun, ?_⟩
  intro i j S T hij hS hT
  have hap : sort.apart S T := by
    rcases Nat.lt_or_gt_of_ne hij with hlt | hgt
    · exact pairwise_getElem? hinv.apart hlt hS hT
    · exact sort.apart_symm (pairwise_getElem? hinv.apart hgt hT hS)
  have hs1 := hinv.shelved S (List.getElem?_mem hS)
  have hs2 := hinv.shelved T (List.getElem?_mem hT)
  unfold sort.apart at hap
  unfold sort.shelved at hs1 hs2
  constructor
  · intro hY hX
    omega
  · intro hY
    omega

/-- C26 for three lookups of glyphs of 10 by 10 pixels in an atlas of size 32. -/
theorem C26_gutter_witness :
    ∃ F, sort_lookups face_square 2 (font_fresh 8 6 1 32)
        [(66, realloc_ok), (65, realloc_ok), (67, realloc_ok)] = some F ∧
      ∀ (i j : Nat) (S T : sort), i ≠ j → F.sorts[i]? = some S → F.sorts[j]? = some T →
        (S.Y = T.Y → S.X ≤ T.X → S.X + S.W + 1 ≤ T.X) ∧
        (S.Y < T.Y → S.Y + S.H + 1 ≤ T.Y) :=
  C26_gutter face_square face_square_nonneg 8 6 1 32
    [(66, realloc_ok), (65, realloc_ok), (67, realloc_ok)] 2 (le_refl 2)

/-- C27: after any sequence of sort lookups on a freshly created font whose
glyph provider returns non-negative widths and heights, the field `m` of the
cursor is at least the height of every sort whose `Y` is the current `y` of the
cursor. -/
theorem C27_row_max (face : FT_Face) (hface : face_nonneg face) (h a : Int) (k : ℚ)
    (s : Int) (reqs : List (Int × (Nat → Bool))) (fuel : Nat) (hf : 2 ≤ fuel) :
    ∃ F, sort_lookups face fuel (font_fresh h a k s) reqs = some F ∧
      ∀ S ∈ F.sorts, S.Y = F.y → S.H ≤ F.m := by
  obtain ⟨F, hrun, -, hinv, -⟩ :=
    sort_lookups_invariant face pack_inv (fun F c hp => pack_inv_insert face hface F c hp)
      fuel hf reqs (font_fresh h a k s) (font_fresh_sorted h a k s) (font_fresh_pack_inv h a k s)
  refine ⟨F, hrun, ?_⟩
  intro S hS hY
  have hs1 := hinv.shelved S hS
  unfold sort.shelved at hs1
  omega

/-- C27 for three lookups of glyphs of 10 by 10 pixels in an atlas of size 32. -/
theorem C27_row_max_witness :
    ∃ F, sort_lookups face_square 2 (font_fresh 8 6 1 32)
        [(66, realloc_ok), (65, realloc_ok), (67, realloc_ok)] = some F ∧
      ∀ S ∈ F.sorts, S.Y = F.y → S.H ≤ F.m :=
  C27_row_max face_square face_square_nonneg 8 6 1 32
    [(66, realloc_ok), (65, realloc_ok), (67, realloc_ok)] 2 (le_refl 2)

/-! ## A glyph of width zero -/

/-- C28 (counterexample): a glyph of width 0 and height 7 placed at the cursor
`(11, 0, 10)` of an atlas of size 32. The sort records the placement
`(11, 0, 0, 7)`, not `(0, 0, 0, 0)`, and the cursor becomes `(12, 0, 10)`. -/
theorem C28_zero_width_moves_cursor :
    (face_thin 65).width >>> (6 : Nat) = 0 ∧
    (font_sort_create face_thin
      { h := 8, a := 6, k := 1, sorts := [sort_blank 65], s := 32, x := 11, y := 0, m := 10 }
      0 65).sorts.map (fun S => (S.X, S.Y, S.W, S.H)) = [(11, 0, 0, 7)] ∧
    ((font_sort_create face_thin
      { h := 8, a := 6, k := 1, sorts := [sort_blank 65], s := 32, x := 11, y := 0, m := 10 }
      0 65).x,
     (font_sort_create face_thin
      { h := 8, a := 6, k := 1, sorts := [sort_blank 65], s := 32, x := 11, y := 0, m := 10 }
      0 65).y,
     (font_sort_create face_thin
      { h := 8, a := 6, k := 1, sorts := [sort_blank 65], s := 32, x := 11, y := 0, m := 10 }
      0 65).m) = (12, 0, 10) := by
  refine ⟨?_, ?_, ?_⟩ <;> decide

/-- C28 (amended): a glyph of width 0 is placed like every other glyph. With
`(x0, y0, m0)` the cursor after the shelf test (a new shelf
`(0, y + m + 1, 0)` when `x ≥ s`, the old cursor otherwise), its sort records
the placement `(x0, y0)` with the size `(0, H)`, and the cursor becomes
`(x0 + 1, y0, max m0 H)`: the glyph takes one pixel of gutter. -/
theorem C28_zero_width (face : FT_Face) (F : font) (i : Nat) (c : Int) (S : sort)
    (H x0 y0 m0 : Int) (hS : F.sorts[i]? = some S)
    (hW : (face c).width >>> (6 : Nat) = 0) (hH : H = (face c).height >>> (6 : Nat))
    (hcur : (x0, y0, m0) = if F.x ≥ F.s then (0, F.y + F.m + 1, 0) else (F.x, F.y, F.m)) :
    (∃ S1, (font_sort_create face F i c).sorts[i]? = some S1 ∧
      S1.X = x0 ∧ S1.Y = y0 ∧ S1.W = 0 ∧ S1.H = H) ∧
    (font_sort_create face F i c).x = x0 + 1 ∧
    (font_sort_create face F i c).y = y0 ∧
    (font_sort_create face F i c).m = max m0 H := by
  have hx : (shelf F ((face c).width >>> (6 : Nat))).x = x0 ∧
      (shelf F ((face c).width >>> (6 : Nat))).y = y0 ∧
      (shelf F ((face c).width >>> (6 : Nat))).m = m0 := by
    rw [hW]
    unfold shelf
    simp only [add_zero]
    split_ifs at hcur ⊢ <;> simp only [Prod.mk.injEq] at hcur <;> simp [hcur]
  obtain ⟨hx0, hy0, hm0⟩ := hx
  obtain ⟨hsorts, -, -, -, -⟩ := shelf_frame F ((face c).width >>> (6 : Nat))
  rw [hW] at hx0 hy0 hm0 hsorts
  refine ⟨?_, ?_, ?_, ?_⟩
  · simp [font_sort_create, poke_getElem?, hsorts, hS, hx0, hy0, hW, hH]
  · simp [font_sort_create, hx0, hW]
  · simp [font_sort_create, hy0, hW]
  · simp only [font_sort_create, hW, hm0, ← hH]
    rcases le_or_lt H m0 with hle | hlt
    · rw [if_neg (by omega), max_eq_left hle]
    · rw [if_pos hlt, max_eq_right (le_of_lt hlt)]

/-- C28 (amended) at the input of the counterexample. -/
theorem C28_zero_width_witness :
    (∃ S1, (font_sort_create face_thin
        { h := 8, a := 6, k := 1, sorts := [sort_blank 65], s := 32, x := 11, y := 0, m := 10 }
        0 65).sorts[0]? = some S1 ∧
      S1.X = 11 ∧ S1.Y = 0 ∧ S1.W = 0 ∧ S1.H = 7) ∧
    (font_sort_create face_thin
        { h := 8, a := 6, k := 1, sorts := [sort_blank 65], s := 32, x := 11, y := 0, m := 10 }
        0 65).x = 11 + 1 ∧
    (font_sort_create face_thin
        { h := 8, a := 6, k := 1, sorts := [sort_blank 65], s := 32, x := 11, y := 0, m := 10 }
        0 65).y = 0 ∧
    (font_sort_create face_thin
        { h := 8, a := 6, k := 1, sorts := [sort_blank 65], s := 32, x := 11, y := 0, m := 10 }
        0 65).m = max 10 7 :=
  C28_zero_width face_thin
    { h := 8, a := 6, k := 1, sorts := [sort_blank 65], s := 32, x := 11, y := 0, m := 10 }
    0 65 (sort_blank 65) 7 11 0 10 rfl (by decide) (by decide) (by decide)

/-! ## Termination of the search -/

/-- C29: for every font with a sorted table and every character code `c`,
`font_sort_search` terminates, with at most one recursive call. On a hit the
first call returns the sort (fuel 1, no recursion). On a miss with a failed
`realloc` the first call returns null without recursing and leaves the font
unchanged. On a miss with a successful `realloc` exactly one sort is appended
and the table sorted again (the table becomes `qsort` of the old table with the
new sort at the end, one entry longer, and is sorted), the recursive call is a
hit (it finds the new sort with fuel 1), and the call returns the new sort.
With any fuel of at least 2 the result is the same and is defined. -/
theorem C29_search_terminates (face : FT_Face) (realloc : Nat → Bool) (F : font) (c : Int)
    (hs : sorted_table F.sorts) :
    (∀ i, bsearch c F.sorts F.n = some i →
      ∃ S, S ∈ F.sorts ∧ S.c = c ∧ font_sort_search face realloc 1 F c = some (F, some S)) ∧
    (bsearch c F.sorts F.n = none → realloc (F.n + 1) = false →
      font_sort_search face realloc 1 F c = some (F, none)) ∧
    (bsearch c F.sorts F.n = none → realloc (F.n + 1) = true →
      (font_sort_insert face F c).sorts = qsort (F.sorts ++ [sort_placed face F c]) ∧
      (font_sort_insert face F c).n = F.n + 1 ∧
      sorted_table (font_sort_insert face F c).sorts ∧
      (∃ i, bsearch c (font_sort_insert face F c).sorts (font_sort_insert face F c).n = some i ∧
        (font_sort_insert face F c).sorts[i]? = some (sort_placed face F c)) ∧
      font_sort_search face realloc 1 (font_sort_insert face F c) c
        = some (font_sort_insert face F c, some (sort_placed face F c)) ∧
      font_sort_search face realloc 2 F c
        = some (font_sort_insert face F c, some (sort_placed face F c))) ∧
    (∃ r, font_sort_search face realloc 2 F c = some r ∧
      ∀ fuel, 2 ≤ fuel → font_sort_search face realloc fuel F c = some r) := by
  have hasc : ascending_table F.sorts := sorted_table_le hs
  refine ⟨?_, ?_, ?_, ?_⟩
  · intro i hi
    obtain ⟨S, -, hc, hmem, hrun⟩ := font_sort_search_found face realloc F c 0 i hi
    exact ⟨S, hmem, hc, hrun⟩
  · intro hb hre
    exact font_sort_search_fail face realloc F c 0 (bsearch_miss hasc hb) hre
  · intro hb hre
    have habs : ∀ S ∈ F.sorts, S.c ≠ c := bsearch_miss hasc hb
    have hsorted := font_sort_insert_sorted face F c hs habs
    have hmem : sort_placed face F c ∈ (font_sort_insert face F c).sorts :=
      (font_sort_insert_mem face F c (sort_placed face F c)).2 (Or.inr rfl)
    refine ⟨font_sort_insert_sorts face F c, font_sort_insert_length face F c, hsorted, ?_, ?_,
      font_sort_search_miss face realloc F c 0 habs hre⟩
    · exact bsearch_hit hsorted hmem
    · exact font_sort_search_hit face realloc (font_sort_insert face F c) (sort_placed face F c)
        0 hsorted hmem
  · refine ⟨font_sort_lookup face realloc F c, ?_, fun fuel hf => ?_⟩
    · exact font_sort_search_fuel face realloc F c 2 (le_refl 2)
    · exact font_sort_search_fuel face realloc F c fuel hf

/-- C29 for the search of the character 65 in an empty table. -/
theorem C29_search_terminates_witness :
    (∀ i, bsearch 65 (font_fresh 8 6 1 32).sorts (font_fresh 8 6 1 32).n = some i →
      ∃ S, S ∈ (font_fresh 8 6 1 32).sorts ∧ S.c = 65 ∧
        font_sort_search face_square realloc_ok 1 (font_fresh 8 6 1 32) 65
          = some (font_fresh 8 6 1 32, some S)) ∧
    (bsearch 65 (font_fresh 8 6 1 32).sorts (font_fresh 8 6 1 32).n = none →
      realloc_ok ((font_fresh 8 6 1 32).n + 1) = false →
      font_sort_search face_square realloc_ok 1 (font_fresh 8 6 1 32) 65
        = some (font_fresh 8 6 1 32, none)) ∧
    (bsearch 65 (font_fresh 8 6 1 32).sorts (font_fresh 8 6 1 32).n = none →
      realloc_ok ((font_fresh 8 6 1 32).n + 1) = true →
      (font_sort_insert face_square (font_fresh 8 6 1 32) 65).sorts
        = qsort ((font_fresh 8 6 1 32).sorts ++ [sort_placed face_square (font_fresh 8 6 1 32) 65]) ∧
      (font_sort_insert face_square (font_fresh 8 6 1 32) 65).n = (font_fresh 8 6 1 32).n + 1 ∧
      sorted_table (font_sort_insert face_square (font_fresh 8 6 1 32) 65).sorts ∧
      (∃ i, bsearch 65 (font_sort_insert face_square (font_fresh 8 6 1 32) 65).sorts
          (font_sort_insert face_square (font_fresh 8 6 1 32) 65).n = some i ∧
        (font_sort_insert face_square (font_fresh 8 6 1 32) 65).sorts[i]?
          = some (sort_placed face_square (font_fresh 8 6 1 32) 65)) ∧
      font_sort_search face_square realloc_ok 1
          (font_sort_insert face_square (font_fresh 8 6 1 32) 65) 65
        = some (font_sort_insert face_square (font_fresh 8 6 1 32) 65,
            some (sort_placed face_square (font_fresh 8 6 1 32) 65)) ∧
      font_sort_search face_square realloc_ok 2 (font_fresh 8 6 1 32) 65
        = some (font_sort_insert face_square (font_fresh 8 6 1 32) 65,
            some (sort_placed face_square (font_fresh 8 6 1 32) 65))) ∧
    (∃ r, font_sort_search face_square realloc_ok 2 (font_fresh 8 6 1 32) 65 = some r ∧
      ∀ fuel, 2 ≤ fuel →
        font_sort_search face_square realloc_ok fuel (font_fresh 8 6 1 32) 65 = some r) :=
  C29_search_terminates face_square realloc_ok (font_fresh 8 6 1 32) 65
    (font_fresh_sorted 8 6 1 32)

/-! ## The space is never interned -/

/-- A lookup of a character other than the space adds no sort of the space. -/
theorem font_sort_lookup_no_space (face : FT_Face) (realloc : Nat → Bool) (F : font) (c : Int)
    (hc : c ≠ 32) (h : ∀ S ∈ F.sorts, S.c ≠ 32) :
    ∀ S ∈ (font_sort_lookup face realloc F c).1.sorts, S.c ≠ 32 := by
  rcases font_sort_lookup_cases face realloc F c with ⟨h1, -⟩ | ⟨h1, -, -⟩
  · rw [h1]
    exact h
  · rw [h1]
    intro S hS
    rcases (font_sort_insert_mem face F c S).1 hS with hold | hnew
    · exact h S hold
    · rw [hnew]
      exact hc

theorem layout_step_no_space (face : FT_Face) (kern : FT_Kerning) (realloc : Nat → Bool)
    (off : Nat) (s exp : Int) (mat : Nat → ℚ) (st : layout_state) (c : Nat)
    (h : ∀ S ∈ st.F.sorts, S.c ≠ 32) :
    ∀ S ∈ (layout_step face kern realloc off s exp mat st c).F.sorts, S.c ≠ 32 := by
  by_cases hc : c = 32
  · simp only [layout_step, if_pos hc]
    exact h
  · have hci : (c : Int) ≠ 32 := by omega
    have hl := font_sort_lookup_no_space face realloc st.F (c : Int) hci h
    simp only [layout_step, if_neg hc]
    rcases hlook : font_sort_lookup face realloc st.F (c : Int) with ⟨F1, _ | S1⟩
    · rw [hlook] at hl
      exact hl
    · rw [hlook] at hl
      exact hl

theorem layout_loop_no_space (face : FT_Face) (kern : FT_Kerning) (realloc : Nat → Nat → Bool)
    (off : Nat) (s exp : Int) (mat : Nat → ℚ) :
    ∀ (codes : List Nat) (t : Nat) (st : layout_state), (∀ S ∈ st.F.sorts, S.c ≠ 32) →
      ∀ S ∈ (layout_loop face kern realloc off s exp mat codes t st).F.sorts, S.c ≠ 32 := by
  intro codes
  induction codes with
  | nil =>
    intro t st h
    exact h
  | cons c cs ih =>
    intro t st h
    exact ih (t + 1) _ (layout_step_no_space face kern (realloc t) off s exp mat st c h)

theorem layout_no_space (face : FT_Face) (kern : FT_Kerning) (realloc : Nat → Nat → Bool)
    (v : List vert) (off : Nat) (str : CString) (exp : Int) (mat : Nat → ℚ) (F : font)
    (h : ∀ S ∈ F.sorts, S.c ≠ 32) :
    ∀ S ∈ (layout face kern realloc v off str exp mat F).1.sorts, S.c ≠ 32 :=
  layout_loop_no_space face kern realloc off _ exp mat (utf8_codes str) 0 _ h

theorem line_layout_loop_no_space (face : FT_Face) (kern : FT_Kerning)
    (realloc : Nat → Nat → Nat → Bool) (expv : Option (List Int)) (matv : Option (Nat → ℚ)) :
    ∀ (strv : List CString) (i : Nat) (st : font × List vert × Nat × (Nat → ℚ)),
      (∀ S ∈ st.1.sorts, S.c ≠ 32) →
      ∀ S ∈ (line_layout_loop face kern realloc expv matv strv i st).1.sorts, S.c ≠ 32 := by
  intro strv
  induction strv with
  | nil =>
    intro i st h
    exact h
  | cons str rest ih =>
    intro i st h
    obtain ⟨F, v, j, I⟩ := st
    simp only [line_layout_loop]
    exact ih (i + 1) _ (layout_no_space face kern (realloc i) v (4 * j) str _ _ F h)

theorem line_layout_no_space (face : FT_Face) (kern : FT_Kerning) (heap : allocator)
    (strv : List CString) (expv : Option (List Int)) (matv : Option (Nat → ℚ)) (F : font)
    (h : ∀ S ∈ F.sorts, S.c ≠ 32) :
    ∀ S ∈ (line_layout face kern heap strv expv matv F).1.sorts, S.c ≠ 32 := by
  unfold line_layout
  simp only
  split_ifs
  · exact line_layout_loop_no_space face kern heap.realloc expv matv strv 0 _ h
  · exact h
  · exact h

theorem line_length_step_no_space (face : FT_Face) (kern : FT_Kerning) (realloc : Nat → Bool)
    (st : font × Int × Nat) (c : Nat) (h : ∀ S ∈ st.1.sorts, S.c ≠ 32) :
    ∀ S ∈ (line_length_step face kern realloc st c).1.sorts, S.c ≠ 32 := by
  by_cases hc : c = 32
  · simp only [line_length_step, if_pos hc]
    exact h
  · have hci : (c : Int) ≠ 32 := by omega
    have hl := font_sort_lookup_no_space face realloc st.1 (c : Int) hci h
    simp only [line_length_step, if_neg hc]
    rcases hlook : font_sort_lookup face realloc st.1 (c : Int) with ⟨F1, _ | S1⟩
    · rw [hlook] at hl
      exact hl
    · rw [hlook] at hl
      exact hl

theorem line_length_loop_no_space (face : FT_Face) (kern : FT_Kerning)
    (realloc : Nat → Nat → Bool) :
    ∀ (codes : List Nat) (t : Nat) (st : font × Int × Nat), (∀ S ∈ st.1.sorts, S.c ≠ 32) →
      ∀ S ∈ (line_length_loop face kern realloc codes t st).1.sorts, S.c ≠ 32 := by
  intro codes
  induction codes with
  | nil =>
    intro t st h
    exact h
  | cons c cs ih =>
    intro t st h
    exact ih (t + 1) _ (line_length_step_no_space face kern (realloc t) st c h)

theorem line_length_no_space (face : FT_Face) (kern : FT_Kerning) (realloc : Nat → Nat → Bool)
    (str : CString) (F : font) (h : ∀ S ∈ F.sorts, S.c ≠ 32) :
    ∀ S ∈ (line_length face kern realloc str F).1.sorts, S.c ≠ 32 :=
  line_length_loop_no_space face kern realloc (utf8_codes str) 0 _ h

/-- C30: the space is never interned. Starting from a font whose table has no
sort with the character code 0x20, after any sequence of calls of
`line_layout`, `line_create` and `line_length`, on arbitrary strings and with
arbitrary outcomes of the allocations, the table has no sort with the
character code 0x20. -/
theorem C30_space_not_interned (face : FT_Face) (kern : FT_Kerning) (calls : List typeset_call)
    (F : font) (h : ∀ S ∈ F.sorts, S.c ≠ 32) :
    ∀ S ∈ (typeset_calls face kern F calls).sorts, S.c ≠ 32 := by
  induction calls generalizing F with
  | nil => exact h
  | cons call rest ih =>
    cases call with
    | layout heap strv expv matv =>
      exact ih _ (line_layout_no_space face kern heap strv expv matv F h)
    | create heap str =>
      exact ih _ (line_layout_no_space face kern heap [str] none none F h)
    | length realloc str =>
      exact ih _ (line_length_no_space face kern realloc str F h)

/-- C30 for the calls `line_create("a b")`, `line_length(" b c")` and
`line_layout` of the strings `"c d"` and `" "` on a fresh font. -/
theorem C30_space_not_interned_witness :
    (∀ S ∈ (font_fresh 8 6 1 32).sorts, S.c ≠ 32) ∧
    ∀ S ∈ (typeset_calls face_small kern_none (font_fresh 8 6 1 32)
        [typeset_call.create heap_ok [97, 32, 98],
         typeset_call.length realloc_always [32, 98, 99],
         typeset_call.layout heap_ok [[99, 32, 100], [32]] none none]).sorts, S.c ≠ 32 :=
  ⟨by simp [font_fresh],
   C30_space_not_interned face_small kern_none
    [typeset_call.create heap_ok [97, 32, 98],
     typeset_call.length realloc_always [32, 98, 99],
     typeset_call.layout heap_ok [[99, 32, 100], [32]] none none]
    (font_fresh 8 6 1 32) (by simp [font_fresh])⟩

/-! ## The vertex array of several strings -/

/-- With a successful allocation the lookup of `layout` gives a sort. -/
theorem font_sort_lookup_some (face : FT_Face) (realloc : Nat → Bool) (F : font) (c : Int)
    (hre : ∀ n, realloc n = true) :
    ∃ S, (font_sort_lookup face realloc F c).2 = some S := by
  rcases font_sort_lookup_cases face realloc F c with ⟨-, h2⟩ | ⟨-, -, S, h2, -⟩
  · rcases h2 with ⟨-, hfail⟩ | ⟨S, h2, -⟩
    · rw [hre] at hfail
      exact absurd hfail (by simp)
    · exact ⟨S, h2⟩
  · exact ⟨S, h2⟩

/-- When every lookup succeeds, the loop of `layout` sets one quad per
character other than the space, and writes no vertex outside the quads
`st.i` to `i - 1` of its array, `i` being the final count. -/
theorem layout_loop_region (face : FT_Face) (kern : FT_Kerning) (realloc : Nat → Nat → Bool)
    (hre : ∀ t n, realloc t n = true) (off : Nat) (s exp : Int) (mat : Nat → ℚ) :
    ∀ (codes : List Nat) (t : Nat) (st : layout_state),
      (layout_loop face kern realloc off s exp mat codes t st).i
        = st.i + (codes.filter (fun c => c ≠ 32)).length ∧
      ∀ idx, (idx < off + 4 * st.i ∨
          off + 4 * (st.i + (codes.filter (fun c => c ≠ 32)).length) ≤ idx) →
        (layout_loop face kern realloc off s exp mat codes t st).v[idx]? = st.v[idx]? := by
  intro codes
  induction codes with
  | nil =>
    intro t st
    simp [layout_loop]
  | cons c cs ih =>
    intro t st
    rw [layout_loop]
    obtain ⟨ih1, ih2⟩ := ih (t + 1) (layout_step face kern (realloc t) off s exp mat st c)
    by_cases hc : c = 32
    · subst hc
      rw [layout_step_space] at ih1 ih2 ⊢
      simp only [ne_eq, not_true_eq_false, decide_False, Bool.false_eq_true, not_false_eq_true,
        List.filter_cons_of_neg] at ih1 ih2 ⊢
      exact ⟨ih1, ih2⟩
    · obtain ⟨S, hS⟩ := font_sort_lookup_some face (realloc t) st.F (c : Int) (hre t)
      rw [layout_step_glyph face kern (realloc t) off s exp mat st c S hc hS] at ih1 ih2 ⊢
      have hfil : (List.filter (fun c => decide (c ≠ 32)) (c :: cs)).length
          = (List.filter (fun c => decide (c ≠ 32)) cs).length + 1 := by
        simp [hc]
      rw [hfil]
      simp only at ih1 ih2
      refine ⟨by rw [ih1]; omega, ?_⟩
      intro idx hidx
      rw [ih2 idx (by omega), line_set_getElem?_quad]
      rw [if_neg (by omega)]

/-- Two runs of the loop of `layout` on different arrays at different offsets,
from states that agree otherwise, set the same quads when both arrays have
room for them. -/
theorem layout_loop_rel (face : FT_Face) (kern : FT_Kerning) (realloc : Nat → Nat → Bool)
    (hre : ∀ t n, realloc t n = true) (offA offB : Nat) (s exp : Int) (mat : Nat → ℚ) :
    ∀ (codes : List Nat) (t : Nat) (F : font) (vA vB : List vert) (x e : Int) (i l : Nat),
      offA + 4 * (i + (codes.filter (fun c => c ≠ 32)).length) ≤ vA.length →
      offB + 4 * (i + (codes.filter (fun c => c ≠ 32)).length) ≤ vB.length →
      (layout_loop face kern realloc offA s exp mat codes t
          { F := F, v := vA, x := x, e := e, i := i, l := l }).F
        = (layout_loop face kern realloc offB s exp mat codes t
          { F := F, v := vB, x := x, e := e, i := i, l := l }).F ∧
      (layout_loop face kern realloc offA s exp mat codes t
          { F := F, v := vA, x := x, e := e, i := i, l := l }).x
        = (layout_loop face kern realloc offB s exp mat codes t
          { F := F, v := vB, x := x, e := e, i := i, l := l }).x ∧
      ∀ q, 4 * i ≤ q → q < 4 * (i + (codes.filter (fun c => c ≠ 32)).length) →
        (layout_loop face kern realloc offA s exp mat codes t
            { F := F, v := vA, x := x, e := e, i := i, l := l }).v[offA + q]?
          = (layout_loop face kern realloc offB s exp mat codes t
            { F := F, v := vB, x := x, e := e, i := i, l := l }).v[offB + q]? := by
  intro codes
  induction codes with
  | nil =>
    intro t F vA vB x e i l _ _
    refine ⟨rfl, rfl, ?_⟩
    intro q h1 h2
    simp at h2
    omega
  | cons c cs ih =>
    intro t F vA vB x e i l hA hB
    rw [layout_loop, layout_loop]
    by_cases hc : c = 32
    · subst hc
      rw [layout_step_space, layout_step_space]
      simp only [ne_eq, not_true_eq_false, decide_False, Bool.false_eq_true, not_false_eq_true,
        List.filter_cons_of_neg] at hA hB ⊢
      exact ih (t + 1) F vA vB _ _ i l hA hB
    · obtain ⟨S, hS⟩ := font_sort_lookup_some face (realloc t) F (c : Int) (hre t)
      have hfil : (List.filter (fun c => decide (c ≠ 32)) (c :: cs)).length
          = (List.filter (fun c => decide (c ≠ 32)) cs).length + 1 := by
        simp [hc]
      rw [hfil] at hA hB ⊢
      rw [layout_step_glyph face kern (realloc t) offA s exp mat
          { F := F, v := vA, x := x, e := e, i := i, l := l } c S hc hS,
        layout_step_glyph face kern (realloc t) offB s exp mat
          { F := F, v := vB, x := x, e := e, i := i, l := l } c S hc hS]
      simp only [line_set_pen]
      have hlenA := line_set_length vA (offA + 4 * i) S
        (font_sort_lookup face (realloc t) F (c : Int)).1.s
        (x + kern.kerning_x l (kern.char_index (c : Int)) >>> (6 : Nat))
        (font_sort_lookup face (realloc t) F (c : Int)).1.k mat
      have hlenB := line_set_length vB (offB + 4 * i) S
        (font_sort_lookup face (realloc t) F (c : Int)).1.s
        (x + kern.kerning_x l (kern.char_index (c : Int)) >>> (6 : Nat))
        (font_sort_lookup face (realloc t) F (c : Int)).1.k mat
      obtain ⟨h1, h2, h3⟩ := ih (t + 1) (font_sort_lookup face (realloc t) F (c : Int)).1
        (line_set vA (offA + 4 * i) S (font_sort_lookup face (realloc t) F (c : Int)).1.s
          (x + kern.kerning_x l (kern.char_index (c : Int)) >>> (6 : Nat))
          (font_sort_lookup face (realloc t) F (c : Int)).1.k mat).1
        (line_set vB (offB + 4 * i) S (font_sort_lookup face (realloc t) F (c : Int)).1.s
          (x + kern.kerning_x l (kern.char_index (c : Int)) >>> (6 : Nat))
          (font_sort_lookup face (realloc t) F (c : Int)).1.k mat).1
        (to_int (((x + kern.kerning_x l (kern.char_index (c : Int)) >>> (6 : Nat) : Int) : ℚ)
          + (S.a : ℚ) * (font_sort_lookup face (realloc t) F (c : Int)).1.k))
        e (i + 1) (kern.char_index (c : Int)) (by rw [hlenA]; omega) (by rw [hlenB]; omega)
      refine ⟨h1, h2, ?_⟩
      intro q hq1 hq2
      by_cases hq : 4 * (i + 1) ≤ q
      · exact h3 q hq (by omega)
      · have rA := (layout_loop_region face kern realloc hre offA s exp mat cs (t + 1)
          { F := (font_sort_lookup face (realloc t) F (c : Int)).1
            v := (line_set vA (offA + 4 * i) S (font_sort_lookup face (realloc t) F (c : Int)).1.s
              (x + kern.kerning_x l (kern.char_index (c : Int)) >>> (6 : Nat))
              (font_sort_lookup face (realloc t) F (c : Int)).1.k mat).1
            x := to_int (((x + kern.kerning_x l (kern.char_index (c : Int)) >>> (6 : Nat) : Int) : ℚ)
              + (S.a : ℚ) * (font_sort_lookup face (realloc t) F (c : Int)).1.k)
            e := e, i := i + 1, l := kern.char_index (c : Int) }).2 (offA + q)
          (Or.inl (by simp only; omega))
        have rB := (layout_loop_region face kern realloc hre offB s exp mat cs (t + 1)
          { F := (font_sort_lookup face (realloc t) F (c : Int)).1
            v := (line_set vB (offB + 4 * i) S (font_sort_lookup face (realloc t) F (c : Int)).1.s
              (x + kern.kerning_x l (kern.char_index (c : Int)) >>> (6 : Nat))
              (font_sort_lookup face (realloc t) F (c : Int)).1.k mat).1
            x := to_int (((x + kern.kerning_x l (kern.char_index (c : Int)) >>> (6 : Nat) : Int) : ℚ)
              + (S.a : ℚ) * (font_sort_lookup face (realloc t) F (c : Int)).1.k)
            e := e, i := i + 1, l := kern.char_index (c : Int) }).2 (offB + q)
          (Or.inl (by simp only; omega))
        simp only at rA rB
        rw [rA, rB, line_set_getElem?_quad, line_set_getElem?_quad]
        rw [if_pos (by omega), if_pos (by omega), if_pos (by omega), if_pos (by omega)]
        congr 2
        omega

/-- The function `layout` when every lookup succeeds: it returns the number of
characters other than the space, leaves every vertex outside its
`4 * glyph_count str` vertices as it was, and sets the same quads as on an
array of its own. -/
theorem layout_block (face : FT_Face) (kern : FT_Kerning) (realloc : Nat → Nat → Bool)
    (hre : ∀ t n, realloc t n = true) (v : List vert) (off : Nat) (str : CString) (exp : Int)
    (mat : Nat → ℚ) (F : font) :
    (layout face kern realloc v off str exp mat F).2.2 = glyph_count str ∧
    (layout face kern realloc v off str exp mat F).2.1.length = v.length ∧
    (∀ idx, (idx < off ∨ off + 4 * glyph_count str ≤ idx) →
      (layout face kern realloc v off str exp mat F).2.1[idx]? = v[idx]?) ∧
    (off + 4 * glyph_count str ≤ v.length →
      (layout face kern realloc v off str exp mat F).1
        = (layout face kern realloc (List.replicate (4 * glyph_count str) vert_zero) 0 str exp
            mat F).1 ∧
      ∀ q, q < 4 * glyph_count str →
        (layout face kern realloc v off str exp mat F).2.1[off + q]?
          = (layout face kern realloc (List.replicate (4 * glyph_count str) vert_zero) 0 str exp
              mat F).2.1[q]?) := by
  obtain ⟨r1, r2⟩ := layout_loop_region face kern realloc hre off
    (layout_count (utf8_codes str)).1 exp mat (utf8_codes str) 0
    { F := F, v := v, x := 0, e := 0, i := 0, l := 0 }
  simp only [zero_add, Nat.mul_zero, Nat.add_zero] at r1 r2
  refine ⟨r1, (layout_frame face kern realloc v off str exp mat F).1, ?_, ?_⟩
  · intro idx hidx
    exact r2 idx hidx
  · intro hroom
    obtain ⟨h1, -, h3⟩ := layout_loop_rel face kern realloc hre off 0
      (layout_count (utf8_codes str)).1 exp mat (utf8_codes str) 0 F v
      (List.replicate (4 * glyph_count str) vert_zero) 0 0 0 0
      (by simpa [glyph_count] using hroom) (by simp [glyph_count])
    refine ⟨h1, ?_⟩
    intro q hq
    have := h3 q (by omega) (by simpa [glyph_count] using hq)
    simpa using this

theorem glyph_total_cons (str : CString) (rest : List CString) :
    glyph_total (str :: rest) = glyph_count str + glyph_total rest := by
  simp [glyph_total]

/-- One turn of the loop of `line_layout`. -/
theorem line_layout_loop_cons (face : FT_Face) (kern : FT_Kerning)
    (realloc : Nat → Nat → Nat → Bool) (expv : Option (List Int)) (matv : Option (Nat → ℚ))
    (str : CString) (rest : List CString) (i : Nat) (F : font) (v : List vert) (j : Nat)
    (I : Nat → ℚ) (h : Int) (hh : F.h = h) (hI : ∀ t, t < 16 → t ≠ 13 → I t = mat_identity t) :
    line_layout_loop face kern realloc expv matv (str :: rest) i (F, v, j, I)
      = line_layout_loop face kern realloc expv matv rest (i + 1)
          ((layout face kern (realloc i) v (4 * j) str (line_expansion expv i)
              (line_matrix matv h i) F).1,
           (layout face kern (realloc i) v (4 * j) str (line_expansion expv i)
              (line_matrix matv h i) F).2.1,
           j + (layout face kern (realloc i) v (4 * j) str (line_expansion expv i)
              (line_matrix matv h i) F).2.2,
           Function.update I 13 ((-(i : Int) * F.h : Int) : ℚ)) := by
  have hmat : ∀ t, t < 16 →
      Function.update I 13 ((-(i : Int) * F.h : Int) : ℚ) t
        = Function.update mat_identity 13 ((-(i : Int) * h : Int) : ℚ) t := by
    intro t ht
    rw [hh]
    by_cases h13 : t = 13
    · subst h13
      simp
    · simp [Function.update, h13, hI t ht h13]
  cases expv <;> cases matv <;>
    simp only [line_layout_loop, line_expansion, line_matrix] <;>
    rw [layout_congr face kern (realloc i) v (4 * j) str _ _ _ F hmat]

/-- The loop of `line_layout` when every lookup succeeds and the array has
room: the strings are set one after the other, string `m` from the vertex
`4 * (j + glyph_total (strv.take m))` on, with the quads that `layout` sets
for it on an array of its own, and nothing else is written. -/
theorem line_layout_loop_blocks (face : FT_Face) (kern : FT_Kerning)
    (realloc : Nat → Nat → Nat → Bool) (hre : ∀ i t n, realloc i t n = true)
    (expv : Option (List Int)) (matv : Option (Nat → ℚ)) (h : Int) :
    ∀ (strv : List CString) (i : Nat) (F : font) (v : List vert) (j : Nat) (I : Nat → ℚ),
      F.h = h → (∀ t, t < 16 → t ≠ 13 → I t = mat_identity t) →
      4 * (j + glyph_total strv) ≤ v.length →
      (line_layout_loop face kern realloc expv matv strv i (F, v, j, I)).2.2.1
        = j + glyph_total strv ∧
      (∀ idx, (idx < 4 * j ∨ 4 * (j + glyph_total strv) ≤ idx) →
        (line_layout_loop face kern realloc expv matv strv i (F, v, j, I)).2.1[idx]? = v[idx]?) ∧
      ∀ (m : Nat) (str : CString), strv[m]? = some str → ∀ q, q < 4 * glyph_count str →
        (line_layout_loop face kern realloc expv matv strv i (F, v, j, I)).2.1[
            4 * (j + glyph_total (strv.take m)) + q]?
          = (layout face kern (realloc (i + m)) (List.replicate (4 * glyph_count str) vert_zero) 0
              str (line_expansion expv (i + m)) (line_matrix matv h (i + m))
              (line_layout_loop face kern realloc expv matv (strv.take m) i (F, v, j, I)).1).2.1[
            q]? := by
  intro strv
  induction strv with
  | nil =>
    intro i F v j I _ _ _
    refine ⟨by simp [line_layout_loop, glyph_total], fun idx _ => rfl, ?_⟩
    intro m str hm
    simp at hm
  | cons s0 rest ih =>
    intro i F v j I hh hI hroom
    rw [glyph_total_cons] at hroom ⊢
    obtain ⟨b1, b2, b3, b4⟩ := layout_block face kern (realloc i) (hre i) v (4 * j) s0
      (line_expansion expv i) (line_matrix matv h i) F
    obtain ⟨b5, b6⟩ := b4 (by omega)
    have hh1 : (layout face kern (realloc i) v (4 * j) s0 (line_expansion expv i)
        (line_matrix matv h i) F).1.h = h := by
      rw [(layout_frame face kern (realloc i) v (4 * j) s0 (line_expansion expv i)
        (line_matrix matv h i) F).2, hh]
    have hI1 : ∀ t, t < 16 → t ≠ 13 →
        Function.update I 13 ((-(i : Int) * F.h : Int) : ℚ) t = mat_identity t := by
      intro t ht h13
      simp [Function.update, h13, hI t ht h13]
    have hcons := line_layout_loop_cons face kern realloc expv matv s0 rest i F v j I h hh hI
    rw [b1] at hcons
    obtain ⟨c1, c2, c3⟩ := ih (i + 1) _ _ (j + glyph_count s0) _ hh1 hI1
      (by rw [b2]; omega)
    rw [hcons]
    refine ⟨by rw [c1]; omega, ?_, ?_⟩
    · intro idx hidx
      rw [c2 idx (by omega), b3 idx (by omega)]
    · intro m str hm q hq
      cases m with
      | zero =>
        simp only [List.getElem?_cons_zero, Option.some.injEq] at hm
        subst hm
        have e0 : 4 * (j + glyph_total (List.take 0 (s0 :: rest))) + q = 4 * j + q := by
          simp [glyph_total]
        rw [e0, c2 (4 * j + q) (Or.inl (by omega)), b6 q hq]
        simp only [List.take_zero, line_layout_loop, Nat.add_zero, b5]
      | succ m =>
        simp only [List.getElem?_cons_succ] at hm
        have e1 : 4 * (j + glyph_total (List.take (m + 1) (s0 :: rest))) + q
            = 4 * (j + glyph_count s0 + glyph_total (List.take m rest)) + q := by
          rw [List.take_succ_cons, glyph_total_cons]
          omega
        have e2 : i + (m + 1) = i + 1 + m := by omega
        have hcons2 := line_layout_loop_cons face kern realloc expv matv s0 (List.take m rest) i
          F v j I h hh hI
        rw [b1] at hcons2
        rw [e1, e2, List.take_succ_cons, hcons2]
        exact c3 m str hm q hq

/-- C31: when every sort lookup succeeds, the vertex array built by
`line_layout` holds the quads of the strings one after the other, in input
order. With `n` the number of characters other than the space in all strings,
the array has `4 * n` vertices; the quads of string `i` start at the vertex
`4 * (number of characters other than the space in the strings 0 to i - 1)`
and are the vertices that `layout` writes for string `i` alone, on an array of
its own, with the expansion `expv[i]` (0 without expansions), the matrix `i`
and the font as the strings before it leave it; `layout` of string `i` returns
its number of characters other than the space and writes exactly that many
quads: every other vertex of whatever array it is given stays as it was. No
vertex is written at an index `≥ 4 * n`: run on a longer array, the loop of
`line_layout` leaves everything from `4 * n` on untouched. -/
theorem C31_line_layout_blocks (face : FT_Face) (kern : FT_Kerning) (heap : allocator)
    (strv : List CString) (expv : Option (List Int)) (matv : Option (Nat → ℚ)) (F : font)
    (hre : ∀ i t n, heap.realloc i t n = true) (hline : heap.calloc_line = true)
    (hvert : heap.calloc_vert ((glyph_total strv : Int) * 4) = true) :
    (∃ L buf, (line_layout face kern heap strv expv matv F).2 = some L ∧ L.v = some buf ∧
      L.n = glyph_total strv ∧ buf.length = 4 * glyph_total strv ∧
      buf = (line_layout_loop face kern heap.realloc expv matv strv 0
        (F, List.replicate (4 * glyph_total strv) vert_zero, 0, mat_identity)).2.1 ∧
      ∀ (i : Nat) (str : CString), strv[i]? = some str → ∀ q, q < 4 * glyph_count str →
        buf[4 * glyph_total (strv.take i) + q]?
          = (layout face kern (heap.realloc i) (List.replicate (4 * glyph_count str) vert_zero) 0
              str (line_expansion expv i) (line_matrix matv F.h i)
              (line_layout_loop face kern heap.realloc expv matv (strv.take i) 0
                (F, List.replicate (4 * glyph_total strv) vert_zero, 0, mat_identity)).1).2.1[
            q]?) ∧
    (∀ (i : Nat) (str : CString) (Fi : font) (w : List vert) (off : Nat), strv[i]? = some str →
      (layout face kern (heap.realloc i) w off str (line_expansion expv i)
        (line_matrix matv F.h i) Fi).2.2 = glyph_count str ∧
      ∀ idx, (idx < off ∨ off + 4 * glyph_count str ≤ idx) →
        (layout face kern (heap.realloc i) w off str (line_expansion expv i)
          (line_matrix matv F.h i) Fi).2.1[idx]? = w[idx]?) ∧
    (∀ (pad : List vert) (idx : Nat), 4 * glyph_total strv ≤ idx →
      (line_layout_loop face kern heap.realloc expv matv strv 0
        (F, List.replicate (4 * glyph_total strv) vert_zero ++ pad, 0, mat_identity)).2.1[idx]?
        = (List.replicate (4 * glyph_total strv) vert_zero ++ pad)[idx]?) := by
  have hcount : line_count strv = (glyph_total strv : Int) := line_count_eq strv
  have hsize : (line_count strv * 4).toNat = 4 * glyph_total strv := by
    rw [hcount]
    omega
  have hI : ∀ t, t < 16 → t ≠ 13 → mat_identity t = mat_identity t := fun _ _ _ => rfl
  refine ⟨?_, ?_, ?_⟩
  · obtain ⟨-, -, c3⟩ := line_layout_loop_blocks face kern heap.realloc hre expv matv F.h strv 0 F
      (List.replicate (4 * glyph_total strv) vert_zero) 0 mat_identity rfl hI (by simp)
    obtain ⟨buf, hbuf⟩ : ∃ buf, buf = (line_layout_loop face kern heap.realloc expv matv strv 0
        (F, List.replicate (4 * glyph_total strv) vert_zero, 0, mat_identity)).2.1 :=
      ⟨_, rfl⟩
    have hlen : buf.length = 4 * glyph_total strv := by
      rw [hbuf, line_layout_loop_length]
      simp
    refine ⟨{ v := some buf, n := line_count strv }, buf, ?_, rfl, hcount, hlen, hbuf, ?_⟩
    · rw [← hcount] at hvert
      simp [line_layout, hline, hvert, hbuf, hsize]
    · intro i str hi q hq
      have := c3 i str hi q hq
      simp only [Nat.zero_add] at this
      rw [hbuf]
      exact this
  · intro i str Fi w off _
    obtain ⟨b1, -, b3, -⟩ := layout_block face kern (heap.realloc i) (hre i) w off str
      (line_expansion expv i) (line_matrix matv F.h i) Fi
    exact ⟨b1, b3⟩
  · intro pad idx hidx
    obtain ⟨-, c2, -⟩ := line_layout_loop_blocks face kern heap.realloc hre expv matv F.h strv 0 F
      (List.replicate (4 * glyph_total strv) vert_zero ++ pad) 0 mat_identity rfl hI (by simp)
    exact c2 idx (Or.inr (by omega))

/-- C31 for the strings `"ab"` and `"c"`: the quads of `"c"` start at the
vertex 8. -/
theorem C31_line_layout_blocks_witness :
    glyph_total [[0x61, 0x62], [0x63]] = 3 ∧ glyph_total ([[0x61, 0x62], [0x63]].take 1) = 2 ∧
    ((∃ L buf, (line_layout face_small kern_none heap_ok [[0x61, 0x62], [0x63]] none none
        (font_fresh 8 2 1 32)).2 = some L ∧ L.v = some buf ∧
      L.n = glyph_total [[0x61, 0x62], [0x63]] ∧
      buf.length = 4 * glyph_total [[0x61, 0x62], [0x63]] ∧
      buf = (line_layout_loop face_small kern_none heap_ok.realloc none none
        [[0x61, 0x62], [0x63]] 0
        (font_fresh 8 2 1 32, List.replicate (4 * glyph_total [[0x61, 0x62], [0x63]]) vert_zero,
          0, mat_identity)).2.1 ∧
      ∀ (i : Nat) (str : CString), [[0x61, 0x62], [0x63]][i]? = some str →
        ∀ q, q < 4 * glyph_count str →
        buf[4 * glyph_total ([[0x61, 0x62], [0x63]].take i) + q]?
          = (layout face_small kern_none (heap_ok.realloc i)
              (List.replicate (4 * glyph_count str) vert_zero) 0
              str (line_expansion none i) (line_matrix none (font_fresh 8 2 1 32).h i)
              (line_layout_loop face_small kern_none heap_ok.realloc none none
                ([[0x61, 0x62], [0x63]].take i) 0
                (font_fresh 8 2 1 32,
                  List.replicate (4 * glyph_total [[0x61, 0x62], [0x63]]) vert_zero, 0,
                  mat_identity)).1).2.1[q]?) ∧
    (∀ (i : Nat) (str : CString) (Fi : font) (w : List vert) (off : Nat),
      [[0x61, 0x62], [0x63]][i]? = some str →
      (layout face_small kern_none (heap_ok.realloc i) w off str (line_expansion none i)
        (line_matrix none (font_fresh 8 2 1 32).h i) Fi).2.2 = glyph_count str ∧
      ∀ idx, (idx < off ∨ off + 4 * glyph_count str ≤ idx) →
        (layout face_small kern_none (heap_ok.realloc i) w off str (line_expansion none i)
          (line_matrix none (font_fresh 8 2 1 32).h i) Fi).2.1[idx]? = w[idx]?) ∧
    (∀ (pad : List vert) (idx : Nat), 4 * glyph_total [[0x61, 0x62], [0x63]] ≤ idx →
      (line_layout_loop face_small kern_none heap_ok.realloc none none [[0x61, 0x62], [0x63]] 0
        (font_fresh 8 2 1 32,
          List.replicate (4 * glyph_total [[0x61, 0x62], [0x63]]) vert_zero ++ pad, 0,
          mat_identity)).2.1[idx]?
        = (List.replicate (4 * glyph_total [[0x61, 0x62], [0x63]]) vert_zero ++ pad)[idx]?)) :=
  ⟨by decide, by decide,
   C31_line_layout_blocks face_small kern_none heap_ok [[0x61, 0x62], [0x63]] none none
    (font_fresh 8 2 1 32) (fun _ _ _ => rfl) rfl rfl⟩

/-! ## The share of the expansion of one space -/

/-- The difference of two successive quotients by `s` is the quotient of the
step, or one more when the step is not a multiple of `s`. -/
theorem ediv_step (A E s : Int) (hs : 1 ≤ s) :
    (A + E) / s - A / s = E / s ∨ ((A + E) / s - A / s = E / s + 1 ∧ E % s ≠ 0) := by
  have hs0 : s ≠ 0 := by omega
  have hA1 := Int.emod_add_ediv A s
  have hE1 := Int.emod_add_ediv E s
  have hA2 := Int.emod_nonneg A hs0
  have hE2 := Int.emod_nonneg E hs0
  have hA3 := Int.emod_lt_of_pos A (show 0 < s by omega)
  have hE3 := Int.emod_lt_of_pos E (show 0 < s by omega)
  have hsum : A + E = (A % s + E % s) + s * (A / s + E / s) := by
    rw [mul_add]
    omega
  rw [hsum, Int.add_mul_ediv_left _ _ hs0]
  by_cases hlt : A % s + E % s < s
  · left
    rw [Int.ediv_eq_zero_of_lt (by omega) hlt]
    omega
  · right
    have h1 : A % s + E % s = (A % s + E % s - s) + s * 1 := by omega
    rw [h1, Int.add_mul_ediv_left _ _ hs0, Int.ediv_eq_zero_of_lt (by omega) (by omega)]
    constructor
    · omega
    · omega

theorem floor_ratio (E s : Int) (hs : 1 ≤ s) : ⌊(E : ℚ) / (s : ℚ)⌋ = E / s := by
  have hs0 : s ≠ 0 := by omega
  have hsq : (0 : ℚ) < (s : ℚ) := by exact_mod_cast (show 0 < s by omega)
  have hE1 := Int.emod_add_ediv E s
  have hE2 := Int.emod_nonneg E hs0
  have hE3 := Int.emod_lt_of_pos E (show 0 < s by omega)
  rw [Int.floor_eq_iff]
  constructor
  · rw [le_div_iff₀ hsq]
    have : E / s * s ≤ E := by nlinarith
    exact_mod_cast this
  · rw [div_lt_iff₀ hsq]
    have : E < (E / s + 1) * s := by nlinarith
    exact_mod_cast this

theorem ceil_ratio (E s : Int) (hs : 1 ≤ s) (hr : E % s ≠ 0) :
    ⌈(E : ℚ) / (s : ℚ)⌉ = E / s + 1 := by
  have hs0 : s ≠ 0 := by omega
  have hsq : (0 : ℚ) < (s : ℚ) := by exact_mod_cast (show 0 < s by omega)
  have hE1 := Int.emod_add_ediv E s
  have hE2 := Int.emod_nonneg E hs0
  have hE3 := Int.emod_lt_of_pos E (show 0 < s by omega)
  rw [Int.ceil_eq_iff]
  constructor
  · rw [lt_div_iff₀ hsq]
    have : (E / s + 1 - 1) * s < E := by
      have : E / s * s < E := by
        have h0 : 0 < E % s := by omega
        nlinarith
      simpa using this
    exact_mod_cast this
  · rw [div_le_iff₀ hsq]
    have : E ≤ (E / s + 1) * s := by nlinarith
    exact_mod_cast this

/-- C32: the expansion is spread evenly. For every expansion `exp ≥ 0` and
every number of spaces `s ≥ 1`, the extra width that `layout` gives to the
space number `e ≥ 0`, `exp * (e + 1) / s - exp * e / s` in the integer division
of C, is `⌊exp / s⌋` or `⌈exp / s⌉`, and it is this value that the body of the
loop adds to `a * k` before the conversion to `int`. For the string `"x y z"`
and the expansion 7 there are two spaces and their shares are 3 and 4: the
second and the third glyph move right by 3 and by 7. -/
theorem C32_even_spread (face : FT_Face) (kern : FT_Kerning) (realloc : Nat → Bool) (off : Nat)
    (mat : Nat → ℚ) (st : layout_state) (exp s : Int) (hexp : 0 ≤ exp) (hs : 1 ≤ s)
    (he : 0 ≤ st.e) :
    (Int.tdiv (exp * (st.e + 1)) s - Int.tdiv (exp * st.e) s = ⌊(exp : ℚ) / (s : ℚ)⌋ ∨
      Int.tdiv (exp * (st.e + 1)) s - Int.tdiv (exp * st.e) s = ⌈(exp : ℚ) / (s : ℚ)⌉) ∧
    (layout_step face kern realloc off s exp mat st 32).x
      = st.x + to_int ((st.F.a : ℚ) * st.F.k
          + ((Int.tdiv (exp * (st.e + 1)) s - Int.tdiv (exp * st.e) s : Int) : ℚ)) ∧
    (layout_count (utf8_codes [0x78, 0x20, 0x79, 0x20, 0x7A])).1 = 2 ∧
    Int.tdiv (7 * (0 + 1)) 2 - Int.tdiv (7 * 0) 2 = 3 ∧
    Int.tdiv (7 * (1 + 1)) 2 - Int.tdiv (7 * 1) 2 = 4 ∧
    (layout_events face_small kern_none realloc_always (List.replicate 12 vert_zero) 0
      [0x78, 0x20, 0x79, 0x20, 0x7A] 0 mat_identity (font_fresh 8 2 1 32)).map
        (fun ev => ev.pen) = [0, 5, 10] ∧
    (layout_events face_small kern_none realloc_always (List.replicate 12 vert_zero) 0
      [0x78, 0x20, 0x79, 0x20, 0x7A] 7 mat_identity (font_fresh 8 2 1 32)).map
        (fun ev => ev.pen) = [0, 8, 17] := by
  refine ⟨?_, ?_, by decide, by decide, by decide, by decide!, by decide!⟩
  · have h1 : 0 ≤ exp * st.e := mul_nonneg hexp he
    have h2 : 0 ≤ exp * (st.e + 1) := mul_nonneg hexp (by omega)
    rw [Int.tdiv_eq_ediv h2 (by omega), Int.tdiv_eq_ediv h1 (by omega), floor_ratio exp s hs]
    have hstep : exp * (st.e + 1) = exp * st.e + exp := by ring
    rw [hstep]
    rcases ediv_step (exp * st.e) exp s hs with h | ⟨h, hr⟩
    · left
      exact h
    · right
      rw [ceil_ratio exp s hs hr]
      exact h
  · rw [layout_step_space]
    simp only [Int.cast_sub, add_sub_assoc]

/-- C32 for the expansion 7 over two spaces, at the second space. -/
theorem C32_even_spread_witness :
    Int.tdiv (7 * ((1 : Int) + 1)) 2 - Int.tdiv (7 * (1 : Int)) 2 = 4 ∧
    (Int.tdiv (7 * (({ layout_start with e := 1 } : layout_state).e + 1)) 2
        - Int.tdiv (7 * ({ layout_start with e := 1 } : layout_state).e) 2
          = ⌊((7 : Int) : ℚ) / ((2 : Int) : ℚ)⌋ ∨
      Int.tdiv (7 * (({ layout_start with e := 1 } : layout_state).e + 1)) 2
        - Int.tdiv (7 * ({ layout_start with e := 1 } : layout_state).e) 2
          = ⌈((7 : Int) : ℚ) / ((2 : Int) : ℚ)⌉) :=
  ⟨by decide,
   (C32_even_spread face_small kern_none realloc_ok 0 mat_identity
      { layout_start with e := 1 } 7 2 (by decide) (by decide) (by decide)).1⟩

/-! ## Strings without a space -/

theorem layout_step_no_exp (face : FT_Face) (kern : FT_Kerning) (realloc : Nat → Bool)
    (off : Nat) (s exp : Int) (mat : Nat → ℚ) (st : layout_state) (c : Nat) (hc : c ≠ 32) :
    layout_step face kern realloc off s exp mat st c
      = layout_step face kern realloc off s 0 mat st c := by
  simp only [layout_step, if_neg hc]

/-- Without a space among the codes the loop of `layout` never enters the
branch of the division, and the expansion has no effect on it. -/
theorem layout_loop_no_space_exp (face : FT_Face) (kern : FT_Kerning)
    (realloc : Nat → Nat → Bool) (off : Nat) (s exp : Int) (mat : Nat → ℚ) :
    ∀ (codes : List Nat) (t : Nat) (st : layout_state), 32 ∉ codes →
      layout_loop face kern realloc off s exp mat codes t st
        = layout_loop face kern realloc off s 0 mat codes t st ∧
      layout_loop_checked face kern realloc off s exp mat codes t st
        = some (layout_loop face kern realloc off s exp mat codes t st) ∧
      layout_trace face kern realloc off s exp mat codes t st
        = layout_trace face kern realloc off s 0 mat codes t st := by
  intro codes
  induction codes with
  | nil =>
    intro t st _
    exact ⟨rfl, rfl, rfl⟩
  | cons c cs ih =>
    intro t st h
    have hc : c ≠ 32 := fun e => h (by simp [e])
    have hcs : 32 ∉ cs := fun e => h (by simp [e])
    have hstep := layout_step_no_exp face kern (realloc t) off s exp mat st c hc
    obtain ⟨h1, h2, h3⟩ := ih (t + 1) (layout_step face kern (realloc t) off s 0 mat st c) hcs
    obtain ⟨-, h2e, -⟩ := ih (t + 1) (layout_step face kern (realloc t) off s exp mat st c) hcs
    refine ⟨?_, ?_, ?_⟩
    · simp only [layout_loop, hstep, h1]
    · simp only [layout_loop_checked, layout_step_checked, if_neg hc, layout_loop, h2e]
    · simp only [layout_trace, hstep, h3]

/-- The division of `layout` is never a division by zero: the branch of the
space is taken only when the first loop has counted a space. -/
theorem layout_loop_checked_total (face : FT_Face) (kern : FT_Kerning)
    (realloc : Nat → Nat → Bool) (off : Nat) (s exp : Int) (mat : Nat → ℚ) :
    ∀ (codes : List Nat) (t : Nat) (st : layout_state), (32 ∈ codes → s ≠ 0) →
      layout_loop_checked face kern realloc off s exp mat codes t st
        = some (layout_loop face kern realloc off s exp mat codes t st) := by
  intro codes
  induction codes with
  | nil =>
    intro t st _
    rfl
  | cons c cs ih =>
    intro t st h
    have hcs : 32 ∈ cs → s ≠ 0 := fun e => h (by simp [e])
    by_cases hc : c = 32
    · have hs : s ≠ 0 := h (by simp [hc])
      simp only [layout_loop_checked, layout_step_checked, if_pos hc, if_neg hs, layout_loop]
      exact ih (t + 1) _ hcs
    · simp only [layout_loop_checked, layout_step_checked, if_neg hc, layout_loop]
      exact ih (t + 1) _ hcs

/-- C33: for every string that contains no space, the count of spaces is 0 and
`layout` never evaluates the division by it (the run with the division checked
succeeds, and it would fail at the first division, which would be by zero),
and its result is the same for every expansion: the font, the quads written,
the glyph count, the final pen and the calls of `line_set` are those of the
run with the expansion 0. -/
theorem C33_no_space_no_division (face : FT_Face) (kern : FT_Kerning)
    (realloc : Nat → Nat → Bool) (v : List vert) (off : Nat) (str : CString) (exp : Int)
    (mat : Nat → ℚ) (F : font) (hsp : 32 ∉ utf8_codes str) :
    (layout_count (utf8_codes str)).1 = 0 ∧
    layout_run_checked face kern realloc v off str exp mat F
      = some (layout_run face kern realloc v off str exp mat F) ∧
    layout_run face kern realloc v off str exp mat F
      = layout_run face kern realloc v off str 0 mat F ∧
    layout face kern realloc v off str exp mat F = layout face kern realloc v off str 0 mat F ∧
    (layout_run face kern realloc v off str exp mat F).x
      = (layout_run face kern realloc v off str 0 mat F).x ∧
    layout_events face kern realloc v off str exp mat F
      = layout_events face kern realloc v off str 0 mat F := by
  obtain ⟨h1, h2, h3⟩ := layout_loop_no_space_exp face kern realloc off
    (layout_count (utf8_codes str)).1 exp mat (utf8_codes str) 0
    { F := F, v := v, x := 0, e := 0, i := 0, l := 0 } hsp
  have hrun : layout_run face kern realloc v off str exp mat F
      = layout_run face kern realloc v off str 0 mat F := h1
  refine ⟨?_, h2, hrun, ?_, ?_, h3⟩
  · rw [layout_count_spaces, List.count_eq_zero_of_not_mem hsp]
    rfl
  · simp only [layout, hrun]
  · rw [hrun]

/-- C33 for the string `"ab"` and the expansion 7. -/
theorem C33_no_space_no_division_witness :
    utf8_codes [0x61, 0x62] = [97, 98] ∧
    (layout_count (utf8_codes [0x61, 0x62])).1 = 0 ∧
    layout_run_checked face_small kern_none realloc_always (List.replicate 8 vert_zero) 0
        [0x61, 0x62] 7 mat_identity (font_fresh 8 2 1 32)
      = some (layout_run face_small kern_none realloc_always (List.replicate 8 vert_zero) 0
          [0x61, 0x62] 7 mat_identity (font_fresh 8 2 1 32)) ∧
    layout_run face_small kern_none realloc_always (List.replicate 8 vert_zero) 0
        [0x61, 0x62] 7 mat_identity (font_fresh 8 2 1 32)
      = layout_run face_small kern_none realloc_always (List.replicate 8 vert_zero) 0
          [0x61, 0x62] 0 mat_identity (font_fresh 8 2 1 32) ∧
    layout face_small kern_none realloc_always (List.replicate 8 vert_zero) 0
        [0x61, 0x62] 7 mat_identity (font_fresh 8 2 1 32)
      = layout face_small kern_none realloc_always (List.replicate 8 vert_zero) 0
          [0x61, 0x62] 0 mat_identity (font_fresh 8 2 1 32) ∧
    (layout_run face_small kern_none realloc_always (List.replicate 8 vert_zero) 0
        [0x61, 0x62] 7 mat_identity (font_fresh 8 2 1 32)).x
      = (layout_run face_small kern_none realloc_always (List.replicate 8 vert_zero) 0
          [0x61, 0x62] 0 mat_identity (font_fresh 8 2 1 32)).x ∧
    layout_events face_small kern_none realloc_always (List.replicate 8 vert_zero) 0
        [0x61, 0x62] 7 mat_identity (font_fresh 8 2 1 32)
      = layout_events face_small kern_none realloc_always (List.replicate 8 vert_zero) 0
          [0x61, 0x62] 0 mat_identity (font_fresh 8 2 1 32) :=
  ⟨by decide,
   C33_no_space_no_division face_small kern_none realloc_always (List.replicate 8 vert_zero) 0
    [0x61, 0x62] 7 mat_identity (font_fresh 8 2 1 32) (by decide)⟩

/-! ## The pen after a glyph -/

/-- C34 (counterexample): the string `"ab"` set with the letter-space factor
`1/2`, glyphs of advance 3 and a kerning of 4 pixels to the left between `a`
and `b`. The glyph `b` is set at the pen `1 - 4 = -3`; the pen after it is
`(int) (-3 + 3/2) = -1`, not `-3 + ⌊3/2⌋ = -2`. -/
theorem C34_pen_truncates :
    utf8_codes [0x61, 0x62] = [97, 98] ∧
    (layout_events face_small kern_tight realloc_always (List.replicate 8 vert_zero) 0
      [0x61, 0x62] 0 mat_identity (font_fresh 8 2 (1 / 2) 32)).map
        (fun ev => (ev.pen, ev.S.a)) = [(0, 3), (-3, 3)] ∧
    (layout_run face_small kern_tight realloc_always (List.replicate 8 vert_zero) 0
      [0x61, 0x62] 0 mat_identity (font_fresh 8 2 (1 / 2) 32)).x = -1 ∧
    -3 + ⌊((3 : Int) : ℚ) * (1 / 2)⌋ = -2 := by
  refine ⟨?_, ?_, ?_, ?_⟩ <;> decide!

/-- C34 (amended): for every character other than the space whose lookup
gives the sort `S`, every pen `x`, every kerning offset `kx` in 26.6 units and
every letter-space factor `k`, `layout` sets the quad at the pen
`x + (kx >> 6)` (the four vertices at `4 * i`, when the array has room for
them) and the pen after the glyph is `(int) (x + (kx >> 6) + S.a * k)`, the sum
truncated toward zero. This is `x + (kx >> 6) + ⌊S.a * k⌋` when the sum is not
negative, and `x + (kx >> 6) + ⌈S.a * k⌉` when it is negative. -/
theorem C34_pen_after_glyph (face : FT_Face) (kern : FT_Kerning) (realloc : Nat → Bool)
    (off : Nat) (s exp : Int) (mat : Nat → ℚ) (st : layout_state) (c : Nat) (S : sort)
    (pen : Int) (k : ℚ) (hc : c ≠ 32)
    (hS : (font_sort_lookup face realloc st.F (c : Int)).2 = some S)
    (hpen : pen = st.x + kern.kerning_x st.l (kern.char_index (c : Int)) >>> (6 : Nat))
    (hk : k = st.F.k) :
    layout_event face kern realloc st c = some { pen := pen, e := st.e, S := S } ∧
    (∀ n, n < 4 → off + 4 * st.i + 3 < st.v.length →
      (layout_step face kern realloc off s exp mat st c).v[off + 4 * st.i + n]?
        = some (line_quad S st.F.s pen mat n)) ∧
    (layout_step face kern realloc off s exp mat st c).i = st.i + 1 ∧
    (layout_step face kern realloc off s exp mat st c).x
      = to_int ((pen : ℚ) + (S.a : ℚ) * k) ∧
    (0 ≤ (pen : ℚ) + (S.a : ℚ) * k →
      (layout_step face kern realloc off s exp mat st c).x = pen + ⌊(S.a : ℚ) * k⌋) ∧
    ((pen : ℚ) + (S.a : ℚ) * k < 0 →
      (layout_step face kern realloc off s exp mat st c).x = pen + ⌈(S.a : ℚ) * k⌉) := by
  obtain ⟨hFs, -, -, hFk⟩ := font_sort_lookup_frame face realloc st.F (c : Int)
  have hx : (layout_step face kern realloc off s exp mat st c).x
      = to_int ((pen : ℚ) + (S.a : ℚ) * k) := by
    rw [layout_step_glyph face kern realloc off s exp mat st c S hc hS]
    simp only [line_set_pen, hFk, hpen, hk]
  refine ⟨?_, ?_, ?_, hx, ?_, ?_⟩
  · rw [layout_event_glyph face kern realloc st c S hc hS, hpen]
  · intro n hn hroom
    rw [layout_step_glyph face kern realloc off s exp mat st c S hc hS]
    simp only [line_set_getElem?_quad, hFs, ← hpen]
    rw [if_pos (by omega), if_pos (by omega)]
    congr 2
    omega
  · rw [layout_step_glyph face kern realloc off s exp mat st c S hc hS]
  · intro h0
    rw [hx, to_int, if_pos h0, Int.floor_int_add]
  · intro h0
    rw [hx, to_int, if_neg (not_le.mpr h0), add_comm, Int.ceil_add_int, add_comm]

/-- C34 (amended) at the glyph `b` of the counterexample: the pen is `-3`, the
sum `-3 + 3/2` is negative and the pen after the glyph is `-1`. -/
theorem C34_pen_after_glyph_witness :
    (layout_step face_small kern_tight realloc_ok 0 0 0 mat_identity
      { F := font_fresh 8 2 (1 / 2) 32, v := List.replicate 4 vert_zero, x := 1, e := 0, i := 0,
        l := 97 } 98).x = -1 ∧
    ((layout_step face_small kern_tight realloc_ok 0 0 0 mat_identity
      { F := font_fresh 8 2 (1 / 2) 32, v := List.replicate 4 vert_zero, x := 1, e := 0, i := 0,
        l := 97 } 98).x
      = to_int (((-3 : Int) : ℚ)
          + ((sort_placed face_small (font_fresh 8 2 (1 / 2) 32) 98).a : ℚ) * (1 / 2)) ∧
    (0 ≤ ((-3 : Int) : ℚ)
        + ((sort_placed face_small (font_fresh 8 2 (1 / 2) 32) 98).a : ℚ) * (1 / 2) →
      (layout_step face_small kern_tight realloc_ok 0 0 0 mat_identity
        { F := font_fresh 8 2 (1 / 2) 32, v := List.replicate 4 vert_zero, x := 1, e := 0, i := 0,
          l := 97 } 98).x
        = -3 + ⌊((sort_placed face_small (font_fresh 8 2 (1 / 2) 32) 98).a : ℚ) * (1 / 2)⌋) ∧
    (((-3 : Int) : ℚ)
        + ((sort_placed face_small (font_fresh 8 2 (1 / 2) 32) 98).a : ℚ) * (1 / 2) < 0 →
      (layout_step face_small kern_tight realloc_ok 0 0 0 mat_identity
        { F := font_fresh 8 2 (1 / 2) 32, v := List.replicate 4 vert_zero, x := 1, e := 0, i := 0,
          l := 97 } 98).x
        = -3 + ⌈((sort_placed face_small (font_fresh 8 2 (1 / 2) 32) 98).a : ℚ) * (1 / 2)⌉)) :=
  ⟨by decide!,
   (C34_pen_after_glyph face_small kern_tight realloc_ok 0 0 0 mat_identity
      { F := font_fresh 8 2 (1 / 2) 32, v := List.replicate 4 vert_zero, x := 1, e := 0, i := 0,
        l := 97 } 98 (sort_placed face_small (font_fresh 8 2 (1 / 2) 32) 98) (-3) (1 / 2)
      (by decide) (by decide!) (by decide) rfl).2.2.2⟩

/-! ## The decoder on well-formed strings -/

theorem peek_append_left (l rest : CString) (q : Nat) (h : q < l.length) :
    peek (l ++ rest) q = peek l q := by
  unfold peek
  rw [List.getD_append _ _ _ _ h]

theorem peek_append_right (pre l : CString) (q : Nat) :
    peek (pre ++ l) (pre.length + q) = peek l q := by
  unfold peek
  rw [List.getD_append_right _ _ _ _ (by omega)]
  simp

/-- A call of `utf8` that stays inside a prefix of the string does not depend
on what follows the prefix. -/
theorem utf8_append_left (l rest : CString) (p : Nat) (hlead : p < l.length)
    (h : (utf8 l p).2 ≤ l.length) : utf8 (l ++ rest) p = utf8 l p := by
  have e0 := peek_append_left l rest p hlead
  unfold utf8 at h ⊢
  rw [e0]
  split_ifs at h ⊢ with h1 h2 h3 h4
  · rfl
  · simp only at h
    rw [peek_append_left l rest (p + 1) (by omega)]
  · simp only at h
    rw [peek_append_left l rest (p + 1) (by omega), peek_append_left l rest (p + 2) (by omega)]
  · simp only at h
    rw [peek_append_left l rest (p + 1) (by omega), peek_append_left l rest (p + 2) (by omega),
      peek_append_left l rest (p + 3) (by omega)]
  · rfl

/-- A call of `utf8` behind a prefix is the call on the rest of the string,
with the cursor shifted by the length of the prefix. -/
theorem utf8_append_right (pre l : CString) (p : Nat) :
    utf8 (pre ++ l) (pre.length + p) = ((utf8 l p).1, pre.length + (utf8 l p).2) := by
  have e0 := peek_append_right pre l p
  have e1 : peek (pre ++ l) (pre.length + p + 1) = peek l (p + 1) := peek_append_right pre l (p + 1)
  have e2 : peek (pre ++ l) (pre.length + p + 2) = peek l (p + 2) := peek_append_right pre l (p + 2)
  have e3 : peek (pre ++ l) (pre.length + p + 3) = peek l (p + 3) := peek_append_right pre l (p + 3)
  unfold utf8
  rw [e0, e1, e2, e3]
  split_ifs <;> simp only [Prod.mk.injEq, true_and] <;> omega

theorem utf8_codes_from_append_right (pre l : CString) :
    ∀ (fuel p : Nat),
      utf8_codes_from (pre ++ l) fuel (pre.length + p) = utf8_codes_from l fuel p := by
  intro fuel
  induction fuel with
  | zero =>
    intro p
    rfl
  | succ fuel ih =>
    intro p
    simp only [utf8_codes_from, utf8_append_right, ih]

theorem utf8_stop_from_append_right (pre l : CString) :
    ∀ (fuel p : Nat),
      utf8_stop_from (pre ++ l) fuel (pre.length + p) = pre.length + utf8_stop_from l fuel p := by
  intro fuel
  induction fuel with
  | zero =>
    intro p
    rfl
  | succ fuel ih =>
    intro p
    simp only [utf8_stop_from, utf8_append_right, ih]
    split_ifs <;> rfl

set_option maxRecDepth 1000000 in
/-- The second and third payloads of a four-byte sequence as the decoder
combines them are at least the contribution of the second. -/
theorem four_byte_middle_ge : ∀ y, y < 64 → ∀ z, z < 64 →
    4096 * y ≤ (y <<< 12) ||| (z <<< 8) := by
  decide

/-- The decoder on the standard encoding of a value up to `0x10FFFF`: it
consumes the whole encoding, which has at least one byte, and the result is
not 0 unless the value is 0. -/
theorem utf8_encode_decode (c : Nat) (hc : c ≤ 0x10FFFF) :
    (utf8 (utf8_encode c) 0).2 = (utf8_encode c).length ∧ 1 ≤ (utf8_encode c).length ∧
      (c ≠ 0 → utf8_value c ≠ 0) := by
  unfold utf8_value utf8_encode
  by_cases h1 : c < 0x80
  · rw [if_pos h1]
    have e0 : peek [Fin.ofNat c] 0 = c := by
      rw [peek_zero, byte_val _ (by omega)]
    unfold utf8
    simp only [e0, lead_one c h1, if_true, List.length_singleton, zero_add, le_refl, true_and]
    exact fun h => h
  · rw [if_neg h1]
    by_cases h2 : c < 0x800
    · rw [if_pos h2, utf8_two (c / 0x40) (c % 0x40) (by omega) (by omega)]
      simp only [List.length_cons, List.length_nil]
      refine ⟨trivial, by omega, fun _ => ?_⟩
      omega
    · rw [if_neg h2]
      by_cases h3 : c < 0x10000
      · rw [if_pos h3,
          utf8_three (c / 0x1000) (c / 0x40 % 0x40) (c % 0x40) (by omega) (by omega) (by omega)]
        simp only [List.length_cons, List.length_nil]
        refine ⟨trivial, by omega, fun _ => ?_⟩
        omega
      · rw [if_neg h3, utf8_four (c / 0x40000) (c / 0x1000 % 0x40) (c / 0x40 % 0x40) (c % 0x40)
          (by omega) (by omega) (by omega) (by omega)]
        have hge := four_byte_middle_ge (c / 0x1000 % 0x40) (by omega) (c / 0x40 % 0x40) (by omega)
        simp only [List.length_cons, List.length_nil]
        refine ⟨trivial, by omega, fun _ => ?_⟩
        omega

/-- The decoder at the head of a string that starts with the standard encoding
of `c`. -/
theorem utf8_encode_head (c : Nat) (hc : c ≤ 0x10FFFF) (rest : CString) :
    utf8 (utf8_encode c ++ rest) 0 = (utf8_value c, (utf8_encode c).length) := by
  obtain ⟨h1, h2, -⟩ := utf8_encode_decode c hc
  rw [utf8_append_left _ _ 0 (by omega) (by omega)]
  exact Prod.ext rfl h1

theorem utf8_encode_all_length (cs : List Nat) (h : ∀ c ∈ cs, c ≤ 0x10FFFF) :
    cs.length ≤ (utf8_encode_all cs).length := by
  induction cs with
  | nil => simp [utf8_encode_all]
  | cons c cs ih =>
    obtain ⟨-, h2, -⟩ := utf8_encode_decode c (h c (by simp))
    have := ih (fun d hd => h d (by simp [hd]))
    simp only [utf8_encode_all, List.length_append, List.length_cons]
    omega

/-- The loop over a string that starts with the encodings of the non-zero
scalar values `cs`: one call of `utf8` per scalar value, then the loop over the
rest of the string. -/
theorem utf8_codes_from_encode_all (rest : CString) :
    ∀ (cs : List Nat) (fuel : Nat), (∀ c ∈ cs, c ≠ 0 ∧ c ≤ 0x10FFFF) →
      utf8_codes_from (utf8_encode_all cs ++ rest) (cs.length + fuel) 0
        = cs.map utf8_value ++ utf8_codes_from rest fuel 0 ∧
      utf8_stop_from (utf8_encode_all cs ++ rest) (cs.length + fuel) 0
        = (utf8_encode_all cs).length + utf8_stop_from rest fuel 0 := by
  intro cs
  induction cs with
  | nil =>
    intro fuel _
    simp [utf8_encode_all]
  | cons c cs ih =>
    intro fuel h
    obtain ⟨hc0, hc1⟩ := h c (by simp)
    obtain ⟨-, -, hv⟩ := utf8_encode_decode c hc1
    obtain ⟨ih1, ih2⟩ := ih fuel (fun d hd => h d (by simp [hd]))
    have hfuel : (c :: cs).length + fuel = (cs.length + fuel) + 1 := by
      simp only [List.length_cons]
      omega
    have hhead := utf8_encode_head c hc1 (utf8_encode_all cs ++ rest)
    have hshift := utf8_codes_from_append_right (utf8_encode c) (utf8_encode_all cs ++ rest)
      (cs.length + fuel) 0
    have hshift2 := utf8_stop_from_append_right (utf8_encode c) (utf8_encode_all cs ++ rest)
      (cs.length + fuel) 0
    rw [Nat.add_zero] at hshift hshift2
    constructor
    · rw [hfuel, utf8_encode_all, List.append_assoc, utf8_codes_from, hhead]
      simp only [if_neg (hv hc0), hshift, ih1, List.map_cons, List.cons_append]
    · rw [hfuel, utf8_encode_all, List.append_assoc, utf8_stop_from, hhead]
      simp only [if_neg (hv hc0), hshift2, ih2, List.length_append]
      omega

/-- The codes of a well-formed string followed by any string. -/
theorem utf8_codes_encode_all (cs : List Nat) (rest : CString)
    (h : ∀ c ∈ cs, c ≠ 0 ∧ c ≤ 0x10FFFF) :
    utf8_codes (utf8_encode_all cs ++ rest) = cs.map utf8_value ++ utf8_codes rest := by
  have hlen := utf8_encode_all_length cs (fun c hc => (h c hc).2)
  obtain ⟨h1, -⟩ := utf8_codes_from_encode_all rest cs
    (rest.length + 1 + ((utf8_encode_all cs).length - cs.length)) h
  have hfuel : (utf8_encode_all cs ++ rest).length + 1
      = cs.length + (rest.length + 1 + ((utf8_encode_all cs).length - cs.length)) := by
    rw [List.length_append]
    omega
  unfold utf8_codes
  rw [hfuel, h1, utf8_codes_fuel rest]
  rfl

/-- The cursor after the loop does not depend on the fuel once the loop has
enough of it. -/
theorem utf8_stop_from_fuel (str : CString) :
    ∀ (fuel p : Nat), str.length ≤ fuel + p →
      utf8_stop_from str (fuel + 2) p = utf8_stop_from str (fuel + 1) p := by
  intro fuel
  induction fuel with
  | zero =>
    intro p hp
    have h0 := utf8_at_end str p (by omega)
    simp [utf8_stop_from, h0]
  | succ fuel ih =>
    intro p hp
    rw [utf8_stop_from]
    conv_rhs => rw [utf8_stop_from]
    by_cases h0 : (utf8 str p).1 = 0
    · simp [h0]
    · have := utf8_advance str p h0
      simp only [h0, if_false]
      exact ih _ (by omega)

theorem utf8_stop_fuel (str : CString) (extra : Nat) :
    utf8_stop_from str (str.length + 1 + extra) 0 = utf8_stop str := by
  induction extra with
  | zero => rfl
  | succ n ih =>
    have := utf8_stop_from_fuel str (str.length + n) 0 (by omega)
    have e1 : str.length + 1 + (n + 1) = str.length + n + 2 := by omega
    have e2 : str.length + 1 + n = str.length + n + 1 := by omega
    rw [e1, this, ← e2, ih]

/-- The cursor after the loop over a well-formed string followed by any
string. -/
theorem utf8_stop_encode_all (cs : List Nat) (rest : CString)
    (h : ∀ c ∈ cs, c ≠ 0 ∧ c ≤ 0x10FFFF) :
    utf8_stop (utf8_encode_all cs ++ rest) = (utf8_encode_all cs).length + utf8_stop rest := by
  have hlen := utf8_encode_all_length cs (fun c hc => (h c hc).2)
  obtain ⟨-, h2⟩ := utf8_codes_from_encode_all rest cs
    (rest.length + 1 + ((utf8_encode_all cs).length - cs.length)) h
  have hfuel : (utf8_encode_all cs ++ rest).length + 1
      = cs.length + (rest.length + 1 + ((utf8_encode_all cs).length - cs.length)) := by
    rw [List.length_append]
    omega
  unfold utf8_stop
  rw [hfuel, h2, utf8_stop_fuel rest]
  rfl

/-- A call of `utf8` on a lead byte `10xxxxxx` or `11111xxx` returns 0 and
leaves the cursor; on a NUL it returns 0 and advances by one. -/
theorem utf8_zero_cases (str : CString) (p : Nat) :
    ((peek str p &&& 0xC0 = 0x80 ∨ peek str p &&& 0xF8 = 0xF8) → utf8 str p = (0, p)) ∧
    (peek str p = 0 → utf8 str p = (0, p + 1)) := by
  constructor
  · intro h
    obtain ⟨h1, h2, h3, h4⟩ := (peek_classes str p).2.2.2.1 h
    simp [utf8, h1, h2, h3, h4]
  · intro h
    simp [utf8, h]

/-- The loop over a string whose first byte makes `utf8` return 0. -/
theorem utf8_codes_stop_head (b : Fin 256) (rest : CString)
    (hb : b.val = 0 ∨ b.val &&& 0xC0 = 0x80 ∨ b.val &&& 0xF8 = 0xF8) :
    utf8_codes (b :: rest) = [] ∧
      utf8_stop (b :: rest) = if b.val = 0 then 1 else 0 := by
  have hp : peek (b :: rest) 0 = b.val := rfl
  obtain ⟨h1, h2⟩ := utf8_zero_cases (b :: rest) 0
  rw [hp] at h1 h2
  unfold utf8_codes utf8_stop
  simp only [List.length_cons, utf8_codes_from, utf8_stop_from]
  by_cases h0 : b.val = 0
  · rw [h2 h0]
    simp [h0]
  · rw [h1 (by tauto)]
    simp [h0]

theorem layout_count_fold (codes : List Nat) :
    ∀ sn : Int × Int,
      codes.foldl (fun sn c => if c = 32 then (sn.1 + 1, sn.2) else (sn.1, sn.2 + 1)) sn
        = (sn.1 + (codes.count 32 : Nat),
           sn.2 + ((codes.filter (fun c => c ≠ 32)).length : Nat)) := by
  induction codes with
  | nil =>
    intro sn
    simp
  | cons c cs ih =>
    intro sn
    rw [List.foldl_cons, ih]
    by_cases hc : c = 32
    · simp [hc]
      ring
    · simp [hc, List.count_cons]
      ring

/-- The first loop of `layout` counts every code once: the spaces and the
other characters. -/
theorem layout_count_total (codes : List Nat) :
    (layout_count codes).1 + (layout_count codes).2 = (codes.length : Nat) ∧
      (layout_count codes).2 = ((codes.filter (fun c => c ≠ 32)).length : Nat) := by
  unfold layout_count
  rw [layout_count_fold]
  simp only [zero_add, and_true]
  have h3 : codes.length = codes.count 32 + (codes.filter (fun c => c ≠ 32)).length := by
    induction codes with
    | nil => simp
    | cons c cs ih =>
      simp only [ne_eq, decide_not] at ih ⊢
      by_cases hc : c = 32
      · simp [hc]
        omega
      · simp [hc, List.count_cons]
        omega
  rw [h3]
  push_cast
  ring

/-- C35: on a lead byte `10xxxxxx` or `11111xxx` `utf8` returns 0 and leaves
the cursor where it is; on a NUL it returns 0 and advances the cursor by one.
A loop `for (p = str; (c = utf8(&p));)` that reaches such a byte stops there:
it hands no further code to its body. For a string that consists of the
encodings of non-zero scalar values, then such a byte, then anything, the
codes are those of the scalar values and the rest of the string is ignored;
the cursor ends on the byte, or after it when the byte is the NUL. The bytes
`41 80 42` and `41 FF 42` give the single code `0x41`. -/
theorem C35_decoder_stops (str : CString) (p : Nat) :
    ((peek str p &&& 0xC0 = 0x80 ∨ peek str p &&& 0xF8 = 0xF8) → utf8 str p = (0, p)) ∧
    (peek str p = 0 → utf8 str p = (0, p + 1)) ∧
    ((utf8 str p).1 = 0 → ∀ fuel,
      utf8_codes_from str fuel p = [] ∧ utf8_stop_from str (fuel + 1) p = (utf8 str p).2) ∧
    (∀ (cs : List Nat) (b : Fin 256) (rest : CString), (∀ c ∈ cs, c ≠ 0 ∧ c ≤ 0x10FFFF) →
      (b.val = 0 ∨ b.val &&& 0xC0 = 0x80 ∨ b.val &&& 0xF8 = 0xF8) →
      utf8_codes (utf8_encode_all cs ++ b :: rest) = cs.map utf8_value ∧
      utf8_stop (utf8_encode_all cs ++ b :: rest)
        = (utf8_encode_all cs).length + (if b.val = 0 then 1 else 0)) ∧
    utf8_codes [0x41, 0x80, 0x42] = [0x41] ∧ utf8_stop [0x41, 0x80, 0x42] = 1 ∧
    utf8_codes [0x41, 0xFF, 0x42] = [0x41] ∧ utf8_stop [0x41, 0xFF, 0x42] = 1 ∧
    utf8_codes [0x41, 0x00, 0x42] = [0x41] ∧ utf8_stop [0x41, 0x00, 0x42] = 2 := by
  refine ⟨(utf8_zero_cases str p).1, (utf8_zero_cases str p).2, ?_, ?_,
    by decide, by decide, by decide, by decide, by decide, by decide⟩
  · intro h fuel
    constructor
    · cases fuel with
      | zero => rfl
      | succ n => simp [utf8_codes_from, h]
    · simp [utf8_stop_from, h]
  · intro cs b rest hcs hb
    obtain ⟨h1, h2⟩ := utf8_codes_stop_head b rest hb
    rw [utf8_codes_encode_all cs (b :: rest) hcs, utf8_stop_encode_all cs (b :: rest) hcs, h1, h2]
    simp

/-- C36: for every finite sequence `cs` of non-zero scalar values up to
`0x10FFFF` (four-byte scalar values included, surrogates not used), the loop
over the concatenation of their standard encodings followed by a NUL, and by
anything after the NUL, hands exactly one non-zero code per scalar value to
its body, namely the value that `utf8` gives for its encoding; the call at the
NUL returns 0 and the cursor stops right after the NUL, whatever follows it.
The first loop of `layout` counts `cs.length` codes in all, and the counting
loop of `line_layout` counts the same characters other than the space. -/
theorem C36_decoder_count (cs : List Nat) (rest : CString)
    (h : ∀ c ∈ cs, c ≠ 0 ∧ c ≤ 0x10FFFF) :
    utf8_codes (utf8_encode_all cs ++ 0 :: rest) = cs.map utf8_value ∧
    (utf8_codes (utf8_encode_all cs ++ 0 :: rest)).length = cs.length ∧
    (∀ c ∈ utf8_codes (utf8_encode_all cs ++ 0 :: rest), c ≠ 0) ∧
    utf8 (utf8_encode_all cs ++ 0 :: rest) (utf8_encode_all cs).length
      = (0, (utf8_encode_all cs).length + 1) ∧
    utf8_stop (utf8_encode_all cs ++ 0 :: rest) = (utf8_encode_all cs).length + 1 ∧
    (layout_count (utf8_codes (utf8_encode_all cs ++ 0 :: rest))).1
      + (layout_count (utf8_codes (utf8_encode_all cs ++ 0 :: rest))).2 = (cs.length : Nat) ∧
    line_count [utf8_encode_all cs ++ 0 :: rest]
      = (layout_count (utf8_codes (utf8_encode_all cs ++ 0 :: rest))).2 := by
  obtain ⟨h1, h2⟩ := utf8_codes_stop_head 0 rest (Or.inl rfl)
  have hcodes : utf8_codes (utf8_encode_all cs ++ 0 :: rest) = cs.map utf8_value := by
    rw [utf8_codes_encode_all cs (0 :: rest) h, h1, List.append_nil]
  have hlen : (utf8_codes (utf8_encode_all cs ++ 0 :: rest)).length = cs.length := by
    rw [hcodes, List.length_map]
  refine ⟨hcodes, hlen, ?_, ?_, ?_, ?_, ?_⟩
  · intro c hc
    rw [hcodes, List.mem_map] at hc
    obtain ⟨d, hd, rfl⟩ := hc
    exact (utf8_encode_decode d (h d hd).2).2.2 (h d hd).1
  · have := utf8_append_right (utf8_encode_all cs) (0 :: rest) 0
    rw [Nat.add_zero] at this
    rw [this, (utf8_zero_cases (0 :: rest) 0).2 rfl]
  · rw [utf8_stop_encode_all cs (0 :: rest) h, h2]
    rfl
  · rw [(layout_count_total _).1, hlen]
  · rw [line_count_eq, (layout_count_total _).2]
    simp

/-- C36 for the scalar values U+0041, U+00E9, U+20AC and U+10040, with the
byte `42` after the NUL. -/
theorem C36_decoder_count_witness :
    utf8_encode_all [0x41, 0xE9, 0x20AC, 0x10040]
      = [0x41, 0xC3, 0xA9, 0xE2, 0x82, 0xAC, 0xF0, 0x90, 0x81, 0x80] ∧
    [0x41, 0xE9, 0x20AC, 0x10040].map utf8_value = [0x41, 0xE9, 0x20AC, 0x10100] ∧
    (utf8_codes (utf8_encode_all [0x41, 0xE9, 0x20AC, 0x10040] ++ 0 :: [0x42])
      = [0x41, 0xE9, 0x20AC, 0x10040].map utf8_value ∧
    (utf8_codes (utf8_encode_all [0x41, 0xE9, 0x20AC, 0x10040] ++ 0 :: [0x42])).length
      = [0x41, 0xE9, 0x20AC, 0x10040].length ∧
    (∀ c ∈ utf8_codes (utf8_encode_all [0x41, 0xE9, 0x20AC, 0x10040] ++ 0 :: [0x42]), c ≠ 0) ∧
    utf8 (utf8_encode_all [0x41, 0xE9, 0x20AC, 0x10040] ++ 0 :: [0x42])
        (utf8_encode_all [0x41, 0xE9, 0x20AC, 0x10040]).length
      = (0, (utf8_encode_all [0x41, 0xE9, 0x20AC, 0x10040]).length + 1) ∧
    utf8_stop (utf8_encode_all [0x41, 0xE9, 0x20AC, 0x10040] ++ 0 :: [0x42])
      = (utf8_encode_all [0x41, 0xE9, 0x20AC, 0x10040]).length + 1 ∧
    (layout_count (utf8_codes (utf8_encode_all [0x41, 0xE9, 0x20AC, 0x10040] ++ 0 :: [0x42]))).1
      + (layout_count
          (utf8_codes (utf8_encode_all [0x41, 0xE9, 0x20AC, 0x10040] ++ 0 :: [0x42]))).2
      = ([0x41, 0xE9, 0x20AC, 0x10040].length : Nat) ∧
    line_count [utf8_encode_all [0x41, 0xE9, 0x20AC, 0x10040] ++ 0 :: [0x42]]
      = (layout_count
          (utf8_codes (utf8_encode_all [0x41, 0xE9, 0x20AC, 0x10040] ++ 0 :: [0x42]))).2) :=
  ⟨by decide, by decide,
   C36_decoder_count [0x41, 0xE9, 0x20AC, 0x10040] [0x42] (by decide)⟩

/-! ## The width of a glyph against the width of the atlas -/

/-- The sort that `font_sort_create` writes at index `i`: placed at the cursor
after the shelf test. -/
theorem font_sort_create_placed (face : FT_Face) (F : font) (i : Nat) (c : Int) (S : sort)
    (hS : F.sorts[i]? = some S) :
    ∃ S1, (font_sort_create face F i c).sorts[i]? = some S1 ∧
      S1.W = (face c).width >>> (6 : Nat) ∧ S1.H = (face c).height >>> (6 : Nat) ∧
      S1.X = (shelf F ((face c).width >>> (6 : Nat))).x ∧
      S1.Y = (shelf F ((face c).width >>> (6 : Nat))).y := by
  obtain ⟨hsorts, -, -, -, -⟩ := shelf_frame F ((face c).width >>> (6 : Nat))
  simp [font_sort_create, poke_getElem?, hsorts, hS]

/-- C37 (counterexample): a glyph of width 32 placed at the cursor `(0, 0, 0)`
of an atlas of size 32 is moved to a new shelf and recorded at
`(0, 1, 32, 7)`. Its width is not less than the size of the atlas, and it does
not extend past the right edge: it covers the columns 0 to 31 and
`atlasX + atlasW = 32 = s`. -/
theorem C37_glyph_as_wide_as_atlas :
    (face_wide 65).width >>> (6 : Nat) = 32 ∧
    (font_sort_create face_wide
      { h := 8, a := 6, k := 1, sorts := [sort_blank 65], s := 32, x := 0, y := 0, m := 0 }
      0 65).sorts.map (fun S => (S.X, S.Y, S.W, S.H)) = [(0, 1, 32, 7)] ∧
    ∀ S ∈ (font_sort_create face_wide
      { h := 8, a := 6, k := 1, sorts := [sort_blank 65], s := 32, x := 0, y := 0, m := 0 }
      0 65).sorts, S.W ≥ 32 ∧ ¬ S.X + S.W > 32 := by
  refine ⟨?_, ?_, ?_⟩ <;> decide

/-- C37 (amended): for every placement with cursor `x ≥ 0` (and so for every
atlas size `s ≥ 1` and glyph width `W ≥ 0`), the placed sort satisfies
`0 ≤ atlasX` and
`atlasX + atlasW < s` if and only if `W < s`. A glyph with `W ≥ s` is always
moved to a new shelf and placed at `atlasX = 0`, so that
`atlasX + atlasW = W ≥ s`: it extends past the right edge of the atlas exactly
when `W > s`, and ends at the edge when `W = s`. -/
theorem C37_placement_width (face : FT_Face) (F : font) (i : Nat) (c : Int) (S : sort)
    (hS : F.sorts[i]? = some S) (hx : 0 ≤ F.x) :
    ∃ S1, (font_sort_create face F i c).sorts[i]? = some S1 ∧
      S1.W = (face c).width >>> (6 : Nat) ∧ 0 ≤ S1.X ∧
      ((0 ≤ S1.X ∧ S1.X + S1.W < F.s) ↔ S1.W < F.s) ∧
      (S1.W ≥ F.s → S1.X = 0 ∧ S1.Y = F.y + F.m + 1 ∧ S1.X + S1.W = S1.W ∧
        (S1.X + S1.W > F.s ↔ S1.W > F.s)) := by
  obtain ⟨S1, h1, hW1, -, hX, hY⟩ := font_sort_create_placed face F i c S hS
  refine ⟨S1, h1, hW1, ?_, ?_, ?_⟩
  · rw [hX]
    unfold shelf
    split_ifs <;> simp [hx]
  · rw [hX, hW1]
    unfold shelf
    simp only [ge_iff_le]
    split_ifs with h
    · simp only
      omega
    · omega
  · intro hge
    rw [hW1] at hge
    have hnew : F.x + (face c).width >>> (6 : Nat) ≥ F.s := by omega
    rw [hX, hY, hW1]
    unfold shelf
    rw [if_pos hnew]
    simp

/-- C37 (amended) at the input of the counterexample. -/
theorem C37_placement_width_witness :
    ∃ S1, (font_sort_create face_wide
        { h := 8, a := 6, k := 1, sorts := [sort_blank 65], s := 32, x := 0, y := 0, m := 0 }
        0 65).sorts[0]? = some S1 ∧
      S1.W = (face_wide 65).width >>> (6 : Nat) ∧ 0 ≤ S1.X ∧
      ((0 ≤ S1.X ∧ S1.X + S1.W < 32) ↔ S1.W < 32) ∧
      (S1.W ≥ 32 → S1.X = 0 ∧ S1.Y = 0 + 0 + 1 ∧ S1.X + S1.W = S1.W ∧
        (S1.X + S1.W > 32 ↔ S1.W > 32)) :=
  C37_placement_width face_wide
    { h := 8, a := 6, k := 1, sorts := [sort_blank 65], s := 32, x := 0, y := 0, m := 0 }
    0 65 (sort_blank 65) rfl (by decide)

/-! ## The length of a line -/

/-- The kerning side of the glyph provider reaches only the third component
of the state of `line_length`, which nothing reads. -/
theorem line_length_step_kern (face : FT_Face) (kern kern2 : FT_Kerning) (realloc : Nat → Bool)
    (F : font) (x : Int) (l l2 : Nat) (c : Nat) :
    (line_length_step face kern realloc (F, x, l) c).1
      = (line_length_step face kern2 realloc (F, x, l2) c).1 ∧
    (line_length_step face kern realloc (F, x, l) c).2.1
      = (line_length_step face kern2 realloc (F, x, l2) c).2.1 := by
  unfold line_length_step
  by_cases hc : c = 32
  · simp only [if_pos hc, and_self]
  · simp only [if_neg hc]
    rcases font_sort_lookup face realloc F (c : Int) with ⟨F1, _ | S1⟩ <;> simp

theorem line_length_loop_kern (face : FT_Face) (kern kern2 : FT_Kerning)
    (realloc : Nat → Nat → Bool) :
    ∀ (codes : List Nat) (t : Nat) (F : font) (x : Int) (l l2 : Nat),
      (line_length_loop face kern realloc codes t (F, x, l)).1
        = (line_length_loop face kern2 realloc codes t (F, x, l2)).1 ∧
      (line_length_loop face kern realloc codes t (F, x, l)).2.1
        = (line_length_loop face kern2 realloc codes t (F, x, l2)).2.1 := by
  intro codes
  induction codes with
  | nil =>
    intro t F x l l2
    exact ⟨rfl, rfl⟩
  | cons c cs ih =>
    intro t F x l l2
    obtain ⟨h1, h2⟩ := line_length_step_kern face kern kern2 (realloc t) F x l l2 c
    obtain ⟨F1, x1, l1, e1⟩ : ∃ F1 x1 l1,
        line_length_step face kern (realloc t) (F, x, l) c = (F1, x1, l1) := ⟨_, _, _, rfl⟩
    obtain ⟨F2, x2, l3, e2⟩ : ∃ F2 x2 l3,
        line_length_step face kern2 (realloc t) (F, x, l2) c = (F2, x2, l3) := ⟨_, _, _, rfl⟩
    rw [e1, e2] at h1 h2
    simp only at h1 h2
    subst h1 h2
    simp only [line_length_loop, e1, e2]
    exact ih (t + 1) F1 x1 l1 l3

/-- The pen of `line_length` is an accumulator: starting the loop at the pen
`x` adds `x` to the result of the loop started at 0. -/
theorem line_length_step_offset (face : FT_Face) (kern : FT_Kerning) (realloc : Nat → Bool)
    (F : font) (x : Int) (l : Nat) (c : Nat) :
    (line_length_step face kern realloc (F, x, l) c).1
      = (line_length_step face kern realloc (F, 0, l) c).1 ∧
    (line_length_step face kern realloc (F, x, l) c).2.1
      = x + (line_length_step face kern realloc (F, 0, l) c).2.1 ∧
    (line_length_step face kern realloc (F, x, l) c).2.2
      = (line_length_step face kern realloc (F, 0, l) c).2.2 := by
  unfold line_length_step
  by_cases hc : c = 32
  · simp only [if_pos hc, zero_add, and_self]
  · simp only [if_neg hc]
    rcases font_sort_lookup face realloc F (c : Int) with ⟨F1, _ | S1⟩ <;> simp

theorem line_length_loop_offset (face : FT_Face) (kern : FT_Kerning)
    (realloc : Nat → Nat → Bool) :
    ∀ (codes : List Nat) (t : Nat) (F : font) (x y : Int) (l : Nat),
      (line_length_loop face kern realloc codes t (F, x + y, l)).1
        = (line_length_loop face kern realloc codes t (F, y, l)).1 ∧
      (line_length_loop face kern realloc codes t (F, x + y, l)).2.1
        = x + (line_length_loop face kern realloc codes t (F, y, l)).2.1 := by
  intro codes
  induction codes with
  | nil =>
    intro t F x y l
    exact ⟨rfl, rfl⟩
  | cons c cs ih =>
    intro t F x y l
    obtain ⟨a1, a2, a3⟩ := line_length_step_offset face kern (realloc t) F (x + y) l c
    obtain ⟨b1, b2, b3⟩ := line_length_step_offset face kern (realloc t) F y l c
    obtain ⟨F1, x1, l1, e1⟩ : ∃ F1 x1 l1,
        line_length_step face kern (realloc t) (F, x + y, l) c = (F1, x1, l1) := ⟨_, _, _, rfl⟩
    obtain ⟨F2, x2, l2, e2⟩ : ∃ F2 x2 l2,
        line_length_step face kern (realloc t) (F, y, l) c = (F2, x2, l2) := ⟨_, _, _, rfl⟩
    rw [e1] at a1 a2 a3
    rw [e2] at b1 b2 b3
    simp only at a1 a2 a3 b1 b2 b3
    have hF : F1 = F2 := by rw [a1, b1]
    have hl : l1 = l2 := by rw [a3, b3]
    have hx : x1 = x + x2 := by rw [a2, b2]; ring
    subst hF hl hx
    simp only [line_length_loop, e1, e2]
    exact ih (t + 1) F1 x x2 l1

/-- The loop of `line_length` over two lists of codes in a row. -/
theorem line_length_loop_append (face : FT_Face) (kern : FT_Kerning)
    (realloc : Nat → Nat → Bool) :
    ∀ (cs1 cs2 : List Nat) (t : Nat) (st : font × Int × Nat),
      line_length_loop face kern realloc (cs1 ++ cs2) t st
        = line_length_loop face kern realloc cs2 (t + cs1.length)
            (line_length_loop face kern realloc cs1 t st) := by
  intro cs1
  induction cs1 with
  | nil =>
    intro cs2 t st
    rfl
  | cons c cs ih =>
    intro cs2 t st
    rw [List.cons_append, line_length_loop, line_length_loop, ih, List.length_cons]
    congr 1
    omega

theorem line_length_loop_realloc (face : FT_Face) (kern : FT_Kerning)
    (realloc : Nat → Nat → Bool) (n : Nat) :
    ∀ (codes : List Nat) (t : Nat) (st : font × Int × Nat),
      line_length_loop face kern realloc codes (t + n) st
        = line_length_loop face kern (fun u => realloc (u + n)) codes t st := by
  intro codes
  induction codes with
  | nil =>
    intro t st
    rfl
  | cons c cs ih =>
    intro t st
    simp only [line_length_loop]
    have := ih (t + 1) (line_length_step face kern (realloc (t + n)) st c)
    rw [← this]
    congr 1
    omega

theorem utf8_codes_nil : utf8_codes [] = [] := by
  decide

/-- With a successful allocation a lookup gives a sort, and in a table whose
sorts carry the advance of their glyph it carries the advance of the glyph
looked up; the table stays such a table. -/
theorem font_sort_lookup_advance (face : FT_Face) (realloc : Nat → Bool) (F : font) (c : Int)
    (hre : realloc (F.n + 1) = true)
    (hcons : ∀ S ∈ F.sorts, S.a = (face S.c).advance_x >>> (6 : Nat)) :
    (∃ S, (font_sort_lookup face realloc F c).2 = some S ∧
      S.a = (face c).advance_x >>> (6 : Nat)) ∧
    (∀ S ∈ (font_sort_lookup face realloc F c).1.sorts,
      S.a = (face S.c).advance_x >>> (6 : Nat)) := by
  have hins : ∀ S ∈ (font_sort_insert face F c).sorts,
      S.a = (face S.c).advance_x >>> (6 : Nat) := by
    intro S hS
    rcases (font_sort_insert_mem face F c S).1 hS with hold | hnew
    · exact hcons S hold
    · rw [hnew]
      rfl
  rcases font_sort_lookup_cases face realloc F c with ⟨h1, h2⟩ | ⟨h1, -, S, h2, h3, h4⟩
  · rcases h2 with ⟨-, hfail⟩ | ⟨S, h2, h3, h4⟩
    · rw [hre] at hfail
      exact absurd hfail (by simp)
    · refine ⟨⟨S, h2, ?_⟩, ?_⟩
      · rw [hcons S h3, h4]
      · rw [h1]
        exact hcons
  · refine ⟨⟨S, h2, ?_⟩, ?_⟩
    · rw [hins S h3, h4]
    · rw [h1]
      exact hins

/-- When every allocation succeeds and the sorts of the table carry the
advance of their glyph, the loop of `line_length` adds up the sum of the
advances. -/
theorem line_length_loop_sum (face : FT_Face) (kern : FT_Kerning) (realloc : Nat → Nat → Bool)
    (hre : ∀ t n, realloc t n = true) (a : Int) (k : ℚ) :
    ∀ (codes : List Nat) (t : Nat) (F : font) (x : Int) (l : Nat), F.a = a → F.k = k →
      (∀ S ∈ F.sorts, S.a = (face S.c).advance_x >>> (6 : Nat)) →
      (line_length_loop face kern realloc codes t (F, x, l)).2.1
        = x + advance_sum face a k codes := by
  intro codes
  induction codes with
  | nil =>
    intro t F x l _ _ _
    simp [line_length_loop, advance_sum]
  | cons c cs ih =>
    intro t F x l ha hk hcons
    have hsum : advance_sum face a k (c :: cs)
        = (if c = 32 then to_int ((a : ℚ) * k)
            else to_int ((((face (c : Int)).advance_x >>> (6 : Nat) : Int) : ℚ) * k))
          + advance_sum face a k cs := by
      simp [advance_sum]
    rw [line_length_loop, hsum]
    by_cases hc : c = 32
    · simp only [line_length_step, if_pos hc]
      rw [ih (t + 1) F _ l ha hk hcons, ha, hk]
      ring
    · obtain ⟨⟨S, hS, hSa⟩, hcons1⟩ :=
        font_sort_lookup_advance face (realloc t) F (c : Int) (hre t _) hcons
      obtain ⟨-, -, hFa, hFk⟩ := font_sort_lookup_frame face (realloc t) F (c : Int)
      obtain ⟨F1, r, hlook⟩ : ∃ F1 r, font_sort_lookup face (realloc t) F (c : Int) = (F1, r) :=
        ⟨_, _, rfl⟩
      rw [hlook] at hS hcons1 hFa hFk
      simp only at hS hcons1 hFa hFk
      subst hS
      simp only [line_length_step, if_neg hc, hlook]
      rw [ih (t + 1) F1 _ _ (hFa.trans ha) (hFk.trans hk) hcons1, hSa, hFk, hk]
      ring

/-- C38: `line_length` ignores kerning. For every string and font the result
does not depend on the kerning side of the glyph provider, and
`line_length("")` is 0. The length of a well-formed string followed by a
second string is the length of the first plus the length of the second,
measured on the font as the first call leaves it. When every allocation
succeeds and the sorts of the table carry the advance of their glyph (as the
sorts that `font_sort_create` writes do), the result is the sum over the
decoded codes of `(int) (a * k)` for each space and `(int) (S.a * k)` for each
other character with its sort `S`, and the length of the concatenation is the
sum of the lengths of the two strings on the same font. -/
theorem C38_line_length_sum (face : FT_Face) (kern kern2 : FT_Kerning)
    (realloc : Nat → Nat → Bool) (cs : List Nat) (str : CString) (F : font)
    (hcs : ∀ c ∈ cs, c ≠ 0 ∧ c ≤ 0x10FFFF) :
    line_length face kern realloc str F = line_length face kern2 realloc str F ∧
    line_length face kern realloc [] F = (F, 0) ∧
    (line_length face kern realloc (utf8_encode_all cs ++ str) F).2
      = (line_length face kern realloc (utf8_encode_all cs) F).2
        + (line_length face kern (fun t => realloc (t + cs.length)) str
            (line_length face kern realloc (utf8_encode_all cs) F).1).2 ∧
    ((∀ t n, realloc t n = true) →
      (∀ S ∈ F.sorts, S.a = (face S.c).advance_x >>> (6 : Nat)) →
      (line_length face kern realloc str F).2 = advance_sum face F.a F.k (utf8_codes str) ∧
      (line_length face kern realloc (utf8_encode_all cs ++ str) F).2
        = (line_length face kern realloc (utf8_encode_all cs) F).2
          + (line_length face kern realloc str F).2) := by
  have hcodes := utf8_codes_encode_all cs str hcs
  have hcodes1 : utf8_codes (utf8_encode_all cs) = cs.map utf8_value := by
    have := utf8_codes_encode_all cs [] hcs
    rw [List.append_nil] at this
    rw [this, utf8_codes_nil, List.append_nil]
  refine ⟨?_, ?_, ?_, ?_⟩
  · obtain ⟨h1, h2⟩ := line_length_loop_kern face kern kern2 realloc (utf8_codes str) 0 F 0 0 0
    exact Prod.ext h1 h2
  · rfl
  · simp only [line_length, hcodes, hcodes1, line_length_loop_append, List.length_map, zero_add]
    obtain ⟨F1, x1, l1, e1⟩ : ∃ F1 x1 l1,
        line_length_loop face kern realloc (cs.map utf8_value) 0 (F, 0, 0) = (F1, x1, l1) :=
      ⟨_, _, _, rfl⟩
    rw [e1]
    simp only
    have hshift := line_length_loop_realloc face kern realloc cs.length (utf8_codes str) 0
      (F1, x1, l1)
    rw [zero_add] at hshift
    rw [hshift]
    have hoff := (line_length_loop_offset face kern (fun u => realloc (u + cs.length))
      (utf8_codes str) 0 F1 x1 0 l1).2
    rw [add_zero] at hoff
    rw [hoff]
    have hk := (line_length_loop_kern face kern kern (fun u => realloc (u + cs.length))
      (utf8_codes str) 0 F1 0 l1 0).2
    rw [hk]
  · intro hre hcons
    have hsum : ∀ s : CString, (line_length face kern realloc s F).2
        = advance_sum face F.a F.k (utf8_codes s) := by
      intro s
      have := line_length_loop_sum face kern realloc hre F.a F.k (utf8_codes s) 0 F 0 0 rfl rfl
        hcons
      simpa [line_length] using this
    refine ⟨hsum str, ?_⟩
    rw [hsum, hsum, hsum, hcodes, hcodes1]
    simp [advance_sum]

/-- C38 for the strings `"a "` and `"b"`, with and without kerning: the length
of `"a b"` is `11 + 6 + 11`. -/
theorem C38_line_length_sum_witness :
    (line_length face_square kern_tight realloc_always (utf8_encode_all [0x61, 0x20] ++ [0x62])
      (font_fresh 8 6 1 32)).2 = 28 ∧
    (line_length face_square kern_tight realloc_always [0x62] (font_fresh 8 6 1 32)
      = line_length face_square kern_none realloc_always [0x62] (font_fresh 8 6 1 32) ∧
    line_length face_square kern_tight realloc_always [] (font_fresh 8 6 1 32)
      = (font_fresh 8 6 1 32, 0) ∧
    (line_length face_square kern_tight realloc_always (utf8_encode_all [0x61, 0x20] ++ [0x62])
        (font_fresh 8 6 1 32)).2
      = (line_length face_square kern_tight realloc_always (utf8_encode_all [0x61, 0x20])
          (font_fresh 8 6 1 32)).2
        + (line_length face_square kern_tight
            (fun t => realloc_always (t + [0x61, 0x20].length)) [0x62]
            (line_length face_square kern_tight realloc_always (utf8_encode_all [0x61, 0x20])
              (font_fresh 8 6 1 32)).1).2 ∧
    ((∀ t n, realloc_always t n = true) →
      (∀ S ∈ (font_fresh 8 6 1 32).sorts, S.a = (face_square S.c).advance_x >>> (6 : Nat)) →
      (line_length face_square kern_tight realloc_always [0x62] (font_fresh 8 6 1 32)).2
        = advance_sum face_square (font_fresh 8 6 1 32).a (font_fresh 8 6 1 32).k
            (utf8_codes [0x62]) ∧
      (line_length face_square kern_tight realloc_always
          (utf8_encode_all [0x61, 0x20] ++ [0x62]) (font_fresh 8 6 1 32)).2
        = (line_length face_square kern_tight realloc_always (utf8_encode_all [0x61, 0x20])
            (font_fresh 8 6 1 32)).2
          + (line_length face_square kern_tight realloc_always [0x62]
              (font_fresh 8 6 1 32)).2)) :=
  ⟨by decide!,
   C38_line_length_sum face_square kern_tight kern_none realloc_always [0x61, 0x20] [0x62]
    (font_fresh 8 6 1 32) (by decide)⟩

/-! ## The axes of the simplex noise -/

/-- The two chains of comparisons choose different axes among 0, 1, 2. -/
theorem noise_axes {α : Type} [LinearOrder α] (v0 v1 v2 : α) :
    (noise.hi v0 v1 v2 = 0 ∨ noise.hi v0 v1 v2 = 1 ∨ noise.hi v0 v1 v2 = 2) ∧
    (noise.lo v0 v1 v2 = 0 ∨ noise.lo v0 v1 v2 = 1 ∨ noise.lo v0 v1 v2 = 2) ∧
    noise.hi v0 v1 v2 ≠ noise.lo v0 v1 v2 := by
  unfold noise.hi noise.lo
  simp only [ge_iff_le]
  rcases lt_or_le v0 v2 with a | a <;> rcases lt_or_le v0 v1 with b | b <;>
    rcases lt_or_le v1 v2 with c | c
  · simp [a, b, c, a.not_le, b.not_le, c.not_le]
  · simp [a, b, c, a.not_le, b.not_le, c.not_lt]
  · simp [a, b, c, a.not_le, b.not_lt, c.not_le]
  · exact absurd (lt_of_le_of_lt (le_trans c b) a) (lt_irrefl _)
  · exact absurd (lt_of_le_of_lt a (lt_trans b c)) (lt_irrefl _)
  · simp [a, b, c, a.not_lt, b.not_le, c.not_lt]
  · simp [a, b, c, a.not_lt, b.not_lt, c.not_le]
  · simp [a, b, c, a.not_lt, b.not_lt, c.not_lt]

/-- C39: in `noise_sample`, for all coordinates `v0`, `v1`, `v2` of a linear
order, the axes `hi` and `lo` are both among 0, 1, 2 and differ, so
`3 - hi - lo` is the remaining axis. With the calls of `K` made from left to
right, every index into `A` is in bounds: the first three calls return and
increment `A[0]`, `A[1]`, `A[2]` once each, in the order `hi`, `3 - hi - lo`,
`lo`; `A` is `(1, 1, 1)` at the fourth call, which increments `A[0]`; and
`noise_sample` returns the sum of the four values for every point. -/
theorem C39_noise_axes :
    (∀ (α : Type) (_ : LinearOrder α) (v0 v1 v2 : α),
      (noise.hi v0 v1 v2 = 0 ∨ noise.hi v0 v1 v2 = 1 ∨ noise.hi v0 v1 v2 = 2) ∧
      (noise.lo v0 v1 v2 = 0 ∨ noise.lo v0 v1 v2 = 1 ∨ noise.lo v0 v1 v2 = 2) ∧
      noise.hi v0 v1 v2 ≠ noise.lo v0 v1 v2 ∧
      0 ≤ 3 - noise.hi v0 v1 v2 - noise.lo v0 v1 v2 ∧
      3 - noise.hi v0 v1 v2 - noise.lo v0 v1 v2 < 3 ∧
      3 - noise.hi v0 v1 v2 - noise.lo v0 v1 v2 ≠ noise.hi v0 v1 v2 ∧
      3 - noise.hi v0 v1 v2 - noise.lo v0 v1 v2 ≠ noise.lo v0 v1 v2) ∧
    (∀ (i : List Int) (v : List ℚ) (v0 v1 v2 : ℚ), ∃ A1 A2 : List Int,
      noise.K [0, 0, 0] i v (noise.hi v0 v1 v2) = some (noise.K_value [0, 0, 0] i v, A1) ∧
      A1 = [0, 0, 0].set (noise.hi v0 v1 v2).toNat 1 ∧
      noise.K A1 i v (3 - noise.hi v0 v1 v2 - noise.lo v0 v1 v2)
        = some (noise.K_value A1 i v, A2) ∧
      A2 = A1.set (3 - noise.hi v0 v1 v2 - noise.lo v0 v1 v2).toNat 1 ∧
      noise.K A2 i v (noise.lo v0 v1 v2) = some (noise.K_value A2 i v, [1, 1, 1]) ∧
      noise.K [1, 1, 1] i v 0 = some (noise.K_value [1, 1, 1] i v, [2, 1, 1])) ∧
    (∀ x y z : ℚ, ∃ r, noise.noise_sample x y z = some r) := by
  have hK : ∀ (i : List Int) (v : List ℚ) (v0 v1 v2 : ℚ), ∃ A1 A2 : List Int,
      noise.K [0, 0, 0] i v (noise.hi v0 v1 v2) = some (noise.K_value [0, 0, 0] i v, A1) ∧
      A1 = [0, 0, 0].set (noise.hi v0 v1 v2).toNat 1 ∧
      noise.K A1 i v (3 - noise.hi v0 v1 v2 - noise.lo v0 v1 v2)
        = some (noise.K_value A1 i v, A2) ∧
      A2 = A1.set (3 - noise.hi v0 v1 v2 - noise.lo v0 v1 v2).toNat 1 ∧
      noise.K A2 i v (noise.lo v0 v1 v2) = some (noise.K_value A2 i v, [1, 1, 1]) ∧
      noise.K [1, 1, 1] i v 0 = some (noise.K_value [1, 1, 1] i v, [2, 1, 1]) := by
    intro i v v0 v1 v2
    obtain ⟨hhi, hlo, hne⟩ := noise_axes v0 v1 v2
    refine ⟨_, _, ?_, rfl, ?_, rfl, ?_, ?_⟩ <;>
      rcases hhi with h | h | h <;> rcases hlo with l | l | l <;>
      first
      | exact absurd (h.trans l.symm) hne
      | (rw [h, l]; simp [noise.K])
      | (rw [h]; simp [noise.K])
      | simp [noise.K]
  refine ⟨?_, hK, ?_⟩
  · intro α _ v0 v1 v2
    obtain ⟨hhi, hlo, hne⟩ := noise_axes v0 v1 v2
    refine ⟨hhi, hlo, hne, ?_, ?_, ?_, ?_⟩ <;> omega
  · intro x y z
    obtain ⟨A1, A2, h1, -, h2, -, h3, h4⟩ :=
      hK (noise.cell x y z).1 (noise.cell x y z).2 ((noise.cell x y z).2.getD 0 0)
        ((noise.cell x y z).2.getD 1 0) ((noise.cell x y z).2.getD 2 0)
    unfold noise.noise_sample
    simp only [h1, h2, h3, h4]
    exact ⟨_, rfl⟩

end Util3d
